import Mathlib

/-!
# Constant-time scalar multiplication (`src/ec_mult.h`)

A shallow embedding of the window extractor, the Booth recoder, the table
builder, the oblivious gather, the fixed-window multipliers and the two
ladders of `ec_mult.h`, followed by theorems about them.

Modelling conventions.

* `limb_t` is an unsigned machine word of `LB` bits, `LB` being declared in a
  header that is not part of the sources (`LIMB_T_BITS`); it is a parameter of
  every routine that computes on limbs, and limb arithmetic is natural-number
  arithmetic reduced modulo `2 ^ LB`.
* `size_t` counters are natural numbers; a subtraction that would wrap around
  makes the routine fail (`none`).
* `byte` is `Fin 256`, a byte string is a list of bytes, and every read is
  bounds-checked: a read past the end fails (`none`).
* A point is an element of an additive commutative group `G`.  A memory cell
  that holds a point is an `Option G`, `none` standing for a cell that was
  never written; reading such a cell fails.
* Loops are recursions on a fuel argument that re-test the loop condition of
  the source at every step; the callers supply the fuel, and running out of
  fuel is a failure (`none`).
* The point primitives are not part of the sources.  `ptype_add`, `ptype_dadd`
  and `ptype_add_affine` are the group law on all operands.  For the general
  addition this is an idealisation: per the header comments it handles the
  point at infinity but not doubling.  That addition is
  `ptype_add_no_doubling`, and the routines that call `ptype_add` are also
  given with the addition as a parameter (`ptype_mult_w_with`,
  `ptypes_mult_w_with`), which for the group law are the routines above.
-/

namespace EcMult

/-! ## Machine words -/

/-- The type `byte` of the source (`unsigned char`). -/
abbrev byte := Fin 256

/-- Reduction of a natural number to a limb of `LB` bits. -/
def limb (LB x : Nat) : Nat := x % 2 ^ LB

/-- Limb subtraction `a - b`, wrapping modulo `2 ^ LB`. -/
def limb_sub (LB a b : Nat) : Nat := (limb LB a + (2 ^ LB - limb LB b)) % 2 ^ LB

/-- Limb addition `a + b`, wrapping modulo `2 ^ LB`. -/
def limb_add (LB a b : Nat) : Nat := (a + b) % 2 ^ LB

/-- Limb left shift `a << n`, wrapping modulo `2 ^ LB`. -/
def limb_shl (LB a n : Nat) : Nat := (a <<< n) % 2 ^ LB

/-- Limb complement `~a`. -/
def limb_not (LB a : Nat) : Nat := 2 ^ LB - 1 - limb LB a

/-- Subtraction on `size_t` that fails instead of wrapping around. -/
def size_sub (a b : Nat) : Option Nat := if b ≤ a then some (a - b) else none

/-- The integer a little-endian byte string stands for. -/
def le_value : List byte → Nat
  | [] => 0
  | b :: bs => b.val + 256 * le_value bs

/-! ## Window extractor and Booth recoder -/

/-- The routine `get_wval`: two byte loads, combined and shifted right. -/
def get_wval (LB : Nat) (d : List byte) (off bits : Nat) : Option Nat := do
  let top ← size_sub (off + bits) 1
  let hi ← d[top / 8]?
  let lo ← d[off / 8]?
  let ret := limb_shl LB hi.val 8 ||| lo.val
  some (ret >>> (off % 8))

/-- The routine `booth_encode`. -/
def booth_encode (LB wval sz : Nat) : Nat :=
  let mask := limb_sub LB 0 (wval >>> sz)
  let wval := limb_add LB wval 1 >>> 1
  (wval &&& limb_not LB mask) ||| (limb_sub LB 0 wval &&& mask)

/-! ## Point primitives

The point arithmetic lives in `point.h`, which is not part of the sources.
-/

section Primitives

variable {G : Type} [AddCommGroup G]

/-- Modelled from the spec: `vec_zero` on a point, "zeroing ... of a point's
in-memory representation", the point at infinity, i.e. the identity. -/
def vec_zero : G := 0

/-- Modelled from the spec: `vec_copy`, the "raw copy of a point's in-memory
representation". -/
def vec_copy (src : G) : G := src

/-- Modelled from the spec: `ptype_double`, "doubling: `P → 2P`, correct when
`P` is the identity". -/
def ptype_double (a : G) : G := a + a

/-- Modelled from the spec: `ptype_add`, "general addition: `P, Q → P+Q`, valid
when inputs are non-identity (caller-guaranteed) or otherwise documented".
This is the group law on all operands, the addition C1 stipulates; it idealises
the primitive, which per the header comments handles the point at infinity but
not doubling.  The addition as the comments describe it is
`ptype_add_no_doubling`, and the routines that call `ptype_add` are also given
with the addition as a parameter (`ptype_mult_w_with`, `ptypes_mult_w_with`). -/
def ptype_add (a b : G) : G := a + b

/-- Modelled from the spec: `ptype_dadd`, "defensive addition: `P, Q → P+Q`,
correct even when either operand is the identity". -/
def ptype_dadd (a b : G) : G := a + b

/-- Modelled from the spec: `ptype_add_affine`, "mixed affine addition:
`P(general) + Q(affine) → P+Q`". -/
def ptype_add_affine (a b : G) : G := a + b

/-- Modelled from the spec: `ptype_ccopy`, "conditional copy: copy `src` into
`dst` iff a flag is set". -/
def ptype_ccopy (dst src : G) (flag : Nat) : G := if flag = 0 then dst else src

/-- Modelled from the spec: `ptype_cneg`, "conditional negate: negate the
sign-bearing coordinate iff a flag is set". -/
def ptype_cneg (p : G) (flag : Nat) : G := if flag = 0 then p else -p

/-! ## Memory cells -/

/-- Read of entry `i` of a table whose entries are counted from one (`table +
i - 1`, or `row[i]` after `row--`): entry `i` is cell `i - 1`, and entry `0`
lies outside the array. -/
def load1 (row : List (Option G)) (i : Nat) : Option G :=
  if i = 0 then none else (row[i - 1]?).join

/-- Write of entry `i` of a table whose entries are counted from one. -/
def store1 (row : List (Option G)) (i : Nat) (v : G) : Option (List (Option G)) :=
  if 0 < i ∧ i - 1 < row.length then some (row.set (i - 1) (some v)) else none

/-- The table of the first `M` multiples `1·P, 2·P, …, M·P`, by repeated
addition (the reference the table builder is compared with). -/
def multiples (M : Nat) (P : G) : List G := (List.range M).map (fun i => (i + 1) • P)

/-! ## Oblivious gather -/

/-- The scan `for (i = 1; i <= 1<<(SZ-1); i++) ptype_ccopy(p, table + i - 1,
i == booth_idx)` of `ptype_gather_booth_w`. -/
def gather_loop (table : List (Option G)) (booth_idx M : Nat) :
    Nat → Nat → G → Option G
  | 0, i, p => if i ≤ M then none else some p
  | fuel + 1, i, p =>
    if i ≤ M then do
      let src ← load1 table i
      gather_loop table booth_idx M fuel (i + 1)
        (ptype_ccopy p src (if i = booth_idx then 1 else 0))
    else some p

/-- The routine `ptype_gather_booth_w<SZ>`; the table size `1<<(SZ-1)` is
undefined for `SZ = 0`. -/
def ptype_gather_booth (SZ : Nat) (table : List (Option G)) (booth_idx : Nat) :
    Option G :=
  if SZ = 0 then none else do
  let booth_sign := (booth_idx >>> SZ) &&& 1
  let booth_idx := booth_idx &&& ((1 <<< SZ) - 1)
  let p : G := vec_zero
  let p ← gather_loop table booth_idx (1 <<< (SZ - 1)) (1 <<< (SZ - 1)) 1 p
  some (ptype_cneg p booth_sign)

/-! ## Table builder -/

/-- The loop `for (i = 3, j = 2; i < 1<<(SZ-1); i += 2, j++)` of
`ptype_precompute_w`. -/
def precompute_loop (M : Nat) :
    Nat → Nat → Nat → List (Option G) → Option (List (Option G))
  | 0, i, _, row => if i < M then none else some row
  | fuel + 1, i, j, row =>
    if i < M then do
      let a ← load1 row j
      let jm ← size_sub j 1
      let b ← load1 row jm
      let row ← store1 row i (ptype_add a b)
      let c ← load1 row j
      let row ← store1 row (i + 1) (ptype_double c)
      precompute_loop M fuel (i + 2) (j + 1) row
    else some row

/-- The routine `ptype_precompute_w<SZ>`; `row` is the storage as the caller
hands it over, and the table size `1<<(SZ-1)` is undefined for `SZ = 0`. -/
def ptype_precompute (SZ : Nat) (row : List (Option G)) (point : G) :
    Option (List (Option G)) :=
  if SZ = 0 then none else do
  let row ← store1 row 1 (vec_copy point)
  let row ← store1 row 2 (ptype_double point)
  precompute_loop (1 <<< (SZ - 1)) (1 <<< (SZ - 1)) 3 2 row

/-! ## Fixed-window multipliers -/

/-- The `SZ`-fold doubling `for (j = 0; j < SZ; j++) ptype_double(ret, ret)`. -/
def double_loop : Nat → G → G
  | 0, ret => ret
  | n + 1, ret => double_loop n (ptype_double ret)

/-- The window value of `ptype_mult_w`: `bits ? get_wval(scalar, bits - 1,
window + 1) : (limb_t)scalar[0] << 1`, then `wval &= wmask`. -/
def window_value (LB : Nat) (scalar : List byte) (bits window : Nat) : Option Nat := do
  let wmask := limb_sub LB (limb_shl LB 1 (window + 1)) 1
  let wval ←
    if bits ≠ 0 then do
      let off ← size_sub bits 1
      get_wval LB scalar off (window + 1)
    else
      (scalar[0]?).map (fun b => limb_shl LB b.val 1)
  some (wval &&& wmask)

/-- The loop `while (bits > 0)` of `ptype_mult_w`. -/
def mult_w_loop (LB SZ : Nat) (table : List (Option G)) (scalar : List byte) :
    Nat → Nat → G → Option G
  | 0, bits, ret => if bits > 0 then none else some ret
  | fuel + 1, bits, ret =>
    if bits > 0 then do
      let ret := double_loop SZ ret
      let window := SZ
      let bits ← size_sub bits window
      let wval ← window_value LB scalar bits window
      let wval := booth_encode LB wval SZ
      let temp ← ptype_gather_booth SZ table wval
      mult_w_loop LB SZ table scalar fuel bits (ptype_add ret temp)
    else some ret

/-- The routine `ptype_mult_w<SZ>`.  The local `table` starts out
uninitialised; `bits % SZ` is undefined for `SZ = 0`. -/
def ptype_mult_w (LB SZ : Nat) (point : G) (scalar : List byte) (bits : Nat) :
    Option G := do
  let table ← ptype_precompute SZ (List.replicate (1 <<< (SZ - 1)) none) point
  if SZ = 0 then none else
  let window := bits % SZ
  let bits ← size_sub bits window
  let wval ← window_value LB scalar bits window
  let wval := booth_encode LB wval SZ
  let ret ← ptype_gather_booth SZ table wval
  mult_w_loop LB SZ table scalar bits bits ret

/-- The loop `for (i = 0; i < npoints; i++) ptype_precompute_w(table[i],
points[i])` of `ptypes_mult_w`. -/
def precompute_all (SZ : Nat) (points : List G) (npoints : Nat) :
    Nat → Nat → List (List (Option G)) → Option (List (List (Option G)))
  | 0, i, table => if i < npoints then none else some table
  | fuel + 1, i, table =>
    if i < npoints then do
      let row ← table[i]?
      let point ← points[i]?
      let row ← ptype_precompute SZ row point
      precompute_all SZ points npoints fuel (i + 1) (table.set i row)
    else some table

/-- The loop `for (; i < npoints; i++)` inside the `while` of `ptypes_mult_w`:
every window value comes from `get_wval`. -/
def mults_inner_loop (LB SZ : Nat) (table : List (List (Option G)))
    (scalars : List (List byte)) (npoints bits window wmask : Nat) :
    Nat → Nat → G → Option G
  | 0, i, ret => if i < npoints then none else some ret
  | fuel + 1, i, ret =>
    if i < npoints then do
      let scalar ← scalars[i]?
      let off ← size_sub bits 1
      let wval ← get_wval LB scalar off (window + 1)
      let wval := wval &&& wmask
      let wval := booth_encode LB wval SZ
      let row ← table[i]?
      let temp ← ptype_gather_booth SZ row wval
      mults_inner_loop LB SZ table scalars npoints bits window wmask fuel (i + 1)
        (ptype_dadd ret temp)
    else some ret

/-- The closing loop `for (; i < npoints; i++)` of `ptypes_mult_w`: every
window value is `(scalars[i][0] << 1) & wmask`. -/
def mults_last_loop (LB SZ : Nat) (table : List (List (Option G)))
    (scalars : List (List byte)) (npoints wmask : Nat) :
    Nat → Nat → G → Option G
  | 0, i, ret => if i < npoints then none else some ret
  | fuel + 1, i, ret =>
    if i < npoints then do
      let scalar ← scalars[i]?
      let b ← scalar[0]?
      let wval := (b.val <<< 1) &&& wmask
      let wval := booth_encode LB wval SZ
      let row ← table[i]?
      let temp ← ptype_gather_booth SZ row wval
      mults_last_loop LB SZ table scalars npoints wmask fuel (i + 1)
        (ptype_dadd ret temp)
    else some ret

/-- The loop `while (bits > 0)` of `ptypes_mult_w`; it hands `wmask`, `i` and
the accumulator over to the closing loop. -/
def mults_while (LB SZ : Nat) (table : List (List (Option G)))
    (scalars : List (List byte)) (npoints : Nat) :
    Nat → Nat → Nat → Nat → Nat → G → Option (Nat × Nat × G)
  | 0, bits, _, wmask, i, ret => if bits > 0 then none else some (wmask, i, ret)
  | fuel + 1, bits, window, wmask, i, ret =>
    if bits > 0 then do
      let ret ← mults_inner_loop LB SZ table scalars npoints bits window wmask
        npoints i ret
      let ret := double_loop SZ ret
      let window := SZ
      let wmask := limb_sub LB (limb_shl LB 1 (window + 1)) 1
      let bits ← size_sub bits window
      mults_while LB SZ table scalars npoints fuel bits window wmask 0 ret
    else some (wmask, i, ret)

/-- The routine `ptypes_mult_w<SZ>`.  `table` is `none` for a `NULL` argument,
in which case fresh uninitialised storage for `npoints` rows is taken. -/
def ptypes_mult_w (LB SZ : Nat) (points : List G) (npoints : Nat)
    (scalars : List (List byte)) (bits : Nat)
    (table : Option (List (List (Option G)))) : Option G := do
  let table :=
    match table with
    | some t => t
    | none => List.replicate npoints (List.replicate (1 <<< (SZ - 1)) none)
  let table ← precompute_all SZ points npoints npoints 0 table
  if SZ = 0 then none else
  let window := bits % SZ
  let wmask := limb_sub LB (limb_shl LB 1 (window + 1)) 1
  let bits ← size_sub bits window
  let scalar0 ← scalars[0]?
  let wval ←
    if bits > 0 then do
      let off ← size_sub bits 1
      let v ← get_wval LB scalar0 off (window + 1)
      some (v &&& wmask)
    else
      (scalar0[0]?).map (fun b => (b.val <<< 1) &&& wmask)
  let wval := booth_encode LB wval SZ
  let row0 ← table[0]?
  let ret ← ptype_gather_booth SZ row0 wval
  let (wmask, i, ret) ← mults_while LB SZ table scalars npoints bits bits window wmask 1 ret
  mults_last_loop LB SZ table scalars npoints wmask npoints i ret

/-! ## Affine ladder -/

/-- The loop `while (bits--)` of `ptype_affine_mult_ladder`, by recursion on
the counter.  The bit is read as `(scalar[bits / LIMB_T_BITS] >> (bits %
LIMB_T_BITS)) & 1` on the byte string `scalar`.  The shift is the mathematical
one, so a byte shifted by 8 or more gives 0.  In C the byte is promoted to
`int`, and a count of 32 or more (possible for 64-bit limbs only) is
undefined; for such counts the model fixes the outcome 0, which is also what a
machine that takes the count modulo 32 gives whenever the byte shifted
is 0. -/
def affine_ladder_loop (LB : Nat) (p_affine : G) (scalar : List byte) :
    Nat → G → Option G
  | 0, ret => some ret
  | bits + 1, ret => do
    let ret := ptype_double ret
    let sum := ptype_add_affine ret p_affine
    let b ← scalar[bits / LB]?
    let bit := (b.val >>> (bits % LB)) &&& 1
    affine_ladder_loop LB p_affine scalar bits (ptype_ccopy ret sum bit)

/-- The routine `ptype_affine_mult_ladder`. -/
def ptype_affine_mult_ladder (LB : Nat) (p_affine : G) (scalar : List byte)
    (bits : Nat) : Option G :=
  affine_ladder_loop LB p_affine scalar bits vec_zero

end Primitives

/-! ## XZ Montgomery ladder -/

/-- Modelled from the spec: `is_bit_set`, the bit of the byte string at a bit
position ("for each bit from most-significant to least-significant"). -/
def is_bit_set (v : List byte) (i : Nat) : Option Nat :=
  (v[i / 8]?).map (fun b => (b.val >>> (i % 8)) &&& 1)

/-- The XZ primitives `ptype_xz_ladder_pre`, `ptype_xz_ladder_step` and
`ptype_xz_ladder_post`, the all-zero XZ value and the field `Y` of a point,
none of which is part of the sources: they are parameters of the ladder.
`ladder_step ret sum pxz` returns the new `(ret, sum)`. -/
structure XZPrims (G XZ FY : Type) where
  /-- The XZ seed of a full point. -/
  ladder_pre : G → XZ
  /-- The fused ladder step on `(ret, sum)` with the seed `pxz`. -/
  ladder_step : XZ → XZ → XZ → XZ × XZ
  /-- The recovery of the full point from `ret`, `sum`, `pxz` and `p->Y`. -/
  ladder_post : XZ → XZ → XZ → FY → G
  /-- The all-zero XZ value written by `vec_zero`. -/
  xz_zero : XZ
  /-- The field `Y` of a point. -/
  getY : G → FY

/-- Modelled from the spec: `ptype_xz_cswap`, "conditional swap: exchange two
representations iff a flag is set". -/
def xz_cswap {XZ : Type} (a b : XZ) (flag : Nat) : XZ × XZ :=
  if flag = 0 then (a, b) else (b, a)

/-- The loop `while (bits--)` of `ptype_mult_ladder`, by recursion on the
counter; the state is `(ret, sum, pbit)`. -/
def mult_ladder_loop {G XZ FY : Type} (ops : XZPrims G XZ FY) (pxz : XZ)
    (scalar : List byte) : Nat → XZ × XZ × Nat → Option (XZ × XZ × Nat)
  | 0, st => some st
  | bits + 1, (ret, sum, pbit) => do
    let bit ← is_bit_set scalar bits
    let bit := bit ^^^ pbit
    let (ret, sum) := xz_cswap ret sum bit
    let (ret, sum) := ops.ladder_step ret sum pxz
    let pbit := pbit ^^^ bit
    mult_ladder_loop ops pxz scalar bits (ret, sum, pbit)

/-- The routine `ptype_mult_ladder` (the XZ variant that is compiled). -/
def ptype_mult_ladder {G XZ FY : Type} (ops : XZPrims G XZ FY) (p : G)
    (scalar : List byte) (bits : Nat) : Option G := do
  let pxz := ops.ladder_pre p
  let sum := pxz
  let ret := ops.xz_zero
  let (ret, sum, pbit) ← mult_ladder_loop ops pxz scalar bits (ret, sum, 0)
  let (ret, sum) := xz_cswap ret sum pbit
  some (ops.ladder_post ret sum pxz (ops.getY p))

/-- The signed digit that the window `[bits - 1, bits + window)` of the scalar
`k` stands for (the reference the recoded windows are compared with): with `v`
the window of `window + 1` bits, the rounded half of `v`, minus `2 ^ SZ` when
bit `SZ` of `v` is set. -/
def window_digit (SZ k bits window : Nat) : Int :=
  ((((2 * k / 2 ^ bits) % 2 ^ (window + 1) + 1) / 2 : Nat) : Int) -
    2 ^ SZ * ((((2 * k / 2 ^ bits) % 2 ^ (window + 1)) / 2 ^ SZ : Nat) : Int)

/-- An instance of the XZ primitives for the point `1` of the integers: the XZ
form of a point is its absolute value (the sign, like `Y`, is dropped), the
step doubles `ret` and moves `sum` to the neighbour of the doubled value on
the same side, and the recovery reads the sign off the order of the pair. -/
def absXZ : XZPrims Int Nat Unit where
  ladder_pre := fun p => p.natAbs
  ladder_step := fun r s _ => (2 * r, if s = r + 1 then 2 * r + 1 else 2 * r - 1)
  ladder_post := fun r s _ _ => if s = r + 1 then (r : Int) else -(r : Int)
  xz_zero := 0
  getY := fun _ => ()

/-! ## Digits, partial runs and instrumented routines -/

/-- The signed digit a Booth index stands for, as `ptype_gather_booth_w`
decodes it: the sign is bit `SZ`, the magnitude the low `SZ` bits, and the
conditional negation is applied when the sign is set. -/
def booth_digit (SZ booth_idx : Nat) : Int :=
  if (booth_idx >>> SZ) &&& 1 = 1 then -((booth_idx &&& ((1 <<< SZ) - 1) : Nat) : Int)
  else ((booth_idx &&& ((1 <<< SZ) - 1) : Nat) : Int)

/-- The routine `ptype_mult_w<SZ>` up to and including the gather of the top
window (steps 1 and 2): the table, the counter `bits` and the accumulator as
the main loop receives them. -/
def mult_w_top {G : Type} [AddCommGroup G] (LB SZ : Nat) (point : G) (scalar : List byte) (bits : Nat) :
    Option (List (Option G) × Nat × G) := do
  let table ← ptype_precompute SZ (List.replicate (1 <<< (SZ - 1)) none) point
  if SZ = 0 then none else
  let window := bits % SZ
  let bits ← size_sub bits window
  let wval ← window_value LB scalar bits window
  let wval := booth_encode LB wval SZ
  let ret ← ptype_gather_booth SZ table wval
  some (table, bits, ret)

/-- One pass of the body of the loop `while (bits--)` of `ptype_mult_ladder`,
`bits` being the counter after the decrement and the state `(ret, sum, pbit)`. -/
def mult_ladder_body {G XZ FY : Type} (ops : XZPrims G XZ FY) (pxz : XZ)
    (scalar : List byte) (bits : Nat) (st : XZ × XZ × Nat) : Option (XZ × XZ × Nat) := do
  let (ret, sum, pbit) := st
  let bit ← is_bit_set scalar bits
  let bit := bit ^^^ pbit
  let (ret, sum) := xz_cswap ret sum bit
  let (ret, sum) := ops.ladder_step ret sum pxz
  let pbit := pbit ^^^ bit
  some (ret, sum, pbit)

/-- The state of the loop of `ptype_mult_ladder` after its first `j` passes,
the counter starting at `bits` and the state at `st`. -/
def mult_ladder_after {G XZ FY : Type} (ops : XZPrims G XZ FY) (pxz : XZ)
    (scalar : List byte) (bits : Nat) (st : XZ × XZ × Nat) : Nat → Option (XZ × XZ × Nat)
  | 0 => some st
  | j + 1 => do
    let st' ← mult_ladder_after ops pxz scalar bits st j
    mult_ladder_body ops pxz scalar (bits - (j + 1)) st'

/-- A primitive operation of the gather, as the instrumented gather records it:
`ccopy src flag` is the conditional copy that reads cell `src` of the table. -/
inductive GatherOp where
  | vec_zero
  | ccopy (src : Nat) (flag : Nat)
  | cneg (flag : Nat)
  deriving DecidableEq

/-- A gather operation with its flag argument blanked. -/
def GatherOp.erase_flag : GatherOp → GatherOp
  | GatherOp.vec_zero => GatherOp.vec_zero
  | GatherOp.ccopy src _ => GatherOp.ccopy src 0
  | GatherOp.cneg _ => GatherOp.cneg 0

/-- The scan of `ptype_gather_booth_w`, instrumented: the destination and the
conditional copies issued. -/
def gather_loop_traced {G : Type} [AddCommGroup G] (table : List (Option G))
    (booth_idx M : Nat) : Nat → Nat → G → Option (G × List GatherOp)
  | 0, i, p => if i ≤ M then none else some (p, [])
  | fuel + 1, i, p =>
    if i ≤ M then do
      let src ← load1 table i
      let (r, ops) ← gather_loop_traced table booth_idx M fuel (i + 1)
        (ptype_ccopy p src (if i = booth_idx then 1 else 0))
      some (r, GatherOp.ccopy (i - 1) (if i = booth_idx then 1 else 0) :: ops)
    else some (p, [])

/-- The routine `ptype_gather_booth_w<SZ>`, instrumented: the point returned
and the primitive operations issued, in order. -/
def ptype_gather_booth_traced {G : Type} [AddCommGroup G] (SZ : Nat)
    (table : List (Option G)) (booth_idx : Nat) : Option (G × List GatherOp) :=
  if SZ = 0 then none else do
  let booth_sign := (booth_idx >>> SZ) &&& 1
  let booth_idx := booth_idx &&& ((1 <<< SZ) - 1)
  let p : G := vec_zero
  let (p, ops) ← gather_loop_traced table booth_idx (1 <<< (SZ - 1)) (1 <<< (SZ - 1)) 1 p
  some (ptype_cneg p booth_sign, GatherOp.vec_zero :: (ops ++ [GatherOp.cneg booth_sign]))

/-- The kind of a primitive call of the multipliers. -/
inductive Call where
  | precompute
  | gather
  | double
  | add
  | dadd
  deriving DecidableEq

/-- An event of an instrumented run of a multiplier: a primitive call with the
input it belongs to and its operands, a load of a scalar byte, or the value of
the counter `bits` at a test of the condition of the main loop. -/
inductive Event (G : Type) where
  | precompute (input : Nat)
  | read (input : Nat) (i : Nat)
  | gather (input : Nat) (booth_idx : Nat)
  | double
  | add (a b : G)
  | dadd (a b : G)
  | add_affine (a b : G)
  | counter (bits : Nat)
  deriving DecidableEq

/-- The primitive call an event records, if it records one. -/
def Event.call {G : Type} : Event G → Option Call
  | Event.precompute _ => some Call.precompute
  | Event.gather _ _ => some Call.gather
  | Event.double => some Call.double
  | Event.add _ _ => some Call.add
  | Event.dadd _ _ => some Call.dadd
  | _ => none

/-- The operands of a call of `ptype_add`, if the event records one. -/
def Event.add_args {G : Type} : Event G → Option (G × G)
  | Event.add a b => some (a, b)
  | _ => none

/-- The operands of a call of `ptype_add_affine`, if the event records one. -/
def Event.add_affine_args {G : Type} : Event G → Option (G × G)
  | Event.add_affine a b => some (a, b)
  | _ => none

/-- The counter value an event records, if it records one. -/
def Event.counter_value {G : Type} : Event G → Option Nat
  | Event.counter b => some b
  | _ => none

/-- The routine `get_wval`, instrumented: the value and the byte indices
loaded, `d[top / 8]` first. -/
def get_wval_traced (LB : Nat) (d : List byte) (off bits : Nat) : Option (Nat × List Nat) := do
  let top ← size_sub (off + bits) 1
  let hi ← d[top / 8]?
  let lo ← d[off / 8]?
  let ret := limb_shl LB hi.val 8 ||| lo.val
  some (ret >>> (off % 8), [top / 8, off / 8])

/-- The window value of `ptype_mult_w`, instrumented: the masked value and the
byte indices loaded. -/
def window_value_traced (LB : Nat) (scalar : List byte) (bits window : Nat) :
    Option (Nat × List Nat) := do
  let wmask := limb_sub LB (limb_shl LB 1 (window + 1)) 1
  let (wval, reads) ←
    if bits ≠ 0 then do
      let off ← size_sub bits 1
      get_wval_traced LB scalar off (window + 1)
    else
      (scalar[0]?).map (fun b => (limb_shl LB b.val 1, [0]))
  some (wval &&& wmask, reads)

/-- The `SZ`-fold doubling, instrumented. -/
def double_loop_traced {G : Type} [AddCommGroup G] : Nat → G → G × List (Event G)
  | 0, ret => (ret, [])
  | n + 1, ret =>
    let (r, tr) := double_loop_traced n (ptype_double ret)
    (r, Event.double :: tr)

/-- The loop `while (bits > 0)` of `ptype_mult_w`, instrumented. -/
def mult_w_loop_traced {G : Type} [AddCommGroup G] (LB SZ : Nat) (table : List (Option G))
    (scalar : List byte) : Nat → Nat → G → Option (G × List (Event G))
  | 0, bits, ret => if bits > 0 then none else some (ret, [Event.counter bits])
  | fuel + 1, bits, ret =>
    if bits > 0 then do
      let (ret, doubles) := double_loop_traced SZ ret
      let window := SZ
      let bits' ← size_sub bits window
      let (wval, reads) ← window_value_traced LB scalar bits' window
      let wval := booth_encode LB wval SZ
      let temp ← ptype_gather_booth SZ table wval
      let (r, tr) ← mult_w_loop_traced LB SZ table scalar fuel bits' (ptype_add ret temp)
      some (r, Event.counter bits :: (doubles ++ reads.map (Event.read 0) ++
        [Event.gather 0 wval, Event.add ret temp] ++ tr))
    else some (ret, [Event.counter bits])

/-- The routine `ptype_mult_w<SZ>`, instrumented: the point returned and the
events of the run, in order. -/
def ptype_mult_w_traced {G : Type} [AddCommGroup G] (LB SZ : Nat) (point : G)
    (scalar : List byte) (bits : Nat) : Option (G × List (Event G)) := do
  let table ← ptype_precompute SZ (List.replicate (1 <<< (SZ - 1)) none) point
  if SZ = 0 then none else
  let window := bits % SZ
  let bits ← size_sub bits window
  let (wval, reads) ← window_value_traced LB scalar bits window
  let wval := booth_encode LB wval SZ
  let ret ← ptype_gather_booth SZ table wval
  let (r, tr) ← mult_w_loop_traced LB SZ table scalar bits bits ret
  some (r, Event.precompute 0 :: (reads.map (Event.read 0) ++ [Event.gather 0 wval] ++ tr))

/-- The loop `while (bits--)` of `ptype_affine_mult_ladder`, instrumented: every
call of `ptype_add_affine` with its operands. -/
def affine_ladder_loop_traced {G : Type} [AddCommGroup G] (LB : Nat) (p_affine : G)
    (scalar : List byte) : Nat → G → Option (G × List (Event G))
  | 0, ret => some (ret, [])
  | bits + 1, ret => do
    let ret := ptype_double ret
    let sum := ptype_add_affine ret p_affine
    let b ← scalar[bits / LB]?
    let bit := (b.val >>> (bits % LB)) &&& 1
    let (r, tr) ← affine_ladder_loop_traced LB p_affine scalar bits (ptype_ccopy ret sum bit)
    some (r, Event.double :: Event.add_affine ret p_affine :: tr)

/-- The routine `ptype_affine_mult_ladder`, instrumented. -/
def ptype_affine_mult_ladder_traced {G : Type} [AddCommGroup G] (LB : Nat) (p_affine : G)
    (scalar : List byte) (bits : Nat) : Option (G × List (Event G)) :=
  affine_ladder_loop_traced LB p_affine scalar bits vec_zero

/-- The calls of `j` passes of the main loop of `ptype_mult_w<SZ>`: `SZ`
doublings, a gather and an addition per pass. -/
def window_calls (SZ : Nat) : Nat → List Call
  | 0 => []
  | j + 1 => List.replicate SZ Call.double ++ [Call.gather, Call.add] ++ window_calls SZ j

/-- The calls of `ptype_mult_w<SZ>` for the public bit-length `bits`. -/
def mult_w_calls (SZ bits : Nat) : List Call :=
  Call.precompute :: Call.gather :: window_calls SZ (bits / SZ)

/-- The values of the counter at the tests of the main loop, `j` windows being
left at the first test. -/
def counter_values (SZ : Nat) : Nat → List Nat
  | 0 => [0]
  | j + 1 => (j + 1) * SZ :: counter_values SZ j

/-- The table-building loop of `ptypes_mult_w`, instrumented. -/
def precompute_all_traced {G : Type} [AddCommGroup G] (SZ : Nat) (points : List G)
    (npoints : Nat) :
    Nat → Nat → List (List (Option G)) → Option (List (List (Option G)) × List (Event G))
  | 0, i, table => if i < npoints then none else some (table, [])
  | fuel + 1, i, table =>
    if i < npoints then do
      let row ← table[i]?
      let point ← points[i]?
      let row ← ptype_precompute SZ row point
      let (t, tr) ← precompute_all_traced SZ points npoints fuel (i + 1) (table.set i row)
      some (t, Event.precompute i :: tr)
    else some (table, [])

/-- The loop `for (; i < npoints; i++)` inside the `while` of `ptypes_mult_w`,
instrumented. -/
def mults_inner_loop_traced {G : Type} [AddCommGroup G] (LB SZ : Nat)
    (table : List (List (Option G))) (scalars : List (List byte))
    (npoints bits window wmask : Nat) : Nat → Nat → G → Option (G × List (Event G))
  | 0, i, ret => if i < npoints then none else some (ret, [])
  | fuel + 1, i, ret =>
    if i < npoints then do
      let scalar ← scalars[i]?
      let off ← size_sub bits 1
      let (wval, reads) ← get_wval_traced LB scalar off (window + 1)
      let wval := wval &&& wmask
      let wval := booth_encode LB wval SZ
      let row ← table[i]?
      let temp ← ptype_gather_booth SZ row wval
      let (r, tr) ← mults_inner_loop_traced LB SZ table scalars npoints bits window wmask
        fuel (i + 1) (ptype_dadd ret temp)
      some (r, reads.map (Event.read i) ++ [Event.gather i wval, Event.dadd ret temp] ++ tr)
    else some (ret, [])

/-- The closing loop `for (; i < npoints; i++)` of `ptypes_mult_w`,
instrumented. -/
def mults_last_loop_traced {G : Type} [AddCommGroup G] (LB SZ : Nat)
    (table : List (List (Option G))) (scalars : List (List byte)) (npoints wmask : Nat) :
    Nat → Nat → G → Option (G × List (Event G))
  | 0, i, ret => if i < npoints then none else some (ret, [])
  | fuel + 1, i, ret =>
    if i < npoints then do
      let scalar ← scalars[i]?
      let b ← scalar[0]?
      let wval := (b.val <<< 1) &&& wmask
      let wval := booth_encode LB wval SZ
      let row ← table[i]?
      let temp ← ptype_gather_booth SZ row wval
      let (r, tr) ← mults_last_loop_traced LB SZ table scalars npoints wmask fuel (i + 1)
        (ptype_dadd ret temp)
      some (r, Event.read i 0 :: Event.gather i wval :: Event.dadd ret temp :: tr)
    else some (ret, [])

/-- The loop `while (bits > 0)` of `ptypes_mult_w`, instrumented. -/
def mults_while_traced {G : Type} [AddCommGroup G] (LB SZ : Nat)
    (table : List (List (Option G))) (scalars : List (List byte)) (npoints : Nat) :
    Nat → Nat → Nat → Nat → Nat → G → Option ((Nat × Nat × G) × List (Event G))
  | 0, bits, _, wmask, i, ret =>
    if bits > 0 then none else some ((wmask, i, ret), [Event.counter bits])
  | fuel + 1, bits, window, wmask, i, ret =>
    if bits > 0 then do
      let (ret, tr1) ← mults_inner_loop_traced LB SZ table scalars npoints bits window wmask
        npoints i ret
      let (ret, doubles) := double_loop_traced SZ ret
      let window := SZ
      let wmask := limb_sub LB (limb_shl LB 1 (window + 1)) 1
      let bits' ← size_sub bits window
      let (st, tr2) ← mults_while_traced LB SZ table scalars npoints fuel bits' window wmask 0
        ret
      some (st, Event.counter bits :: (tr1 ++ doubles ++ tr2))
    else some ((wmask, i, ret), [Event.counter bits])

/-- The routine `ptypes_mult_w<SZ>`, instrumented: the point returned and the
events of the run, in order. -/
def ptypes_mult_w_traced {G : Type} [AddCommGroup G] (LB SZ : Nat) (points : List G)
    (npoints : Nat) (scalars : List (List byte)) (bits : Nat)
    (table : Option (List (List (Option G)))) : Option (G × List (Event G)) := do
  let table :=
    match table with
    | some t => t
    | none => List.replicate npoints (List.replicate (1 <<< (SZ - 1)) none)
  let (table, tr0) ← precompute_all_traced SZ points npoints npoints 0 table
  if SZ = 0 then none else
  let window := bits % SZ
  let wmask := limb_sub LB (limb_shl LB 1 (window + 1)) 1
  let bits ← size_sub bits window
  let scalar0 ← scalars[0]?
  let (wval, reads) ←
    if bits > 0 then do
      let off ← size_sub bits 1
      let (v, reads) ← get_wval_traced LB scalar0 off (window + 1)
      some (v &&& wmask, reads)
    else
      (scalar0[0]?).map (fun b => ((b.val <<< 1) &&& wmask, [0]))
  let wval := booth_encode LB wval SZ
  let row0 ← table[0]?
  let ret ← ptype_gather_booth SZ row0 wval
  let ((wmask, i, ret), tr1) ← mults_while_traced LB SZ table scalars npoints bits bits window
    wmask 1 ret
  let (r, tr2) ← mults_last_loop_traced LB SZ table scalars npoints wmask npoints i ret
  some (r, tr0 ++ reads.map (Event.read 0) ++ [Event.gather 0 wval] ++ tr1 ++ tr2)

/-- The calls of `m` rounds of gather and defensive addition. -/
def pair_calls : Nat → List Call
  | 0 => []
  | m + 1 => Call.gather :: Call.dadd :: pair_calls m

/-- The calls of `j` passes of the main loop of `ptypes_mult_w<SZ>` that
handle all `n` inputs. -/
def mults_window_calls (SZ n : Nat) : Nat → List Call
  | 0 => []
  | j + 1 => pair_calls n ++ List.replicate SZ Call.double ++ mults_window_calls SZ n j

/-- The calls of `ptypes_mult_w<SZ>` for `n` inputs and the public bit-length
`bits`. -/
def mults_calls (SZ bits n : Nat) : List Call :=
  List.replicate n Call.precompute ++ Call.gather ::
    (if bits / SZ = 0 then pair_calls (n - 1)
      else pair_calls (n - 1) ++ List.replicate SZ Call.double ++
        mults_window_calls SZ n (bits / SZ - 1) ++ pair_calls n)

/-! ## Routines with the general addition as a parameter -/

/-- Modelled from the spec and the header comments: the general addition as
they describe it.  The spec lists "general addition: `P, Q → P+Q`, valid when
inputs are non-identity (caller-guaranteed) or otherwise documented"; the
header says that the additions are "implemented to handle points at infinity"
(lines 44-46) and that "addition doesn't handle doubling": a point "fails to
add with itself producing infinity" (lines 237-241).  So this is the group law
except on two equal operands other than the identity, where the result is the
identity. -/
def ptype_add_no_doubling {G : Type} [AddCommGroup G] [DecidableEq G] (a b : G) : G :=
  if a = b ∧ a ≠ 0 then 0 else a + b

/-- The loop of `ptype_precompute_w` with the general addition `add` as a
parameter. -/
def precompute_loop_with {G : Type} [AddCommGroup G] (add : G → G → G) (M : Nat) :
    Nat → Nat → Nat → List (Option G) → Option (List (Option G))
  | 0, i, _, row => if i < M then none else some row
  | fuel + 1, i, j, row =>
    if i < M then do
      let a ← load1 row j
      let jm ← size_sub j 1
      let b ← load1 row jm
      let row ← store1 row i (add a b)
      let c ← load1 row j
      let row ← store1 row (i + 1) (ptype_double c)
      precompute_loop_with add M fuel (i + 2) (j + 1) row
    else some row

/-- The routine `ptype_precompute_w<SZ>` with the general addition `add` as a
parameter. -/
def ptype_precompute_with {G : Type} [AddCommGroup G] (add : G → G → G) (SZ : Nat)
    (row : List (Option G)) (point : G) : Option (List (Option G)) :=
  if SZ = 0 then none else do
  let row ← store1 row 1 (vec_copy point)
  let row ← store1 row 2 (ptype_double point)
  precompute_loop_with add (1 <<< (SZ - 1)) (1 <<< (SZ - 1)) 3 2 row

/-- The loop `while (bits > 0)` of `ptype_mult_w` with the general addition
`add` as a parameter (the call `ptype_add(ret, ret, temp)`). -/
def mult_w_loop_with {G : Type} [AddCommGroup G] (add : G → G → G) (LB SZ : Nat)
    (table : List (Option G)) (scalar : List byte) : Nat → Nat → G → Option G
  | 0, bits, ret => if bits > 0 then none else some ret
  | fuel + 1, bits, ret =>
    if bits > 0 then do
      let ret := double_loop SZ ret
      let window := SZ
      let bits ← size_sub bits window
      let wval ← window_value LB scalar bits window
      let wval := booth_encode LB wval SZ
      let temp ← ptype_gather_booth SZ table wval
      mult_w_loop_with add LB SZ table scalar fuel bits (add ret temp)
    else some ret

/-- The routine `ptype_mult_w<SZ>` with the general addition `add` as a
parameter. -/
def ptype_mult_w_with {G : Type} [AddCommGroup G] (add : G → G → G) (LB SZ : Nat) (point : G)
    (scalar : List byte) (bits : Nat) : Option G := do
  let table ← ptype_precompute_with add SZ (List.replicate (1 <<< (SZ - 1)) none) point
  if SZ = 0 then none else
  let window := bits % SZ
  let bits ← size_sub bits window
  let wval ← window_value LB scalar bits window
  let wval := booth_encode LB wval SZ
  let ret ← ptype_gather_booth SZ table wval
  mult_w_loop_with add LB SZ table scalar bits bits ret

/-- The table-building loop of `ptypes_mult_w` with the general addition `add`
as a parameter. -/
def precompute_all_with {G : Type} [AddCommGroup G] (add : G → G → G) (SZ : Nat)
    (points : List G) (npoints : Nat) :
    Nat → Nat → List (List (Option G)) → Option (List (List (Option G)))
  | 0, i, table => if i < npoints then none else some table
  | fuel + 1, i, table =>
    if i < npoints then do
      let row ← table[i]?
      let point ← points[i]?
      let row ← ptype_precompute_with add SZ row point
      precompute_all_with add SZ points npoints fuel (i + 1) (table.set i row)
    else some table

/-- The routine `ptypes_mult_w<SZ>` with the general addition `add` as a
parameter: it is used by the table builder only, the windows being merged by
`ptype_dadd`. -/
def ptypes_mult_w_with {G : Type} [AddCommGroup G] (add : G → G → G) (LB SZ : Nat)
    (points : List G) (npoints : Nat) (scalars : List (List byte)) (bits : Nat)
    (table : Option (List (List (Option G)))) : Option G := do
  let table :=
    match table with
    | some t => t
    | none => List.replicate npoints (List.replicate (1 <<< (SZ - 1)) none)
  let table ← precompute_all_with add SZ points npoints npoints 0 table
  if SZ = 0 then none else
  let window := bits % SZ
  let wmask := limb_sub LB (limb_shl LB 1 (window + 1)) 1
  let bits ← size_sub bits window
  let scalar0 ← scalars[0]?
  let wval ←
    if bits > 0 then do
      let off ← size_sub bits 1
      let v ← get_wval LB scalar0 off (window + 1)
      some (v &&& wmask)
    else
      (scalar0[0]?).map (fun b => (b.val <<< 1) &&& wmask)
  let wval := booth_encode LB wval SZ
  let row0 ← table[0]?
  let ret ← ptype_gather_booth SZ row0 wval
  let (wmask, i, ret) ← mults_while LB SZ table scalars npoints bits bits window wmask 1 ret
  mults_last_loop LB SZ table scalars npoints wmask npoints i ret

/-- An instance of the XZ primitives that meets the contracts on the nose: the
XZ form of a point is the point itself, the step maps `(A, B)` to
`(2A, A + B)`, and the recovery returns its first argument. -/
def plainXZ (G : Type) [AddCommGroup G] : XZPrims G G Unit where
  ladder_pre := fun p => p
  ladder_step := fun r s _ => (r + r, r + s)
  ladder_post := fun r _ _ _ => r
  xz_zero := 0
  getY := fun _ => ()

/-! ## Bytes and windows -/

theorem le_value_getElem (d : List byte) :
    ∀ (i : Nat) (h : i < d.length), (d[i]).val = (le_value d / 256 ^ i) % 256 := by
  induction d with
  | nil => intro i h; simp at h
  | cons b bs ih =>
    intro i h
    cases i with
    | zero =>
      have hb := b.isLt
      simp only [List.getElem_cons_zero, le_value, pow_zero, Nat.div_one]
      omega
    | succ i =>
      have hb := b.isLt
      simp only [List.getElem_cons_succ, le_value]
      rw [ih i (by simpa using h), Nat.pow_succ, Nat.mul_comm (256 ^ i) 256,
        ← Nat.div_div_eq_div_mul]
      have : (b.val + 256 * le_value bs) / 256 = le_value bs := by omega
      rw [this]

theorem le_value_lt (d : List byte) : le_value d < 256 ^ d.length := by
  induction d with
  | nil => simp [le_value]
  | cons b bs ih =>
    have hb := b.isLt
    simp only [le_value, List.length_cons, Nat.pow_succ]
    omega

theorem two_pow_split (off : Nat) : 2 ^ off = 256 ^ (off / 8) * 2 ^ (off % 8) := by
  have h : (256 : Nat) = 2 ^ 8 := by norm_num
  rw [h, ← Nat.pow_mul, ← Nat.pow_add, Nat.div_add_mod]

theorem window_arith (X r bits : Nat) (hr : r < 8) (hb1 : 1 ≤ bits) (hb9 : bits ≤ 9) :
    (r + bits - 1) / 8 = 1 →
    ((256 * (X / 256 % 256) + X % 256) / 2 ^ r) % 2 ^ bits = (X / 2 ^ r) % 2 ^ bits := by
  intro h
  interval_cases r <;> interval_cases bits <;> simp only [Nat.reducePow] at * <;> omega

theorem window_arith_one (X r bits : Nat) (hr : r < 8) (hb1 : 1 ≤ bits) (hb9 : bits ≤ 9) :
    (r + bits - 1) / 8 = 0 →
    ((256 * (X % 256) + X % 256) / 2 ^ r) % 2 ^ bits = (X / 2 ^ r) % 2 ^ bits := by
  intro h
  have h1 : (X / 2 ^ r) % 2 ^ bits = (X % 256 / 2 ^ r) % 2 ^ bits := by
    interval_cases r <;> interval_cases bits <;> simp only [Nat.reducePow] at * <;> omega
  rw [h1]
  generalize X % 256 = lo
  have h2 : (256 * lo + lo) / 2 ^ r = 2 ^ (8 - r) * lo + lo / 2 ^ r := by
    interval_cases r <;> simp only [Nat.reducePow, Nat.reduceSub] <;> omega
  rw [h2]
  interval_cases r <;> interval_cases bits <;> simp only [Nat.reducePow, Nat.reduceSub] at * <;> omega

theorem limb_shl_byte (LB : Nat) (hLB : 16 ≤ LB) (h : Nat) (hh : h < 256) :
    limb_shl LB h 8 = 256 * h := by
  have h16 : (2 : Nat) ^ 16 ≤ 2 ^ LB := Nat.pow_le_pow_right (by norm_num) hLB
  unfold limb_shl
  rw [Nat.shiftLeft_eq, Nat.mod_eq_of_lt (by norm_num at h16 ⊢; omega), Nat.mul_comm]

theorem byte_or (h l : Nat) (hl : l < 256) : 256 * h ||| l = 256 * h + l := by
  have e := Nat.mul_add_lt_is_or (show l < 2 ^ 8 by simpa using hl) h
  simpa using e.symm

theorem get_wval_eq (LB : Nat) (d : List byte) (off bits : Nat) (hb1 : 1 ≤ bits)
    (hlen : off + bits ≤ 8 * d.length) :
    get_wval LB d off bits =
      some ((limb_shl LB ((le_value d / 256 ^ ((off + bits - 1) / 8)) % 256) 8 |||
        ((le_value d / 256 ^ (off / 8)) % 256)) >>> (off % 8)) := by
  have h1 : (off + bits - 1) / 8 < d.length := by omega
  have h2 : off / 8 < d.length := by omega
  have hs : size_sub (off + bits) 1 = some (off + bits - 1) := by
    unfold size_sub
    rw [if_pos (by omega)]
  unfold get_wval
  rw [hs]
  simp only [Option.bind_eq_bind, Option.some_bind, List.getElem?_eq_getElem h1,
    List.getElem?_eq_getElem h2, le_value_getElem]

/-- Low `bits` bits of `get_wval`: the bits `[off, off + bits)` of the scalar. -/
theorem get_wval_mod (LB : Nat) (hLB : 16 ≤ LB) (d : List byte) (off bits : Nat)
    (hb1 : 1 ≤ bits) (hb9 : bits ≤ 9) (hlen : off + bits ≤ 8 * d.length) :
    ∃ v, get_wval LB d off bits = some v ∧
      v % 2 ^ bits = (le_value d / 2 ^ off) % 2 ^ bits := by
  refine ⟨_, get_wval_eq LB d off bits hb1 hlen, ?_⟩
  have hr : off % 8 < 8 := Nat.mod_lt _ (by norm_num)
  have hX : le_value d / 2 ^ off = le_value d / 256 ^ (off / 8) / 2 ^ (off % 8) := by
    rw [Nat.div_div_eq_div_mul, ← two_pow_split]
  have htop : (off + bits - 1) / 8 = off / 8 + (off % 8 + bits - 1) / 8 := by omega
  rw [limb_shl_byte LB hLB _ (Nat.mod_lt _ (by norm_num)),
    byte_or _ _ (Nat.mod_lt _ (by norm_num)), Nat.shiftRight_eq_div_pow, hX, htop]
  have hcase : (off % 8 + bits - 1) / 8 = 0 ∨ (off % 8 + bits - 1) / 8 = 1 := by omega
  rcases hcase with h0 | h1
  · rw [h0, Nat.add_zero]
    exact window_arith_one _ _ _ hr hb1 hb9 h0
  · have e : 256 ^ (off / 8 + 1) = 256 ^ (off / 8) * 256 := Nat.pow_succ _ _
    rw [h1, e, ← Nat.div_div_eq_div_mul]
    exact window_arith _ _ _ hr hb1 hb9 h1

/-! ## Booth recoding -/

theorem limb_sub_zero_zero (LB : Nat) : limb_sub LB 0 0 = 0 := by
  simp [limb_sub, limb]

theorem limb_sub_zero_pos (LB x : Nat) (h0 : 0 < x) (hx : x < 2 ^ LB) :
    limb_sub LB 0 x = 2 ^ LB - x := by
  unfold limb_sub limb
  rw [Nat.zero_mod, Nat.zero_add, Nat.mod_eq_of_lt hx, Nat.mod_eq_of_lt (by omega)]

theorem booth_encode_low (LB v sz : Nat) (hsz : sz + 2 ≤ LB) (hv : v < 2 ^ sz) :
    booth_encode LB v sz = (v + 1) / 2 := by
  have hp : (2 : Nat) ^ (sz + 2) ≤ 2 ^ LB := Nat.pow_le_pow_right (by norm_num) hsz
  have hp2 : (2 : Nat) ^ (sz + 2) = 4 * 2 ^ sz := by ring
  have hs : v >>> sz = 0 := by
    rw [Nat.shiftRight_eq_div_pow]; exact Nat.div_eq_of_lt hv
  have hw : limb_add LB v 1 >>> 1 = (v + 1) / 2 := by
    unfold limb_add
    rw [Nat.mod_eq_of_lt (by omega), Nat.shiftRight_eq_div_pow, pow_one]
  unfold booth_encode
  simp only [hs, hw, limb_sub_zero_zero]
  have hn : limb_not LB 0 = 2 ^ LB - 1 := by simp [limb_not, limb]
  rw [hn, Nat.and_zero, Nat.or_zero, Nat.and_pow_two_sub_one_eq_mod,
    Nat.mod_eq_of_lt (by omega)]

theorem booth_encode_high (LB v sz : Nat) (hsz : sz + 2 ≤ LB) (hv : 2 ^ sz ≤ v)
    (hv2 : v < 2 ^ (sz + 1)) :
    booth_encode LB v sz = 2 ^ LB - (v + 1) / 2 := by
  have hp : (2 : Nat) ^ (sz + 2) ≤ 2 ^ LB := Nat.pow_le_pow_right (by norm_num) hsz
  have hp2 : (2 : Nat) ^ (sz + 2) = 4 * 2 ^ sz := by ring
  have hp1 : (2 : Nat) ^ (sz + 1) = 2 * 2 ^ sz := by ring
  have hpos : 0 < 2 ^ sz := Nat.two_pow_pos sz
  have hs : v >>> sz = 1 := by
    rw [Nat.shiftRight_eq_div_pow]
    apply Nat.div_eq_of_lt_le <;> omega
  have hw : limb_add LB v 1 >>> 1 = (v + 1) / 2 := by
    unfold limb_add
    rw [Nat.mod_eq_of_lt (by omega), Nat.shiftRight_eq_div_pow, pow_one]
  have hm : limb_sub LB 0 1 = 2 ^ LB - 1 := limb_sub_zero_pos LB 1 (by norm_num) (by omega)
  have hn : limb_not LB (2 ^ LB - 1) = 0 := by
    unfold limb_not limb
    rw [Nat.mod_eq_of_lt (by omega)]; omega
  unfold booth_encode
  simp only [hs, hw, hm, hn]
  rw [Nat.and_zero, Nat.zero_or, Nat.and_pow_two_sub_one_eq_mod,
    limb_sub_zero_pos LB _ (by omega) (by omega), Nat.mod_eq_of_lt (by omega)]

theorem two_pow_limb_split (LB sz : Nat) (hsz : sz + 2 ≤ LB) :
    ∃ K, 2 ^ LB = 2 ^ sz * (2 * K + 2) := by
  refine ⟨2 ^ (LB - sz - 1) - 1, ?_⟩
  have h1 : 0 < 2 ^ (LB - sz - 1) := Nat.two_pow_pos _
  have h2 : 2 * (2 ^ (LB - sz - 1) - 1) + 2 = 2 ^ (LB - sz - 1 + 1) := by
    rw [Nat.pow_succ]; omega
  rw [h2, ← Nat.pow_add]
  congr 1
  omega

theorem booth_decode_low (LB v sz : Nat) (hsz : sz + 2 ≤ LB) (hv : v < 2 ^ sz) :
    (booth_encode LB v sz >>> sz) &&& 1 = 0 ∧
      booth_encode LB v sz &&& ((1 <<< sz) - 1) = (v + 1) / 2 := by
  have hlt : (v + 1) / 2 < 2 ^ sz := by
    have := Nat.two_pow_pos sz
    omega
  rw [booth_encode_low LB v sz hsz hv, Nat.shiftRight_eq_div_pow, Nat.div_eq_of_lt hlt,
    Nat.one_shiftLeft, Nat.and_pow_two_sub_one_eq_mod, Nat.mod_eq_of_lt hlt]
  exact ⟨rfl, rfl⟩

theorem booth_decode_high (LB v sz : Nat) (hsz : sz + 2 ≤ LB) (hv : 2 ^ sz ≤ v)
    (hv2 : v < 2 ^ (sz + 1)) :
    (booth_encode LB v sz >>> sz) &&& 1 = 1 ∧
      booth_encode LB v sz &&& ((1 <<< sz) - 1) = 2 ^ sz - (v + 1) / 2 := by
  obtain ⟨K, hK⟩ := two_pow_limb_split LB sz hsz
  have hpos : 0 < 2 ^ sz := Nat.two_pow_pos sz
  have hp1 : (2 : Nat) ^ (sz + 1) = 2 * 2 ^ sz := by ring
  have hexp : 2 ^ sz * (2 * K + 2) = 2 ^ sz * (2 * K + 1) + 2 ^ sz := by ring
  have he : 2 ^ LB - (v + 1) / 2 = (2 ^ sz - (v + 1) / 2) + 2 ^ sz * (2 * K + 1) := by
    rw [hK, hexp]; omega
  have hr : 2 ^ sz - (v + 1) / 2 < 2 ^ sz := by omega
  rw [booth_encode_high LB v sz hsz hv hv2, Nat.shiftRight_eq_div_pow, Nat.one_shiftLeft,
    Nat.and_pow_two_sub_one_eq_mod, Nat.and_one_is_mod, he, Nat.add_mul_div_left _ _ hpos,
    Nat.add_mul_mod_self_left, Nat.div_eq_of_lt hr, Nat.mod_eq_of_lt hr]
  constructor
  · omega
  · rfl

/-- The signed value of a raw window `v` of `sz + 1` bits: the rounded half of
`v`, minus `2 ^ sz` when the top bit of the window is set. -/
theorem booth_digit_value (v sz : Nat) (hv2 : v < 2 ^ (sz + 1)) :
    (if v < 2 ^ sz then (((v + 1) / 2 : Nat) : Int) else -((2 ^ sz - (v + 1) / 2 : Nat) : Int)) =
      (((v + 1) / 2 : Nat) : Int) - 2 ^ sz * ((v / 2 ^ sz : Nat) : Int) := by
  have hp1 : (2 : Nat) ^ (sz + 1) = 2 * 2 ^ sz := by ring
  have hpos : 0 < 2 ^ sz := Nat.two_pow_pos sz
  by_cases h : v < 2 ^ sz
  · rw [if_pos h, Nat.div_eq_of_lt h]; simp
  · have h1 : v / 2 ^ sz = 1 := by
      apply Nat.div_eq_of_lt_le <;> omega
    have h2 : (v + 1) / 2 ≤ 2 ^ sz := by omega
    rw [if_neg h, h1, Nat.cast_sub h2]
    push_cast
    ring

/-! ## Table builder -/

theorem load1_of_cell {G : Type} (row : List (Option G)) (i : Nat) (v : G) (hi : 0 < i)
    (h : row[i - 1]? = some (some v)) : load1 row i = some v := by
  unfold load1
  rw [if_neg (by omega), h]
  rfl

theorem store1_of_lt {G : Type} (row : List (Option G)) (i : Nat) (v : G) (hi : 0 < i)
    (h : i - 1 < row.length) : store1 row i v = some (row.set (i - 1) (some v)) := by
  unfold store1
  rw [if_pos ⟨hi, h⟩]

section Table

variable {G : Type} [AddCommGroup G]

theorem precompute_loop_spec (P : G) (M : Nat) (hM : 2 ∣ M) :
    ∀ (fuel i j : Nat) (row : List (Option G)), i + 1 = 2 * j → 2 ≤ j →
      M + 1 ≤ fuel + i → row.length = M →
      (∀ t, t + 1 < i → row[t]? = some (some ((t + 1) • P))) →
      ∃ row', precompute_loop M fuel i j row = some row' ∧ row'.length = M ∧
        ∀ t, t < M → row'[t]? = some (some ((t + 1) • P)) := by
  intro fuel
  induction fuel with
  | zero =>
    intro i j row hij hj hfuel hlen hinv
    refine ⟨row, ?_, hlen, fun t ht => hinv t (by omega)⟩
    simp only [precompute_loop]
    rw [if_neg (by omega)]
  | succ fuel ih =>
    intro i j row hij hj hfuel hlen hinv
    by_cases hlt : i < M
    · have hi1 : i + 1 ≤ M := by omega
      have ha : load1 row j = some (j • P) := by
        apply load1_of_cell _ _ _ (by omega)
        have := hinv (j - 1) (by omega)
        rwa [Nat.sub_add_cancel (by omega)] at this
      have hjm : size_sub j 1 = some (j - 1) := by
        unfold size_sub; rw [if_pos (by omega)]
      have hb : load1 row (j - 1) = some ((j - 1) • P) := by
        apply load1_of_cell _ _ _ (by omega)
        have := hinv (j - 1 - 1) (by omega)
        rwa [Nat.sub_add_cancel (by omega)] at this
      have hs1 := store1_of_lt row i (ptype_add (j • P) ((j - 1) • P)) (by omega) (by omega)
      have hc : load1 (row.set (i - 1) (some (ptype_add (j • P) ((j - 1) • P)))) j
          = some (j • P) := by
        apply load1_of_cell _ _ _ (by omega)
        rw [List.getElem?_set_ne (by omega)]
        have := hinv (j - 1) (by omega)
        rwa [Nat.sub_add_cancel (by omega)] at this
      have hs2 := store1_of_lt (row.set (i - 1) (some (ptype_add (j • P) ((j - 1) • P))))
        (i + 1) (ptype_double (j • P)) (by omega) (by simp; omega)
      simp only [precompute_loop, if_pos hlt, ha, hjm, hb, hs1, hc, hs2,
        Option.bind_eq_bind, Option.some_bind]
      apply ih (i + 2) (j + 1) _ (by omega) (by omega) (by omega) (by simp; omega)
      intro t ht
      by_cases h1 : t = i
      · subst h1
        rw [Nat.add_sub_cancel, List.getElem?_set_self (by simp; omega)]
        unfold ptype_double
        rw [← add_nsmul]
        congr 3
        omega
      · rw [Nat.add_sub_cancel, List.getElem?_set_ne (by omega)]
        by_cases h2 : t = i - 1
        · subst h2
          rw [List.getElem?_set_self (by omega)]
          unfold ptype_add
          rw [← add_nsmul]
          congr 3
          omega
        · rw [List.getElem?_set_ne (by omega)]
          exact hinv t (by omega)
    · refine ⟨row, ?_, hlen, fun t ht => hinv t (by omega)⟩
      simp only [precompute_loop]
      rw [if_neg hlt]

theorem multiples_length (M : Nat) (P : G) : (multiples M P).length = M := by
  simp [multiples]

theorem multiples_getElem? (M : Nat) (P : G) (t : Nat) (ht : t < M) :
    (multiples M P)[t]? = some ((t + 1) • P) := by
  simp [multiples, List.getElem?_range ht]

/-- The table builder fills the whole row with the multiples of the point,
whatever the row held before. -/
theorem precompute_spec (SZ : Nat) (hSZ : 2 ≤ SZ) (row : List (Option G)) (P : G)
    (hlen : row.length = 1 <<< (SZ - 1)) :
    ptype_precompute SZ row P = some ((multiples (1 <<< (SZ - 1)) P).map some) := by
  have hM : 1 <<< (SZ - 1) = 2 * 2 ^ (SZ - 2) := by
    rw [Nat.one_shiftLeft, show SZ - 1 = (SZ - 2) + 1 by omega, Nat.pow_succ, Nat.mul_comm]
  have hpos : 0 < 2 ^ (SZ - 2) := Nat.two_pow_pos _
  unfold ptype_precompute
  rw [if_neg (by omega)]
  generalize 1 <<< (SZ - 1) = M at *
  have hs1 := store1_of_lt row 1 (vec_copy P) (by omega) (by omega)
  have hs2 := store1_of_lt (row.set (1 - 1) (some (vec_copy P))) 2 (ptype_double P)
    (by omega) (by simp; omega)
  obtain ⟨row', hrow', hlen', hall⟩ := precompute_loop_spec P M ⟨_, hM⟩ M 3 2
    ((row.set (1 - 1) (some (vec_copy P))).set (2 - 1) (some (ptype_double P)))
    (by norm_num) (by norm_num) (by omega) (by simp; omega) (by
      intro t ht
      have : t = 0 ∨ t = 1 := by omega
      rcases this with rfl | rfl
      · rw [List.getElem?_set_ne (by omega), List.getElem?_set_self (by omega)]
        simp [vec_copy]
      · rw [List.getElem?_set_self (by simp; omega)]
        simp [ptype_double, two_nsmul])
  simp only [hs1, hs2, Option.bind_eq_bind, Option.some_bind, hrow']
  congr 1
  apply List.ext_getElem?
  intro t
  by_cases ht : t < M
  · rw [hall t ht, List.getElem?_map, multiples_getElem? M P t ht]
    rfl
  · rw [List.getElem?_eq_none (by omega), List.getElem?_eq_none (by simp [multiples_length]; omega)]

end Table

/-! ## Oblivious gather -/

theorem cell_map_some {G : Type} [Zero G] (tbl : List G) (t : Nat) (h : t < tbl.length) :
    (tbl.map some)[t]? = some (some (tbl.getD t 0)) := by
  simp [List.getD, List.getElem?_eq_getElem h]

section Gather

variable {G : Type} [AddCommGroup G]

theorem gather_loop_spec (tbl : List G) (m M : Nat) (hM : M ≤ tbl.length) :
    ∀ (fuel i : Nat) (p : G), 1 ≤ i → M + 1 ≤ fuel + i →
      gather_loop (tbl.map some) m M fuel i p =
        some (if i ≤ m ∧ m ≤ M then tbl.getD (m - 1) 0 else p) := by
  intro fuel
  induction fuel with
  | zero =>
    intro i p hi hfuel
    simp only [gather_loop]
    rw [if_neg (by omega), if_neg (by omega)]
  | succ fuel ih =>
    intro i p hi hfuel
    by_cases hlt : i ≤ M
    · have hl : load1 (tbl.map some) i = some (tbl.getD (i - 1) 0) :=
        load1_of_cell _ _ _ (by omega) (cell_map_some tbl (i - 1) (by omega))
      simp only [gather_loop, if_pos hlt, hl, Option.bind_eq_bind, Option.some_bind]
      rw [ih (i + 1) _ (by omega) (by omega)]
      congr 1
      unfold ptype_ccopy
      by_cases him : i = m
      · subst him
        rw [if_neg (by omega), if_pos rfl, if_neg (by norm_num), if_pos ⟨le_refl _, hlt⟩]
      · rw [if_neg him, if_pos rfl]
        by_cases h2 : i ≤ m ∧ m ≤ M
        · rw [if_pos h2, if_pos (by omega)]
        · rw [if_neg h2, if_neg (by omega)]
    · simp only [gather_loop]
      rw [if_neg hlt, if_neg (by omega)]

/-- The gather on a fully initialised table: the entry selected by the
magnitude (the identity for a magnitude outside `1 .. M`), negated when the
sign bit is set. -/
theorem gather_spec (SZ : Nat) (hSZ : 1 ≤ SZ) (tbl : List G) (idx : Nat)
    (hM : 1 <<< (SZ - 1) ≤ tbl.length) :
    ptype_gather_booth SZ (tbl.map some) idx =
      some (ptype_cneg
        (if 1 ≤ idx &&& ((1 <<< SZ) - 1) ∧ idx &&& ((1 <<< SZ) - 1) ≤ 1 <<< (SZ - 1)
          then tbl.getD ((idx &&& ((1 <<< SZ) - 1)) - 1) 0 else 0)
        ((idx >>> SZ) &&& 1)) := by
  unfold ptype_gather_booth
  rw [if_neg (by omega)]
  simp only [Option.bind_eq_bind]
  rw [gather_loop_spec tbl _ _ hM _ 1 _ (le_refl _) (by omega)]
  simp only [Option.some_bind, vec_zero]

theorem multiples_getD (M : Nat) (P : G) (m : Nat) (h1 : 1 ≤ m) (hm : m ≤ M) :
    (multiples M P).getD (m - 1) 0 = m • P := by
  have h := multiples_getElem? M P (m - 1) (by omega)
  rw [Nat.sub_add_cancel h1] at h
  simp [List.getD, h]

/-- The gather of a Booth-recoded window `v` of `SZ + 1` bits on the table of
multiples of `P` is the signed digit of the window times `P`. -/
theorem gather_booth_digit (LB SZ : Nat) (hSZ : 1 ≤ SZ) (hLB : SZ + 2 ≤ LB) (P : G) (v : Nat)
    (hv : v < 2 ^ (SZ + 1)) :
    ptype_gather_booth SZ ((multiples (1 <<< (SZ - 1)) P).map some) (booth_encode LB v SZ) =
      some (((((v + 1) / 2 : Nat) : Int) - 2 ^ SZ * ((v / 2 ^ SZ : Nat) : Int)) • P) := by
  rw [gather_spec SZ hSZ _ _ (by rw [multiples_length]), ← booth_digit_value v SZ hv]
  have hp1 : (2 : Nat) ^ (SZ + 1) = 2 * 2 ^ SZ := by ring
  have hp0 : (2 : Nat) ^ SZ = 2 * 2 ^ (SZ - 1) := by
    rw [← Nat.pow_succ', Nat.succ_eq_add_one, Nat.sub_add_cancel hSZ]
  have hpos : 0 < 2 ^ (SZ - 1) := Nat.two_pow_pos _
  have hM : 1 <<< (SZ - 1) = 2 ^ (SZ - 1) := Nat.one_shiftLeft _
  congr 1
  by_cases h : v < 2 ^ SZ
  · obtain ⟨hs, hm⟩ := booth_decode_low LB v SZ hLB h
    rw [hs, hm, if_pos h, hM]
    unfold ptype_cneg
    rw [if_pos rfl, natCast_zsmul]
    by_cases h0 : 1 ≤ (v + 1) / 2
    · rw [if_pos ⟨h0, by omega⟩, multiples_getD _ _ _ h0 (by omega)]
    · rw [if_neg (by omega)]
      have : (v + 1) / 2 = 0 := by omega
      rw [this, zero_smul]
  · obtain ⟨hs, hm⟩ := booth_decode_high LB v SZ hLB (by omega) hv
    rw [hs, hm, if_neg h, hM]
    unfold ptype_cneg
    rw [if_neg (by norm_num), neg_smul, natCast_zsmul]
    by_cases h0 : 1 ≤ 2 ^ SZ - (v + 1) / 2
    · rw [if_pos ⟨h0, by omega⟩, multiples_getD _ _ _ h0 (by omega)]
    · rw [if_neg (by omega)]
      have : 2 ^ SZ - (v + 1) / 2 = 0 := by omega
      rw [this, zero_smul]

end Gather

/-! ## Window values -/

theorem wmask_eq (LB window : Nat) (h : window + 1 < LB) :
    limb_sub LB (limb_shl LB 1 (window + 1)) 1 = 2 ^ (window + 1) - 1 := by
  have h1 : (2 : Nat) ^ (window + 1) < 2 ^ LB := Nat.pow_lt_pow_right (by norm_num) h
  have h2 : 0 < 2 ^ (window + 1) := Nat.two_pow_pos _
  have h3 : (1 : Nat) < 2 ^ LB := by omega
  unfold limb_sub limb limb_shl
  rw [Nat.one_shiftLeft, Nat.mod_mod, Nat.mod_eq_of_lt h1, Nat.mod_eq_of_lt h3]
  have e : 2 ^ (window + 1) + (2 ^ LB - 1) = (2 ^ (window + 1) - 1) + 2 ^ LB := by omega
  rw [e, Nat.add_mod_right, Nat.mod_eq_of_lt (by omega)]

theorem shifted_byte_mod (k window : Nat) (hw : window ≤ 8) :
    (2 * (k % 256)) % 2 ^ (window + 1) = (2 * k) % 2 ^ (window + 1) := by
  have h1 : 2 * (k % 256) = (2 * k) % 512 := by omega
  have hd : 2 ^ (window + 1) ∣ 512 := by
    have : (512 : Nat) = 2 ^ 9 := by norm_num
    rw [this]
    exact Nat.pow_dvd_pow 2 (by omega)
  rw [h1, Nat.mod_mod_of_dvd _ hd]

/-- The masked window value is the window `[bits - 1, bits + window)` of the
scalar, i.e. the window `[bits, bits + window + 1)` of twice the scalar. -/
theorem window_value_spec (LB : Nat) (hLB : 16 ≤ LB) (scalar : List byte) (bits window : Nat)
    (hw : window ≤ 8) (hlen : bits + window ≤ 8 * scalar.length) (hlen1 : 1 ≤ scalar.length) :
    window_value LB scalar bits window =
      some ((2 * le_value scalar / 2 ^ bits) % 2 ^ (window + 1)) := by
  unfold window_value
  rw [wmask_eq LB window (by omega)]
  by_cases hb : bits ≠ 0
  · have hs : size_sub bits 1 = some (bits - 1) := by
      unfold size_sub; rw [if_pos (by omega)]
    obtain ⟨v, hv, hmod⟩ := get_wval_mod LB hLB scalar (bits - 1) (window + 1) (by omega)
      (by omega) (by omega)
    have hk : 2 * le_value scalar / 2 ^ bits = le_value scalar / 2 ^ (bits - 1) := by
      have : 2 ^ bits = 2 * 2 ^ (bits - 1) := by
        rw [← Nat.pow_succ', Nat.succ_eq_add_one, Nat.sub_add_cancel (by omega)]
      rw [this, Nat.mul_div_mul_left _ _ (by norm_num)]
    simp only [if_pos hb, hs, hv, Option.bind_eq_bind, Option.some_bind,
      Nat.and_pow_two_sub_one_eq_mod, hmod, hk]
  · have hb0 : bits = 0 := by omega
    subst hb0
    have h0 : 0 < scalar.length := by omega
    have hsh : limb_shl LB (scalar[0]).val 1 = 2 * (le_value scalar % 256) := by
      have h16 : (2 : Nat) ^ 16 ≤ 2 ^ LB := Nat.pow_le_pow_right (by norm_num) hLB
      have hb := (scalar[0]).isLt
      unfold limb_shl
      rw [Nat.shiftLeft_eq, Nat.mod_eq_of_lt (by norm_num at h16 ⊢; omega),
        le_value_getElem scalar 0 h0]
      simp [Nat.mul_comm]
    simp only [if_neg hb, List.getElem?_eq_getElem h0, Option.map_some', hsh,
      Option.bind_eq_bind, Option.some_bind, Nat.and_pow_two_sub_one_eq_mod,
      shifted_byte_mod _ _ hw, pow_zero, Nat.div_one]

/-! ## Signed-digit arithmetic -/

/-- One step of the recoding: the rounded half of `X` is `2 ^ w` times the
rounded half of `X / 2 ^ w`, plus the signed digit of the low window of `X`. -/
theorem booth_step (X w : Nat) :
    (((X + 1) / 2 : Nat) : Int) =
      2 ^ w * (((X / 2 ^ w + 1) / 2 : Nat) : Int) +
        ((((X % 2 ^ (w + 1) + 1) / 2 : Nat) : Int) -
          2 ^ w * ((X % 2 ^ (w + 1) / 2 ^ w : Nat) : Int)) := by
  have hA : 0 < 2 ^ w := Nat.two_pow_pos w
  have h2 : 2 ^ (w + 1) = 2 * 2 ^ w := by ring
  have hv : X % 2 ^ (w + 1) < 2 ^ w * 2 := by
    rw [Nat.mul_comm, ← h2]; exact Nat.mod_lt _ (Nat.two_pow_pos _)
  have hX : X = 2 ^ w * (2 * (X / 2 ^ (w + 1))) + X % 2 ^ (w + 1) := by
    have h := (Nat.div_add_mod X (2 ^ (w + 1))).symm
    rw [h2] at h ⊢
    rw [← Nat.mul_assoc, Nat.mul_comm (2 ^ w) 2]
    exact h
  generalize X / 2 ^ (w + 1) = Y at *
  generalize X % 2 ^ (w + 1) = v at *
  have hs : v / 2 ^ w < 2 := Nat.div_lt_of_lt_mul hv
  have hXA : X / 2 ^ w = 2 * Y + v / 2 ^ w := by
    rw [hX, Nat.mul_add_div hA]
  have hc : 2 ^ w * (2 * Y) = 2 * (2 ^ w * Y) := by ring
  rw [hc] at hX
  have e1 : (X + 1) / 2 = 2 ^ w * Y + (v + 1) / 2 := by omega
  have e2 : (X / 2 ^ w + 1) / 2 = Y + v / 2 ^ w := by
    rw [hXA]
    generalize v / 2 ^ w = s at hs ⊢
    omega
  rw [e1, e2]
  push_cast
  ring

theorem round_zero (k : Nat) : (2 * k / 2 ^ 0 + 1) / 2 = k := by
  rw [pow_zero, Nat.div_one]; omega

section MultW

variable {G : Type} [AddCommGroup G]

theorem double_loop_eq (n : Nat) : ∀ a : G, double_loop n a = ((2 : Int) ^ n) • a := by
  induction n with
  | zero => intro a; simp [double_loop]
  | succ n ih =>
    intro a
    simp only [double_loop, ih, ptype_double]
    rw [pow_succ]
    module

/-- The main loop of the single-scalar multiplier, started with `j` windows
left: the accumulator is shifted by `j` windows and the low `j` windows of the
scalar, corrected by the carry into window `j`, are added. -/
theorem mult_w_loop_spec (LB : Nat) (hLB : 16 ≤ LB) (SZ : Nat) (h1 : 1 ≤ SZ) (h8 : SZ ≤ 8)
    (P : G) (scalar : List byte) (hlen1 : 1 ≤ scalar.length) :
    ∀ (fuel j : Nat) (acc : G), j ≤ fuel → j * SZ ≤ 8 * scalar.length →
      mult_w_loop LB SZ ((multiples (1 <<< (SZ - 1)) P).map some) scalar fuel (j * SZ) acc =
        some (((2 : Int) ^ (j * SZ)) • acc +
          ((le_value scalar : Int) -
            2 ^ (j * SZ) * (((2 * le_value scalar / 2 ^ (j * SZ) + 1) / 2 : Nat) : Int)) • P) := by
  intro fuel
  induction fuel with
  | zero =>
    intro j acc hj hlen
    have hj0 : j = 0 := by omega
    subst hj0
    simp only [mult_w_loop, Nat.zero_mul, gt_iff_lt, lt_self_iff_false, if_false, round_zero]
    simp
  | succ fuel ih =>
    intro j acc hj hlen
    cases j with
    | zero =>
      simp only [mult_w_loop, Nat.zero_mul, gt_iff_lt, lt_self_iff_false, if_false, round_zero]
      simp
    | succ j =>
      have hbits : 0 < (j + 1) * SZ := Nat.mul_pos (by omega) (by omega)
      have hsplit : (j + 1) * SZ = j * SZ + SZ := by ring
      have hs : size_sub ((j + 1) * SZ) SZ = some (j * SZ) := by
        unfold size_sub
        rw [if_pos (by omega), hsplit, Nat.add_sub_cancel]
      have hwv := window_value_spec LB hLB scalar (j * SZ) SZ h8 (by omega) hlen1
      have hg := gather_booth_digit LB SZ h1 (by omega) P
        ((2 * le_value scalar / 2 ^ (j * SZ)) % 2 ^ (SZ + 1))
        (Nat.mod_lt _ (Nat.two_pow_pos _))
      simp only [mult_w_loop, gt_iff_lt, if_pos hbits, hs, hwv, hg, Option.bind_eq_bind,
        Option.some_bind]
      rw [ih j _ (by omega) (by omega), double_loop_eq]
      congr 1
      have hstep := booth_step (2 * le_value scalar / 2 ^ (j * SZ)) SZ
      have hdiv : 2 * le_value scalar / 2 ^ (j * SZ) / 2 ^ SZ
          = 2 * le_value scalar / 2 ^ ((j + 1) * SZ) := by
        rw [Nat.div_div_eq_div_mul, ← Nat.pow_add, hsplit]
      rw [hdiv] at hstep
      rw [hstep, hsplit]
      unfold ptype_add
      rw [pow_add]
      module

/-- The integer identity behind the top window: with `B = 2 ^ b` the weight of
the top window and `W = 2 ^ window` its width, the top digit and the carry
correction add up to the scalar reduced modulo `2 ^ (b + window)`. -/
theorem top_window_arith (k b window : Nat) :
    (2 : Int) ^ b * ((((2 * k / 2 ^ b) % 2 ^ (window + 1) + 1) / 2 : Nat) : Int) +
        ((k : Int) - 2 ^ b * (((2 * k / 2 ^ b + 1) / 2 : Nat) : Int)) =
      ((k % 2 ^ (b + window) : Nat) : Int) := by
  have h2 : 2 ^ (window + 1) = 2 * 2 ^ window := by ring
  have hY : 2 * k / 2 ^ b / 2 ^ (window + 1) = k / 2 ^ (b + window) := by
    rw [Nat.div_div_eq_div_mul, h2, Nat.mul_left_comm, Nat.mul_div_mul_left _ _ (by norm_num),
      ← Nat.pow_add]
  have hX := (Nat.div_add_mod (2 * k / 2 ^ b) (2 ^ (window + 1))).symm
  rw [hY] at hX
  have hk := (Nat.div_add_mod k (2 ^ (b + window))).symm
  generalize 2 * k / 2 ^ b = X at *
  generalize X % 2 ^ (window + 1) = v at *
  generalize k % 2 ^ (b + window) = r at *
  generalize k / 2 ^ (b + window) = Y at *
  have hc : 2 * 2 ^ window * Y = 2 * (2 ^ window * Y) := by ring
  rw [h2, hc] at hX
  have e1 : (X + 1) / 2 = 2 ^ window * Y + (v + 1) / 2 := by omega
  rw [e1]
  have hk' : (k : Int) = 2 ^ b * 2 ^ window * Y + r := by
    rw [hk, Nat.pow_add]; push_cast; ring
  rw [hk']
  push_cast
  ring

/-- The single-scalar multiplier returns the scalar, reduced modulo `2 ^ bits`,
times the point. -/
theorem mult_w_value (LB : Nat) (hLB : 16 ≤ LB) (SZ : Nat) (h2 : 2 ≤ SZ) (h8 : SZ ≤ 8)
    (P : G) (scalar : List byte) (bits : Nat) (hlen1 : 1 ≤ scalar.length)
    (hlen : bits ≤ 8 * scalar.length) :
    ptype_mult_w LB SZ P scalar bits = some ((le_value scalar % 2 ^ bits) • P) := by
  have hpre := precompute_spec SZ h2 (List.replicate (1 <<< (SZ - 1)) none) P
    (List.length_replicate _ _)
  have hwin : bits % SZ < SZ := Nat.mod_lt _ (by omega)
  have hq : bits - bits % SZ = bits / SZ * SZ := by
    have := Nat.div_add_mod bits SZ
    rw [Nat.mul_comm] at this
    omega
  have hs : size_sub bits (bits % SZ) = some (bits / SZ * SZ) := by
    unfold size_sub
    rw [if_pos (Nat.mod_le _ _), hq]
  have hb : bits / SZ * SZ + bits % SZ = bits := by
    rw [Nat.mul_comm]; exact Nat.div_add_mod bits SZ
  have hwv := window_value_spec LB hLB scalar (bits / SZ * SZ) (bits % SZ) (by omega)
    (by omega) hlen1
  have hvlt : (2 * le_value scalar / 2 ^ (bits / SZ * SZ)) % 2 ^ (bits % SZ + 1) < 2 ^ SZ :=
    lt_of_lt_of_le (Nat.mod_lt _ (Nat.two_pow_pos _)) (Nat.pow_le_pow_right (by norm_num) hwin)
  have hg := gather_booth_digit LB SZ (by omega) (by omega) P
    ((2 * le_value scalar / 2 ^ (bits / SZ * SZ)) % 2 ^ (bits % SZ + 1))
    (lt_trans hvlt (Nat.pow_lt_pow_right (by norm_num) (by omega)))
  have hj : bits / SZ ≤ bits / SZ * SZ := Nat.le_mul_of_pos_right _ (by omega)
  unfold ptype_mult_w
  simp only [hpre, if_neg (show ¬ SZ = 0 by omega), hs, hwv, hg, Option.bind_eq_bind,
    Option.some_bind]
  rw [mult_w_loop_spec LB hLB SZ (by omega) h8 P scalar hlen1 _ (bits / SZ) _ hj (by omega)]
  congr 1
  rw [Nat.div_eq_of_lt hvlt, ← natCast_zsmul, smul_smul, ← add_smul]
  congr 1
  have := top_window_arith (le_value scalar) (bits / SZ * SZ) (bits % SZ)
  rw [hb] at this
  rw [← this]
  push_cast
  ring

end MultW

/-! ## Multi-scalar multiplier -/

theorem getElem?_of_lt_length {α : Type} (l : List α) (d : α) (t : Nat) (h : t < l.length) :
    l[t]? = some (l.getD t d) := by
  simp [List.getD, List.getElem?_eq_getElem h]

theorem get_wval_masked (LB : Nat) (hLB : 16 ≤ LB) (scalar : List byte) (bits window : Nat)
    (hb : 1 ≤ bits) (hw : window ≤ 8) (hlen : bits + window ≤ 8 * scalar.length) :
    ∃ v, get_wval LB scalar (bits - 1) (window + 1) = some v ∧
      v &&& (2 ^ (window + 1) - 1) = (2 * le_value scalar / 2 ^ bits) % 2 ^ (window + 1) := by
  obtain ⟨v, hv, hmod⟩ := get_wval_mod LB hLB scalar (bits - 1) (window + 1) (by omega)
    (by omega) (by omega)
  refine ⟨v, hv, ?_⟩
  have hk : 2 * le_value scalar / 2 ^ bits = le_value scalar / 2 ^ (bits - 1) := by
    have : 2 ^ bits = 2 * 2 ^ (bits - 1) := by
      rw [← Nat.pow_succ', Nat.succ_eq_add_one, Nat.sub_add_cancel (by omega)]
    rw [this, Nat.mul_div_mul_left _ _ (by norm_num)]
  rw [Nat.and_pow_two_sub_one_eq_mod, hmod, hk]

theorem zipWith_congr_scalars {G : Type} (F F' : G → List byte → G) :
    ∀ (ps : List G) (ss : List (List byte)), (∀ s, s ∈ ss → ∀ P, F P s = F' P s) →
      List.zipWith F ps ss = List.zipWith F' ps ss := by
  intro ps
  induction ps with
  | nil => intro ss _; simp
  | cons p ps ih =>
    intro ss h
    cases ss with
    | nil => simp
    | cons s ss =>
      rw [List.zipWith_cons_cons, List.zipWith_cons_cons, h s (List.mem_cons_self _ _) p,
        ih ss (fun s' hs' => h s' (List.mem_cons_of_mem _ hs'))]

section Mults

variable {G : Type} [AddCommGroup G]

theorem gather_window_digit (LB SZ : Nat) (hSZ : 1 ≤ SZ) (hLB : SZ + 2 ≤ LB) (P : G)
    (k bits window : Nat) (hwin : window ≤ SZ) :
    ptype_gather_booth SZ ((multiples (1 <<< (SZ - 1)) P).map some)
        (booth_encode LB ((2 * k / 2 ^ bits) % 2 ^ (window + 1)) SZ) =
      some (window_digit SZ k bits window • P) :=
  gather_booth_digit LB SZ hSZ hLB P _
    (lt_of_lt_of_le (Nat.mod_lt _ (Nat.two_pow_pos _))
      (Nat.pow_le_pow_right (by norm_num) (by omega)))

theorem mults_inner_loop_spec (LB : Nat) (hLB : 16 ≤ LB) (SZ : Nat) (h1 : 1 ≤ SZ) (h8 : SZ ≤ 8)
    (points : List G) (scalars : List (List byte)) (n : Nat) (hn : scalars.length = n)
    (table : List (List (Option G)))
    (htab : ∀ t, t < n →
      table[t]? = some ((multiples (1 <<< (SZ - 1)) (points.getD t 0)).map some))
    (bits window : Nat) (hbits : 1 ≤ bits) (hwin : window ≤ SZ)
    (hlen : ∀ t, t < n → bits + window ≤ 8 * (scalars.getD t []).length) :
    ∀ (fuel i : Nat) (acc : G), n ≤ fuel + i →
      mults_inner_loop LB SZ table scalars n bits window (2 ^ (window + 1) - 1) fuel i acc =
        some (acc + ∑ t in Finset.Ico i n,
          window_digit SZ (le_value (scalars.getD t [])) bits window • points.getD t 0) := by
  intro fuel
  induction fuel with
  | zero =>
    intro i acc hf
    simp only [mults_inner_loop]
    rw [if_neg (by omega), Finset.Ico_eq_empty (by omega), Finset.sum_empty, add_zero]
  | succ fuel ih =>
    intro i acc hf
    by_cases hi : i < n
    · have hsc := getElem?_of_lt_length scalars [] i (by omega)
      have hs : size_sub bits 1 = some (bits - 1) := by
        unfold size_sub; rw [if_pos hbits]
      obtain ⟨v, hv, hmask⟩ := get_wval_masked LB hLB (scalars.getD i []) bits window hbits
        (by omega) (hlen i hi)
      have hg := gather_window_digit LB SZ h1 (by omega) (points.getD i 0)
        (le_value (scalars.getD i [])) bits window hwin
      simp only [mults_inner_loop, if_pos hi, hsc, hs, hv, hmask, htab i hi, hg,
        Option.bind_eq_bind, Option.some_bind]
      rw [ih (i + 1) _ (by omega), Finset.sum_eq_sum_Ico_succ_bot hi]
      unfold ptype_dadd
      rw [add_assoc]
    · simp only [mults_inner_loop]
      rw [if_neg hi, Finset.Ico_eq_empty (by omega), Finset.sum_empty, add_zero]

theorem mults_last_loop_spec (LB : Nat) (SZ : Nat) (h1 : 1 ≤ SZ) (h8 : SZ ≤ 8)
    (hLB : SZ + 2 ≤ LB)
    (points : List G) (scalars : List (List byte)) (n : Nat) (hn : scalars.length = n)
    (table : List (List (Option G)))
    (htab : ∀ t, t < n →
      table[t]? = some ((multiples (1 <<< (SZ - 1)) (points.getD t 0)).map some))
    (window : Nat) (hwin : window ≤ SZ)
    (hlen : ∀ t, t < n → 1 ≤ (scalars.getD t []).length) :
    ∀ (fuel i : Nat) (acc : G), n ≤ fuel + i →
      mults_last_loop LB SZ table scalars n (2 ^ (window + 1) - 1) fuel i acc =
        some (acc + ∑ t in Finset.Ico i n,
          window_digit SZ (le_value (scalars.getD t [])) 0 window • points.getD t 0) := by
  intro fuel
  induction fuel with
  | zero =>
    intro i acc hf
    simp only [mults_last_loop]
    rw [if_neg (by omega), Finset.Ico_eq_empty (by omega), Finset.sum_empty, add_zero]
  | succ fuel ih =>
    intro i acc hf
    by_cases hi : i < n
    · have hsc := getElem?_of_lt_length scalars [] i (by omega)
      have h0 : 0 < (scalars.getD i []).length := hlen i hi
      have hv : ((scalars.getD i [])[0]).val <<< 1 &&& (2 ^ (window + 1) - 1) =
          (2 * le_value (scalars.getD i []) / 2 ^ 0) % 2 ^ (window + 1) := by
        rw [Nat.and_pow_two_sub_one_eq_mod, Nat.shiftLeft_eq, le_value_getElem _ 0 h0]
        simp only [pow_zero, Nat.div_one, pow_one]
        rw [Nat.mul_comm _ 2, shifted_byte_mod _ _ (by omega)]
      have hg := gather_window_digit LB SZ h1 hLB (points.getD i 0)
        (le_value (scalars.getD i [])) 0 window hwin
      simp only [mults_last_loop, if_pos hi, hsc, List.getElem?_eq_getElem h0, hv, htab i hi,
        hg, Option.bind_eq_bind, Option.some_bind]
      rw [ih (i + 1) _ (by omega), Finset.sum_eq_sum_Ico_succ_bot hi]
      unfold ptype_dadd
      rw [add_assoc]
    · simp only [mults_last_loop]
      rw [if_neg hi, Finset.Ico_eq_empty (by omega), Finset.sum_empty, add_zero]

theorem round_step (SZ k b : Nat) :
    (((2 * k / 2 ^ b + 1) / 2 : Nat) : Int) =
      2 ^ SZ * (((2 * k / 2 ^ (b + SZ) + 1) / 2 : Nat) : Int) + window_digit SZ k b SZ := by
  have h := booth_step (2 * k / 2 ^ b) SZ
  rw [Nat.div_div_eq_div_mul, ← Nat.pow_add] at h
  exact h

theorem top_digit_arith (SZ k b window : Nat) (hwin : window < SZ) :
    (2 : Int) ^ b * window_digit SZ k b window +
        ((k : Int) - 2 ^ b * (((2 * k / 2 ^ b + 1) / 2 : Nat) : Int)) =
      ((k % 2 ^ (b + window) : Nat) : Int) := by
  have hv : (2 * k / 2 ^ b) % 2 ^ (window + 1) < 2 ^ SZ :=
    lt_of_lt_of_le (Nat.mod_lt _ (Nat.two_pow_pos _)) (Nat.pow_le_pow_right (by norm_num) hwin)
  rw [← top_window_arith k b window]
  unfold window_digit
  rw [Nat.div_eq_of_lt hv]
  push_cast
  ring

theorem mults_while_spec (LB : Nat) (hLB : 16 ≤ LB) (SZ : Nat) (h1 : 1 ≤ SZ) (h8 : SZ ≤ 8)
    (points : List G) (scalars : List (List byte)) (n : Nat) (hn : scalars.length = n)
    (table : List (List (Option G)))
    (htab : ∀ t, t < n →
      table[t]? = some ((multiples (1 <<< (SZ - 1)) (points.getD t 0)).map some)) :
    ∀ (fuel j : Nat) (acc : G), j ≤ fuel →
      (∀ t, t < n → (j + 1) * SZ ≤ 8 * (scalars.getD t []).length) →
      mults_while LB SZ table scalars n fuel (j * SZ) SZ (2 ^ (SZ + 1) - 1) 0 acc =
        some (2 ^ (SZ + 1) - 1, 0, ((2 : Int) ^ (j * SZ)) • acc +
          ∑ t in Finset.range n,
            ((2 : Int) ^ SZ * (((2 * le_value (scalars.getD t []) / 2 ^ SZ + 1) / 2 : Nat) : Int) -
              2 ^ ((j + 1) * SZ) *
                (((2 * le_value (scalars.getD t []) / 2 ^ ((j + 1) * SZ) + 1) / 2 : Nat) : Int)) •
              points.getD t 0) := by
  intro fuel
  induction fuel with
  | zero =>
    intro j acc hj _
    have hj0 : j = 0 := by omega
    subst hj0
    simp only [mults_while, Nat.zero_mul, gt_iff_lt, lt_self_iff_false, if_false, Nat.zero_add,
      Nat.one_mul, sub_self, zero_smul, Finset.sum_const_zero, pow_zero, one_smul, add_zero]
  | succ fuel ih =>
    intro j acc hj hlen
    cases j with
    | zero =>
      simp only [mults_while, Nat.zero_mul, gt_iff_lt, lt_self_iff_false, if_false, Nat.zero_add,
        Nat.one_mul, sub_self, zero_smul, Finset.sum_const_zero, pow_zero, one_smul, add_zero]
    | succ j =>
      have hbits : 0 < (j + 1) * SZ := Nat.mul_pos (by omega) (by omega)
      have hsplit : (j + 1) * SZ = j * SZ + SZ := by ring
      have hsplit2 : (j + 1 + 1) * SZ = (j + 1) * SZ + SZ := by ring
      have hs : size_sub ((j + 1) * SZ) SZ = some (j * SZ) := by
        unfold size_sub
        rw [if_pos (by omega), hsplit, Nat.add_sub_cancel]
      have hin := mults_inner_loop_spec LB hLB SZ h1 h8 points scalars n hn table htab
        ((j + 1) * SZ) SZ hbits (le_refl _) (fun t ht => by have := hlen t ht; omega)
        n 0 acc (by omega)
      simp only [mults_while, gt_iff_lt, if_pos hbits, hin, hs, wmask_eq LB SZ (by omega),
        Option.bind_eq_bind, Option.some_bind]
      rw [ih j _ (by omega) (fun t ht => by have := hlen t ht; omega), double_loop_eq,
        ← Finset.range_eq_Ico]
      congr 3
      rw [smul_smul, smul_add, Finset.smul_sum, add_assoc, ← Finset.sum_add_distrib,
        ← pow_add, ← hsplit]
      congr 1
      apply Finset.sum_congr rfl
      intro t _
      rw [smul_smul, ← add_smul]
      congr 1
      rw [round_step SZ (le_value (scalars.getD t [])) ((j + 1) * SZ), ← hsplit2,
        show (2 : Int) ^ ((j + 1 + 1) * SZ) = 2 ^ ((j + 1) * SZ) * 2 ^ SZ by
          rw [← pow_add, hsplit2]]
      ring

theorem precompute_all_spec (SZ : Nat) (h2 : 2 ≤ SZ) (points : List G) (n : Nat)
    (hp : points.length = n) :
    ∀ (fuel i : Nat) (table : List (List (Option G))), n ≤ fuel + i → n ≤ table.length →
      (∀ row, row ∈ table → row.length = 1 <<< (SZ - 1)) →
      (∀ t, t < i → t < n →
        table[t]? = some ((multiples (1 <<< (SZ - 1)) (points.getD t 0)).map some)) →
      ∃ table', precompute_all SZ points n fuel i table = some table' ∧
        ∀ t, t < n →
          table'[t]? = some ((multiples (1 <<< (SZ - 1)) (points.getD t 0)).map some) := by
  intro fuel
  induction fuel with
  | zero =>
    intro i table hf _ _ hdone
    refine ⟨table, ?_, fun t ht => hdone t (by omega) ht⟩
    simp only [precompute_all]
    rw [if_neg (by omega)]
  | succ fuel ih =>
    intro i table hf hlen hrows hdone
    by_cases hi : i < n
    · have hrow := getElem?_of_lt_length table [] i (by omega)
      have hpt := getElem?_of_lt_length points 0 i (by omega)
      have hpre := precompute_spec SZ h2 (table.getD i []) (points.getD i 0)
        (hrows _ (List.getElem?_mem hrow))
      simp only [precompute_all, if_pos hi, hrow, hpt, hpre, Option.bind_eq_bind,
        Option.some_bind]
      apply ih (i + 1) _ (by omega) (by rw [List.length_set]; exact hlen)
      · intro row hmem
        rcases List.mem_or_eq_of_mem_set hmem with h | h
        · exact hrows row h
        · rw [h, List.length_map, multiples_length]
      · intro t ht htn
        by_cases hti : t = i
        · subst hti
          rw [List.getElem?_set_self (by omega)]
        · rw [List.getElem?_set_ne (by omega)]
          exact hdone t (by omega) htn
    · refine ⟨table, ?_, fun t ht => hdone t (by omega) ht⟩
      simp only [precompute_all]
      rw [if_neg hi]

theorem sum_range_split (n : Nat) (hn : 0 < n) (f : Nat → G) :
    f 0 + ∑ t in Finset.Ico 1 n, f t = ∑ t in Finset.range n, f t := by
  rw [Finset.range_eq_Ico]
  exact (Finset.sum_eq_sum_Ico_succ_bot hn f).symm

/-- The multi-scalar multiplier returns the sum of the scalars, each reduced
modulo `2 ^ bits`, times their points, for a `NULL` table as well as for
caller-supplied storage of at least `n` rows of `1<<(SZ-1)` cells. -/
theorem mults_value (LB : Nat) (hLB : 16 ≤ LB) (SZ : Nat) (h2 : 2 ≤ SZ) (h8 : SZ ≤ 8)
    (points : List G) (scalars : List (List byte)) (n : Nat) (hn1 : 1 ≤ n)
    (hp : points.length = n) (hn : scalars.length = n) (bits : Nat)
    (hlen : ∀ t, t < n → 1 ≤ (scalars.getD t []).length ∧ bits ≤ 8 * (scalars.getD t []).length)
    (table : Option (List (List (Option G))))
    (htable : ∀ tb, table = some tb →
      n ≤ tb.length ∧ ∀ row, row ∈ tb → row.length = 1 <<< (SZ - 1)) :
    ptypes_mult_w LB SZ points n scalars bits table =
      some (∑ t in Finset.range n,
        ((le_value (scalars.getD t []) % 2 ^ bits : Nat) : Int) • points.getD t 0) := by
  -- the storage, supplied or fresh
  have hstore : ∃ tb0, (match table with
      | some t => t
      | none => List.replicate n (List.replicate (1 <<< (SZ - 1)) none)) = tb0 ∧
      n ≤ tb0.length ∧ ∀ row, row ∈ tb0 → row.length = 1 <<< (SZ - 1) := by
    cases table with
    | none =>
      refine ⟨_, rfl, by simp, ?_⟩
      intro row hrow
      rw [List.eq_of_mem_replicate hrow, List.length_replicate]
    | some tb => exact ⟨tb, rfl, htable tb rfl⟩
  obtain ⟨tb0, htb0, hlen0, hrows0⟩ := hstore
  obtain ⟨tb, hpre, htab⟩ := precompute_all_spec SZ h2 points n hp n 0 tb0 (by omega) hlen0
    hrows0 (fun t ht _ => by omega)
  -- the window schedule: `bits = Q * SZ + W` with `W < SZ`
  obtain ⟨Q, W, hbits, hW⟩ : ∃ Q W, bits = Q * SZ + W ∧ W < SZ :=
    ⟨bits / SZ, bits % SZ, by rw [Nat.mul_comm]; exact (Nat.div_add_mod bits SZ).symm,
      Nat.mod_lt _ (by omega)⟩
  subst hbits
  have hmod : (Q * SZ + W) % SZ = W := by
    rw [Nat.mul_comm, Nat.mul_add_mod, Nat.mod_eq_of_lt hW]
  have hs : size_sub (Q * SZ + W) W = some (Q * SZ) := by
    unfold size_sub
    rw [if_pos (Nat.le_add_left _ _), Nat.add_sub_cancel]
  have hsc0 := getElem?_of_lt_length scalars [] 0 (by omega)
  have hg0 := gather_window_digit LB SZ (by omega) (by omega) (points.getD 0 0)
    (le_value (scalars.getD 0 [])) (Q * SZ) W (by omega)
  have hlast : ∀ window, window ≤ SZ → ∀ i acc,
      mults_last_loop LB SZ tb scalars n (2 ^ (window + 1) - 1) n i acc = _ :=
    fun window hw i acc => mults_last_loop_spec LB SZ (by omega) h8 (by omega) points scalars
      n hn tb htab window hw (fun t ht => (hlen t ht).1) n i acc (by omega)
  unfold ptypes_mult_w
  simp only [htb0, hpre, if_neg (show ¬ SZ = 0 by omega), hmod, hs, hsc0, htab 0 (by omega),
    wmask_eq LB W (by omega), Option.bind_eq_bind, Option.some_bind]
  cases Q with
  | succ q =>
    -- at least one full window below the top window
    have hpos : 0 < (q + 1) * SZ := Nat.mul_pos (by omega) (by omega)
    have hsplit : (q + 1) * SZ = q * SZ + SZ := by ring
    have hs1 : size_sub ((q + 1) * SZ) 1 = some ((q + 1) * SZ - 1) := by
      unfold size_sub; rw [if_pos (Nat.succ_le_of_lt hpos)]
    obtain ⟨v, hv, hmask⟩ := get_wval_masked LB hLB (scalars.getD 0 []) ((q + 1) * SZ)
      W (Nat.succ_le_of_lt hpos) (by omega) (hlen 0 (by omega)).2
    have hin := mults_inner_loop_spec LB hLB SZ (by omega) h8 points scalars n hn tb htab
      ((q + 1) * SZ) W (Nat.succ_le_of_lt hpos) (by omega)
      (fun t ht => (hlen t ht).2) n 1
      (window_digit SZ (le_value (scalars.getD 0 [])) ((q + 1) * SZ) W • points.getD 0 0)
      (by omega)
    have hfuel : (q + 1) * SZ = (q * SZ + SZ - 1) + 1 := by omega
    have hs2 : size_sub ((q + 1) * SZ) SZ = some (q * SZ) := by
      unfold size_sub
      rw [hsplit, if_pos (Nat.le_add_left _ _), Nat.add_sub_cancel]
    have hqle : q ≤ q * SZ + SZ - 1 := by
      have : q ≤ q * SZ := Nat.le_mul_of_pos_right _ (by omega)
      omega
    have hwh := mults_while_spec LB hLB SZ (by omega) h8 points scalars n hn tb htab
      (q * SZ + SZ - 1) q
      (double_loop SZ (window_digit SZ (le_value (scalars.getD 0 [])) ((q + 1) * SZ) W •
          points.getD 0 0 +
        ∑ t in Finset.Ico 1 n,
          window_digit SZ (le_value (scalars.getD t [])) ((q + 1) * SZ) W • points.getD t 0))
      hqle (fun t ht => by have := (hlen t ht).2; omega)
    simp only [gt_iff_lt, if_pos hpos, hs1, hv, hmask, hg0, Option.bind_eq_bind,
      Option.some_bind]
    rw [show mults_while LB SZ tb scalars n ((q + 1) * SZ) ((q + 1) * SZ) W (2 ^ (W + 1) - 1) 1
        (window_digit SZ (le_value (scalars.getD 0 [])) ((q + 1) * SZ) W • points.getD 0 0) =
        mults_while LB SZ tb scalars n ((q * SZ + SZ - 1) + 1) ((q + 1) * SZ) W
          (2 ^ (W + 1) - 1) 1
          (window_digit SZ (le_value (scalars.getD 0 [])) ((q + 1) * SZ) W • points.getD 0 0)
      by rw [← hfuel]]
    simp only [mults_while, gt_iff_lt, if_pos hpos, hin, hs2,
      wmask_eq LB SZ (by omega), Option.bind_eq_bind, Option.some_bind, hwh]
    have hsum := sum_range_split n (by omega) (fun t =>
      window_digit SZ (le_value (scalars.getD t [])) ((q + 1) * SZ) W • points.getD t 0)
    simp only at hsum
    rw [hlast SZ (le_refl _), double_loop_eq, ← Finset.range_eq_Ico, hsum]
    congr 1
    rw [smul_smul, Finset.smul_sum, ← Finset.sum_add_distrib, ← Finset.sum_add_distrib]
    apply Finset.sum_congr rfl
    intro t _
    rw [smul_smul, ← add_smul, ← add_smul]
    congr 1
    have e1 := top_digit_arith SZ (le_value (scalars.getD t [])) ((q + 1) * SZ) W hW
    have e2 := round_step SZ (le_value (scalars.getD t [])) 0
    rw [round_zero, Nat.zero_add] at e2
    rw [← e1, e2, ← pow_add, ← hsplit]
    ring
  | zero =>
    -- the top window is the only window
    have h0 : 0 < (scalars.getD 0 []).length := (hlen 0 (by omega)).1
    have hv : ((scalars.getD 0 [])[0]).val <<< 1 &&& (2 ^ (W + 1) - 1) =
        (2 * le_value (scalars.getD 0 []) / 2 ^ (0 * SZ)) % 2 ^ (W + 1) := by
      rw [Nat.and_pow_two_sub_one_eq_mod, Nat.shiftLeft_eq, le_value_getElem _ 0 h0]
      simp only [Nat.zero_mul, pow_zero, Nat.div_one, pow_one]
      rw [Nat.mul_comm _ 2, shifted_byte_mod _ _ (by omega)]
    simp only [gt_iff_lt, Nat.zero_mul, lt_self_iff_false, if_false,
      List.getElem?_eq_getElem h0, Option.map_some', Option.bind_eq_bind, Option.some_bind]
    simp only [Nat.zero_mul] at hv hg0
    simp only [hv, hg0, Option.some_bind, mults_while, gt_iff_lt, lt_self_iff_false, if_false]
    have hsum := sum_range_split n (by omega) (fun t =>
      window_digit SZ (le_value (scalars.getD t [])) 0 W • points.getD t 0)
    simp only at hsum
    rw [hlast W (by omega), hsum]
    congr 1
    apply Finset.sum_congr rfl
    intro t _
    congr 1
    have e1 := top_digit_arith SZ (le_value (scalars.getD t [])) 0 W hW
    rw [round_zero] at e1
    rw [← e1]
    ring

theorem sum_range_eq_zipWith_sum (F : G → List byte → G) :
    ∀ (ps : List G) (ss : List (List byte)), ps.length = ss.length →
      ∑ t in Finset.range ps.length, F (ps.getD t 0) (ss.getD t []) =
        (List.zipWith F ps ss).sum := by
  intro ps
  induction ps with
  | nil => intro ss _; simp
  | cons p ps ih =>
    intro ss hlen
    cases ss with
    | nil => simp at hlen
    | cons s ss =>
      have hl : ps.length = ss.length := by simpa using hlen
      rw [List.length_cons, Finset.sum_range_succ', List.zipWith_cons_cons, List.sum_cons,
        ← ih ss hl, add_comm]
      rfl

/-- The multi-scalar result as a sum over the lists of points and scalars. -/
theorem mults_value_list (LB : Nat) (hLB : 16 ≤ LB) (SZ : Nat) (h2 : 2 ≤ SZ) (h8 : SZ ≤ 8)
    (points : List G) (scalars : List (List byte)) (n : Nat) (hn1 : 1 ≤ n)
    (hp : points.length = n) (hn : scalars.length = n) (bits : Nat)
    (hlen : ∀ s, s ∈ scalars → max 1 ((bits + 7) / 8) ≤ s.length)
    (table : Option (List (List (Option G))))
    (htable : ∀ tb, table = some tb →
      n ≤ tb.length ∧ ∀ row, row ∈ tb → row.length = 2 ^ (SZ - 1)) :
    ptypes_mult_w LB SZ points n scalars bits table =
      some ((List.zipWith (fun P s => (le_value s % 2 ^ bits) • P) points scalars).sum) := by
  have hlen' : ∀ t, t < n →
      1 ≤ (scalars.getD t []).length ∧ bits ≤ 8 * (scalars.getD t []).length := by
    intro t ht
    have hmem : scalars.getD t [] ∈ scalars :=
      List.getElem?_mem (getElem?_of_lt_length scalars [] t (by omega))
    have h1 := le_trans (le_max_left _ _) (hlen _ hmem)
    have h3 := le_trans (le_max_right _ _) (hlen _ hmem)
    exact ⟨h1, by omega⟩
  rw [mults_value LB hLB SZ h2 h8 points scalars n hn1 hp hn bits hlen' table
    (by rw [Nat.one_shiftLeft]; exact htable)]
  congr 1
  have h := sum_range_eq_zipWith_sum (fun P s => (le_value s % 2 ^ bits) • P) points scalars
    (by rw [hp, hn])
  rw [hp] at h
  rw [← h]
  apply Finset.sum_congr rfl
  intro t _
  exact natCast_zsmul _ _

theorem zipWith_single_results (LB : Nat) (hLB : 16 ≤ LB) (SZ : Nat) (h2 : 2 ≤ SZ)
    (h8 : SZ ≤ 8) (bits : Nat) :
    ∀ (points : List G) (scalars : List (List byte)),
      (∀ s, s ∈ scalars → max 1 ((bits + 7) / 8) ≤ s.length) →
      List.zipWith (fun P s => ptype_mult_w LB SZ P s bits) points scalars =
        (List.zipWith (fun P s => (le_value s % 2 ^ bits) • P) points scalars).map some := by
  intro points
  induction points with
  | nil => intro ss _; simp
  | cons p ps ih =>
    intro ss h
    cases ss with
    | nil => simp
    | cons s ss =>
      have hs := h s (List.mem_cons_self _ _)
      have h1 := le_trans (le_max_left _ _) hs
      have h3 := le_trans (le_max_right _ _) hs
      rw [List.zipWith_cons_cons, List.zipWith_cons_cons, List.map_cons,
        mult_w_value LB hLB SZ h2 h8 p s bits h1 (by omega),
        ih ss (fun s' hs' => h s' (List.mem_cons_of_mem _ hs'))]

end Mults

/-! ## XZ ladder -/

theorem bit_arith (X r : Nat) (hr : r < 8) : (X % 256 / 2 ^ r) % 2 = (X / 2 ^ r) % 2 := by
  interval_cases r <;> simp only [Nat.reducePow] <;> omega

theorem is_bit_set_eq (v : List byte) (i : Nat) (h : i < 8 * v.length) :
    is_bit_set v i = some ((le_value v / 2 ^ i) % 2) := by
  have h1 : i / 8 < v.length := by omega
  unfold is_bit_set
  rw [List.getElem?_eq_getElem h1, Option.map_some', le_value_getElem,
    Nat.shiftRight_eq_div_pow, Nat.and_one_is_mod, bit_arith _ _ (Nat.mod_lt _ (by norm_num)),
    Nat.div_div_eq_div_mul, ← two_pow_split]

section Ladder

variable {G XZ FY : Type} [AddCommGroup G]

/-- The ladder invariant, carried through `bits` further steps: if the pair
`(ret, sum)`, exchanged back when `pbit = 1`, represents `(m·P, m·P + P)`, the
state after the loop does so for `m · 2 ^ bits + k mod 2 ^ bits`. -/
theorem mult_ladder_loop_spec (ops : XZPrims G XZ FY) (Rep : XZ → G → Prop) (P : G)
    (scalar : List byte)
    (hsym : ∀ x A, Rep x A → Rep x (-A))
    (hstep : ∀ r s A, Rep r A → Rep s (A + P) →
      Rep (ops.ladder_step r s (ops.ladder_pre P)).1 (A + A) ∧
      Rep (ops.ladder_step r s (ops.ladder_pre P)).2 (A + A + P)) :
    ∀ (bits : Nat) (ret sum : XZ) (pbit m : Nat), bits ≤ 8 * scalar.length → pbit ≤ 1 →
      Rep (xz_cswap ret sum pbit).1 (m • P) → Rep (xz_cswap ret sum pbit).2 (m • P + P) →
      ∃ ret' sum' pbit', mult_ladder_loop ops (ops.ladder_pre P) scalar bits (ret, sum, pbit) =
          some (ret', sum', pbit') ∧ pbit' ≤ 1 ∧
        Rep (xz_cswap ret' sum' pbit').1 ((m * 2 ^ bits + le_value scalar % 2 ^ bits) • P) ∧
        Rep (xz_cswap ret' sum' pbit').2
          ((m * 2 ^ bits + le_value scalar % 2 ^ bits) • P + P) := by
  intro bits
  induction bits with
  | zero =>
    intro ret sum pbit m _ hp h1 h2
    refine ⟨ret, sum, pbit, rfl, hp, ?_, ?_⟩
    · simpa [Nat.mod_one] using h1
    · simpa [Nat.mod_one] using h2
  | succ bits ih =>
    intro ret sum pbit m hlen hp h1 h2
    have hbit := is_bit_set_eq scalar bits (by omega)
    have hb : (le_value scalar / 2 ^ bits) % 2 = 0 ∨ (le_value scalar / 2 ^ bits) % 2 = 1 := by
      omega
    have hp' : pbit = 0 ∨ pbit = 1 := by omega
    have hm : ∀ b, (le_value scalar / 2 ^ bits) % 2 = b →
        (2 * m + b) * 2 ^ bits + le_value scalar % 2 ^ bits =
          m * 2 ^ (bits + 1) + le_value scalar % 2 ^ (bits + 1) := by
      intro b hb'
      rw [Nat.mod_pow_succ, hb', pow_succ]
      ring
    simp only [mult_ladder_loop, hbit, Option.bind_eq_bind, Option.some_bind]
    rcases hb with hb | hb <;> rcases hp' with hp' | hp' <;> subst hp' <;> rw [hb] <;>
      rw [← hm _ hb] <;> simp only [xz_cswap] at h1 h2 ⊢
    · -- bit 0, previous bit 0: no exchange, the pair stays in order
      obtain ⟨s1, s2⟩ := hstep ret sum (m • P) (by simpa using h1) (by simpa using h2)
      apply ih _ _ _ (2 * m + 0) (by omega) (by norm_num)
      · simp only [xz_cswap]
        have e : (2 * m) • P = m • P + m • P := by module
        simpa [e] using s1
      · simp only [xz_cswap]
        have e : (2 * m) • P + P = m • P + m • P + P := by module
        simpa [e] using s2
    · -- bit 0, previous bit 1: exchanged back, the pair is in order again
      obtain ⟨s1, s2⟩ := hstep sum ret (m • P) (by simpa using h1) (by simpa using h2)
      apply ih _ _ _ (2 * m + 0) (by omega) (by norm_num)
      · simp only [xz_cswap]
        have e : (2 * m) • P = m • P + m • P := by module
        simpa [e] using s1
      · simp only [xz_cswap]
        have e : (2 * m) • P + P = m • P + m • P + P := by module
        simpa [e] using s2
    · -- bit 1, previous bit 0: exchanged, `ret` now holds the larger multiple
      have a1 : Rep sum (-(m • P + P)) := hsym _ _ (by simpa using h2)
      have a2 : Rep ret (-(m • P + P) + P) := by
        have := hsym _ _ (show Rep ret (m • P) by simpa using h1)
        have e : -(m • P + P) + P = -(m • P) := by abel
        rwa [e]
      obtain ⟨s1, s2⟩ := hstep sum ret _ a1 a2
      apply ih _ _ _ (2 * m + 1) (by omega) (by norm_num)
      · simp only [xz_cswap]
        have e : (2 * m + 1) • P = -(-(m • P + P) + -(m • P + P) + P) := by
          rw [add_smul, mul_smul, two_smul, one_smul]; abel
        have := hsym _ _ s2
        simpa [e] using this
      · simp only [xz_cswap]
        have e : (2 * m + 1) • P + P = -(-(m • P + P) + -(m • P + P)) := by
          rw [add_smul, mul_smul, two_smul, one_smul]; abel
        have := hsym _ _ s1
        simpa [e] using this
    · -- bit 1, previous bit 1: no exchange, the pair stays exchanged
      have a1 : Rep ret (-(m • P + P)) := hsym _ _ (by simpa using h2)
      have a2 : Rep sum (-(m • P + P) + P) := by
        have := hsym _ _ (show Rep sum (m • P) by simpa using h1)
        have e : -(m • P + P) + P = -(m • P) := by abel
        rwa [e]
      obtain ⟨s1, s2⟩ := hstep ret sum _ a1 a2
      apply ih _ _ _ (2 * m + 1) (by omega) (by norm_num)
      · simp only [xz_cswap]
        have e : (2 * m + 1) • P = -(-(m • P + P) + -(m • P + P) + P) := by
          rw [add_smul, mul_smul, two_smul, one_smul]; abel
        have := hsym _ _ s2
        simpa [e] using this
      · simp only [xz_cswap]
        have e : (2 * m + 1) • P + P = -(-(m • P + P) + -(m • P + P)) := by
          rw [add_smul, mul_smul, two_smul, one_smul]; abel
        have := hsym _ _ s1
        simpa [e] using this

/-- The XZ ladder returns the scalar, reduced modulo `2 ^ bits`, times the
point, when the XZ primitives meet their contracts. -/
theorem mult_ladder_value (ops : XZPrims G XZ FY) (Rep : XZ → G → Prop) (P : G)
    (scalar : List byte) (bits : Nat) (hlen : bits ≤ 8 * scalar.length)
    (hsym : ∀ x A, Rep x A → Rep x (-A))
    (hzero : Rep ops.xz_zero 0)
    (hpre : Rep (ops.ladder_pre P) P)
    (hstep : ∀ r s A, Rep r A → Rep s (A + P) →
      Rep (ops.ladder_step r s (ops.ladder_pre P)).1 (A + A) ∧
      Rep (ops.ladder_step r s (ops.ladder_pre P)).2 (A + A + P))
    (hpost : ∀ r s A, Rep r A → Rep s (A + P) →
      ops.ladder_post r s (ops.ladder_pre P) (ops.getY P) = A) :
    ptype_mult_ladder ops P scalar bits = some ((le_value scalar % 2 ^ bits) • P) := by
  obtain ⟨ret', sum', pbit', hloop, _, h1, h2⟩ :=
    mult_ladder_loop_spec ops Rep P scalar hsym hstep bits ops.xz_zero (ops.ladder_pre P) 0 0
      hlen (by norm_num) (by simpa [xz_cswap] using hzero) (by simpa [xz_cswap] using hpre)
  unfold ptype_mult_ladder
  simp only [hloop, Option.bind_eq_bind, Option.some_bind]
  rw [hpost _ _ _ h1 h2]
  simp

end Ladder

/-! ## Digits, partial runs and traces -/

theorem booth_digit_encode (LB SZ v : Nat) (hLB : SZ + 2 ≤ LB) (hv : v < 2 ^ (SZ + 1)) :
    booth_digit SZ (booth_encode LB v SZ) =
      (((v + 1) / 2 : Nat) : Int) - 2 ^ SZ * ((v / 2 ^ SZ : Nat) : Int) := by
  rw [← booth_digit_value v SZ hv]
  have hp1 : (2 : Nat) ^ (SZ + 1) = 2 * 2 ^ SZ := by ring
  unfold booth_digit
  by_cases h : v < 2 ^ SZ
  · obtain ⟨hs, hm⟩ := booth_decode_low LB v SZ hLB h
    rw [hs, hm, if_pos h, if_neg (by norm_num)]
  · obtain ⟨hs, hm⟩ := booth_decode_high LB v SZ hLB (by omega) hv
    rw [hs, hm, if_neg h, if_pos rfl]

theorem mult_w_eq_top_then_loop {G : Type} [AddCommGroup G] (LB SZ : Nat) (point : G) (scalar : List byte) (bits : Nat) :
    ptype_mult_w LB SZ point scalar bits =
      (mult_w_top LB SZ point scalar bits).bind
        (fun st => mult_w_loop LB SZ st.1 scalar st.2.1 st.2.1 st.2.2) := by
  unfold ptype_mult_w mult_w_top
  simp only [Option.bind_eq_bind]
  cases ptype_precompute SZ (List.replicate (1 <<< (SZ - 1)) none) point with
  | none => rfl
  | some table =>
    simp only [Option.some_bind]
    by_cases hSZ : SZ = 0
    · simp [hSZ]
    · simp only [if_neg hSZ]
      cases size_sub bits (bits % SZ) with
      | none => rfl
      | some b =>
        simp only [Option.some_bind]
        cases window_value LB scalar b (bits % SZ) with
        | none => rfl
        | some v =>
          simp only [Option.some_bind]
          cases ptype_gather_booth SZ table (booth_encode LB v SZ) with
          | none => rfl
          | some r => rfl

theorem mult_w_top_spec {G : Type} [AddCommGroup G] (LB : Nat) (hLB : 16 ≤ LB) (SZ : Nat) (h2 : 2 ≤ SZ) (h8 : SZ ≤ 8)
    (P : G) (scalar : List byte) (q r : Nat) (hr : r < SZ) (hlen1 : 1 ≤ scalar.length)
    (hlen : q * SZ + r ≤ 8 * scalar.length) :
    window_value LB scalar (q * SZ) r =
        some ((2 * le_value scalar / 2 ^ (q * SZ)) % 2 ^ (r + 1)) ∧
      mult_w_top LB SZ P scalar (q * SZ + r) =
        some ((multiples (1 <<< (SZ - 1)) P).map some, q * SZ,
          ((((2 * le_value scalar / 2 ^ (q * SZ)) % 2 ^ (r + 1)) + 1) / 2) • P) := by
  have hpre := precompute_spec SZ h2 (List.replicate (1 <<< (SZ - 1)) none) P
    (List.length_replicate _ _)
  have hmod : (q * SZ + r) % SZ = r := by
    rw [Nat.mul_comm, Nat.mul_add_mod, Nat.mod_eq_of_lt hr]
  have hs : size_sub (q * SZ + r) r = some (q * SZ) := by
    unfold size_sub
    rw [if_pos (Nat.le_add_left _ _), Nat.add_sub_cancel]
  have hwv := window_value_spec LB hLB scalar (q * SZ) r (by omega) hlen hlen1
  have hvlt : (2 * le_value scalar / 2 ^ (q * SZ)) % 2 ^ (r + 1) < 2 ^ SZ :=
    lt_of_lt_of_le (Nat.mod_lt _ (Nat.two_pow_pos _)) (Nat.pow_le_pow_right (by norm_num) hr)
  have hg := gather_booth_digit LB SZ (by omega) (by omega) P
    ((2 * le_value scalar / 2 ^ (q * SZ)) % 2 ^ (r + 1))
    (lt_trans hvlt (Nat.pow_lt_pow_right (by norm_num) (by omega)))
  refine ⟨hwv, ?_⟩
  unfold mult_w_top
  simp only [hpre, if_neg (show ¬ SZ = 0 by omega), hmod, hs, hwv, hg, Option.bind_eq_bind,
    Option.some_bind]
  rw [Nat.div_eq_of_lt hvlt, Nat.cast_zero, mul_zero, sub_zero, natCast_zsmul]

theorem mult_ladder_loop_succ {G XZ FY : Type} (ops : XZPrims G XZ FY) (pxz : XZ)
    (scalar : List byte) (bits : Nat) (st : XZ × XZ × Nat) :
    mult_ladder_loop ops pxz scalar (bits + 1) st =
      (mult_ladder_body ops pxz scalar bits st).bind (mult_ladder_loop ops pxz scalar bits) := by
  obtain ⟨ret, sum, pbit⟩ := st
  simp only [mult_ladder_loop, mult_ladder_body, Option.bind_eq_bind]
  cases is_bit_set scalar bits with
  | none => rfl
  | some b => rfl

theorem mult_ladder_after_front {G XZ FY : Type} (ops : XZPrims G XZ FY) (pxz : XZ)
    (scalar : List byte) (bits : Nat) (st : XZ × XZ × Nat) :
    ∀ j, j ≤ bits →
      mult_ladder_after ops pxz scalar (bits + 1) st (j + 1) =
        (mult_ladder_body ops pxz scalar bits st).bind
          (fun st' => mult_ladder_after ops pxz scalar bits st' j) := by
  intro j
  induction j with
  | zero =>
    intro _
    simp only [mult_ladder_after, Option.bind_eq_bind, Option.some_bind, Nat.zero_add,
      Nat.add_sub_cancel]
    cases mult_ladder_body ops pxz scalar bits st <;> rfl
  | succ j ih =>
    intro hj
    have e : bits + 1 - (j + 1 + 1) = bits - (j + 1) := by omega
    rw [mult_ladder_after, ih (by omega), e]
    simp only [Option.bind_eq_bind]
    cases mult_ladder_body ops pxz scalar bits st with
    | none => rfl
    | some st' =>
      simp only [Option.some_bind]
      rfl

/-- The loop of `ptype_mult_ladder` is the state after all its passes. -/
theorem mult_ladder_loop_eq_after {G XZ FY : Type} (ops : XZPrims G XZ FY) (pxz : XZ)
    (scalar : List byte) :
    ∀ (bits : Nat) (st : XZ × XZ × Nat),
      mult_ladder_loop ops pxz scalar bits st = mult_ladder_after ops pxz scalar bits st bits := by
  intro bits
  induction bits with
  | zero => intro st; rfl
  | succ bits ih =>
    intro st
    rw [mult_ladder_loop_succ, mult_ladder_after_front ops pxz scalar bits st bits (le_refl _)]
    congr 1
    funext st'
    exact ih st'

theorem prefix_bit (k L e : Nat) (he : e < L) :
    (k % 2 ^ L) / 2 ^ e = 2 * ((k % 2 ^ L) / 2 ^ (e + 1)) + (k / 2 ^ e) % 2 := by
  have h1 : (k % 2 ^ L) / 2 ^ e % 2 = (k / 2 ^ e) % 2 := by
    have hL : 2 ^ L = 2 ^ e * 2 ^ (L - e) := by rw [← Nat.pow_add]; congr 1; omega
    have hd : 2 ∣ 2 ^ (L - e) := by
      have : L - e = (L - e - 1) + 1 := by omega
      rw [this, Nat.pow_succ]
      exact Nat.dvd_mul_left _ _
    rw [hL, Nat.mod_mul_right_div_self, Nat.mod_mod_of_dvd _ hd]
  rw [← h1, Nat.pow_succ, ← Nat.div_div_eq_div_mul]
  omega

/-- The invariant of the XZ ladder after `j` passes, for a step that maps
forms of `(A, B)` with `B - A = ±P` to forms of `(2A, A + B)`. -/
theorem mult_ladder_after_inv {G XZ FY : Type} [AddCommGroup G] (ops : XZPrims G XZ FY)
    (Rep : XZ → G → Prop) (P : G) (scalar : List byte) (L : Nat)
    (hlen : L ≤ 8 * scalar.length)
    (hzero : Rep ops.xz_zero 0)
    (hpre : Rep (ops.ladder_pre P) P)
    (hstep : ∀ r s A B, Rep r A → Rep s B → (B - A = P ∨ B - A = -P) →
      Rep (ops.ladder_step r s (ops.ladder_pre P)).1 (A + A) ∧
      Rep (ops.ladder_step r s (ops.ladder_pre P)).2 (A + B)) :
    ∀ j, j ≤ L → ∃ ret sum pbit,
      mult_ladder_after ops (ops.ladder_pre P) scalar L (ops.xz_zero, ops.ladder_pre P, 0) j =
        some (ret, sum, pbit) ∧
      pbit = (if j = 0 then 0 else (le_value scalar / 2 ^ (L - j)) % 2) ∧
      Rep (xz_cswap ret sum pbit).1 (((le_value scalar % 2 ^ L) / 2 ^ (L - j)) • P) ∧
      Rep (xz_cswap ret sum pbit).2 (((le_value scalar % 2 ^ L) / 2 ^ (L - j)) • P + P) := by
  intro j
  induction j with
  | zero =>
    intro _
    have h0 : (le_value scalar % 2 ^ L) / 2 ^ (L - 0) = 0 :=
      Nat.div_eq_of_lt (Nat.mod_lt _ (Nat.two_pow_pos _))
    refine ⟨_, _, _, rfl, rfl, ?_, ?_⟩
    · rw [h0]; simpa [xz_cswap] using hzero
    · rw [h0]; simpa [xz_cswap] using hpre
  | succ j ih =>
    intro hj
    obtain ⟨ret, sum, pbit, hst, hp, h1, h2⟩ := ih (by omega)
    have hbit := is_bit_set_eq scalar (L - (j + 1)) (by omega)
    have hm := prefix_bit (le_value scalar) L (L - (j + 1)) (by omega)
    rw [show L - (j + 1) + 1 = L - j by omega] at hm
    have hb : (le_value scalar / 2 ^ (L - (j + 1))) % 2 = 0 ∨
        (le_value scalar / 2 ^ (L - (j + 1))) % 2 = 1 := by omega
    have hp' : pbit = 0 ∨ pbit = 1 := by
      rw [hp]; split <;> omega
    rw [hm]
    generalize (le_value scalar % 2 ^ L) / 2 ^ (L - j) = m at h1 h2 ⊢
    simp only [mult_ladder_after, hst, mult_ladder_body, hbit, Option.bind_eq_bind,
      Option.some_bind, Nat.succ_ne_zero, if_false]
    clear hp hst hm ih
    rcases hb with hb | hb <;> rcases hp' with hp' | hp' <;> subst hp' <;> rw [hb] <;>
      simp only [xz_cswap] at h1 h2 ⊢
    · obtain ⟨s1, s2⟩ := hstep ret sum (m • P) (m • P + P) (by simpa using h1)
        (by simpa using h2) (Or.inl (by abel))
      refine ⟨_, _, _, rfl, by decide, ?_, ?_⟩
      · have e : (2 * m) • P = m • P + m • P := by module
        simpa [e] using s1
      · have e : (2 * m) • P + P = m • P + (m • P + P) := by module
        simpa [e] using s2
    · obtain ⟨s1, s2⟩ := hstep sum ret (m • P) (m • P + P) (by simpa using h1)
        (by simpa using h2) (Or.inl (by abel))
      refine ⟨_, _, _, rfl, by decide, ?_, ?_⟩
      · have e : (2 * m) • P = m • P + m • P := by module
        simpa [e] using s1
      · have e : (2 * m) • P + P = m • P + (m • P + P) := by module
        simpa [e] using s2
    · obtain ⟨s1, s2⟩ := hstep sum ret (m • P + P) (m • P) (by simpa using h2)
        (by simpa using h1) (Or.inr (by abel))
      refine ⟨_, _, _, rfl, by decide, ?_, ?_⟩
      · have e : (2 * m + 1) • P = m • P + P + m • P := by module
        simpa [e] using s2
      · have e : (2 * m + 1) • P + P = m • P + P + (m • P + P) := by module
        simpa [e] using s1
    · obtain ⟨s1, s2⟩ := hstep ret sum (m • P + P) (m • P) (by simpa using h2)
        (by simpa using h1) (Or.inr (by abel))
      refine ⟨_, _, _, rfl, by decide, ?_, ?_⟩
      · have e : (2 * m + 1) • P = m • P + P + m • P := by module
        simpa [e] using s2
      · have e : (2 * m + 1) • P + P = m • P + P + (m • P + P) := by module
        simpa [e] using s1

/-! ### Instrumented routines -/

theorem get_wval_traced_eq (LB : Nat) (d : List byte) (off bits : Nat) :
    get_wval_traced LB d off bits =
      (get_wval LB d off bits).map (fun v => (v, [(off + bits - 1) / 8, off / 8])) := by
  unfold get_wval_traced get_wval size_sub
  by_cases h : 1 ≤ off + bits
  · simp only [if_pos h, Option.bind_eq_bind, Option.some_bind]
    cases d[(off + bits - 1) / 8]? with
    | none => rfl
    | some hi =>
      cases d[off / 8]? with
      | none => rfl
      | some lo => rfl
  · simp only [if_neg h, Option.bind_eq_bind, Option.none_bind, Option.map_none']

theorem window_value_traced_eq (LB : Nat) (scalar : List byte) (bits window : Nat) :
    window_value_traced LB scalar bits window =
      (window_value LB scalar bits window).map (fun v =>
        (v, if bits ≠ 0 then [(bits + window - 1) / 8, (bits - 1) / 8] else [0])) := by
  unfold window_value_traced window_value
  by_cases h : bits ≠ 0
  · have hs : size_sub bits 1 = some (bits - 1) := by
      unfold size_sub; rw [if_pos (by omega)]
    have e : bits - 1 + (window + 1) - 1 = bits + window - 1 := by omega
    simp only [if_pos h, hs, Option.bind_eq_bind, Option.some_bind, get_wval_traced_eq, e]
    cases get_wval LB scalar (bits - 1) (window + 1) with
    | none => rfl
    | some v => rfl
  · simp only [if_neg h, Option.bind_eq_bind]
    cases scalar[0]? with
    | none => rfl
    | some b => rfl

theorem window_value_some (LB : Nat) (scalar : List byte) (bits window : Nat)
    (hlen1 : 1 ≤ scalar.length) (hlen : bits + window ≤ 8 * scalar.length) :
    ∃ v, window_value LB scalar bits window = some v := by
  unfold window_value
  by_cases h : bits ≠ 0
  · have hs : size_sub bits 1 = some (bits - 1) := by
      unfold size_sub; rw [if_pos (by omega)]
    simp only [if_pos h, hs, Option.bind_eq_bind, Option.some_bind,
      get_wval_eq LB scalar (bits - 1) (window + 1) (by omega) (by omega)]
    exact ⟨_, rfl⟩
  · have h0 : 0 < scalar.length := by omega
    simp only [if_neg h, List.getElem?_eq_getElem h0, Option.map_some', Option.bind_eq_bind,
      Option.some_bind]
    exact ⟨_, rfl⟩

theorem double_loop_traced_eq {G : Type} [AddCommGroup G] (n : Nat) :
    ∀ a : G, double_loop_traced n a = (double_loop n a, List.replicate n Event.double) := by
  induction n with
  | zero => intro a; rfl
  | succ n ih =>
    intro a
    simp only [double_loop_traced, ih, double_loop, List.replicate_succ]

/-- Erasing the events of the instrumented main loop gives the main loop. -/
theorem mult_w_loop_traced_erase {G : Type} [AddCommGroup G] (LB SZ : Nat)
    (table : List (Option G)) (scalar : List byte) :
    ∀ (fuel bits : Nat) (ret : G),
      (mult_w_loop_traced LB SZ table scalar fuel bits ret).map Prod.fst =
        mult_w_loop LB SZ table scalar fuel bits ret := by
  intro fuel
  induction fuel with
  | zero =>
    intro bits ret
    simp only [mult_w_loop_traced, mult_w_loop]
    split <;> rfl
  | succ fuel ih =>
    intro bits ret
    simp only [mult_w_loop_traced, mult_w_loop, double_loop_traced_eq, window_value_traced_eq,
      Option.bind_eq_bind]
    by_cases hb : bits > 0
    · simp only [if_pos hb]
      cases size_sub bits SZ with
      | none => rfl
      | some b =>
        simp only [Option.some_bind]
        cases window_value LB scalar b SZ with
        | none => rfl
        | some v =>
          simp only [Option.map_some', Option.some_bind]
          cases ptype_gather_booth SZ table (booth_encode LB v SZ) with
          | none => rfl
          | some temp =>
            simp only [Option.some_bind]
            rw [← ih b (ptype_add (double_loop SZ ret) temp)]
            cases mult_w_loop_traced LB SZ table scalar fuel b
              (ptype_add (double_loop SZ ret) temp) with
            | none => rfl
            | some x => rfl
    · simp only [if_neg hb, Option.map_some']

/-- Erasing the events of the instrumented single-scalar multiplier gives the
multiplier. -/
theorem mult_w_traced_erase {G : Type} [AddCommGroup G] (LB SZ : Nat) (point : G)
    (scalar : List byte) (bits : Nat) :
    (ptype_mult_w_traced LB SZ point scalar bits).map Prod.fst =
      ptype_mult_w LB SZ point scalar bits := by
  unfold ptype_mult_w_traced ptype_mult_w
  simp only [Option.bind_eq_bind, window_value_traced_eq]
  cases ptype_precompute SZ (List.replicate (1 <<< (SZ - 1)) none) point with
  | none => rfl
  | some table =>
    simp only [Option.some_bind]
    by_cases hSZ : SZ = 0
    · simp [hSZ]
    · simp only [if_neg hSZ]
      cases size_sub bits (bits % SZ) with
      | none => rfl
      | some b =>
        simp only [Option.some_bind]
        cases window_value LB scalar b (bits % SZ) with
        | none => rfl
        | some v =>
          simp only [Option.map_some', Option.some_bind]
          cases ptype_gather_booth SZ table (booth_encode LB v SZ) with
          | none => rfl
          | some r =>
            simp only [Option.some_bind]
            rw [← mult_w_loop_traced_erase LB SZ table scalar b b r]
            cases mult_w_loop_traced LB SZ table scalar b b r with
            | none => rfl
            | some x => rfl

theorem calls_of_doubles {G : Type} (n : Nat) :
    (List.replicate n (Event.double : Event G)).filterMap Event.call =
      List.replicate n Call.double := by
  induction n with
  | zero => rfl
  | succ n ih => simp only [List.replicate_succ, List.filterMap_cons, Event.call, ih]

theorem calls_of_reads {G : Type} (t : Nat) (reads : List Nat) :
    (reads.map (Event.read t : Nat → Event G)).filterMap Event.call = [] := by
  induction reads with
  | nil => rfl
  | cons i is ih => simp only [List.map_cons, List.filterMap_cons, Event.call, ih]

theorem counters_of_doubles {G : Type} (n : Nat) :
    (List.replicate n (Event.double : Event G)).filterMap Event.counter_value = [] := by
  induction n with
  | zero => rfl
  | succ n ih => simp only [List.replicate_succ, List.filterMap_cons, Event.counter_value, ih]

theorem counters_of_reads {G : Type} (t : Nat) (reads : List Nat) :
    (reads.map (Event.read t : Nat → Event G)).filterMap Event.counter_value = [] := by
  induction reads with
  | nil => rfl
  | cons i is ih => simp only [List.map_cons, List.filterMap_cons, Event.counter_value, ih]

theorem gather_some {G : Type} [AddCommGroup G] (SZ : Nat) (hSZ : 1 ≤ SZ) (tbl : List G)
    (idx : Nat) (hM : 1 <<< (SZ - 1) ≤ tbl.length) :
    ∃ temp, ptype_gather_booth SZ (tbl.map some) idx = some temp :=
  ⟨_, gather_spec SZ hSZ tbl idx hM⟩

/-- The events of the instrumented main loop, started with `j` windows left:
the calls and the counter values are fixed by `SZ` and `j`, and every scalar
byte loaded lies below bit `j * SZ`. -/
theorem mult_w_loop_traced_shape {G : Type} [AddCommGroup G] (LB SZ : Nat) (h1 : 1 ≤ SZ)
    (tbl : List G) (hM : 1 <<< (SZ - 1) ≤ tbl.length) (scalar : List byte)
    (hlen1 : 1 ≤ scalar.length) :
    ∀ (fuel j : Nat) (acc : G), j ≤ fuel → j * SZ ≤ 8 * scalar.length →
      ∃ r tr, mult_w_loop_traced LB SZ (tbl.map some) scalar fuel (j * SZ) acc = some (r, tr) ∧
        tr.filterMap Event.call = window_calls SZ j ∧
        tr.filterMap Event.counter_value = counter_values SZ j ∧
        ∀ t i, Event.read t i ∈ tr → t = 0 ∧ i ≤ (j * SZ - 1) / 8 := by
  intro fuel
  induction fuel with
  | zero =>
    intro j acc hj _
    have hj0 : j = 0 := by omega
    subst hj0
    refine ⟨acc, [Event.counter 0], ?_, rfl, rfl, ?_⟩
    · simp only [mult_w_loop_traced, Nat.zero_mul, gt_iff_lt, lt_self_iff_false, if_false]
    · intro t i h
      simp at h
  | succ fuel ih =>
    intro j acc hj hlen
    cases j with
    | zero =>
      refine ⟨acc, [Event.counter 0], ?_, rfl, rfl, ?_⟩
      · simp only [mult_w_loop_traced, Nat.zero_mul, gt_iff_lt, lt_self_iff_false, if_false]
      · intro t i h
        simp at h
    | succ j =>
      have hbits : 0 < (j + 1) * SZ := Nat.mul_pos (by omega) (by omega)
      have hsplit : (j + 1) * SZ = j * SZ + SZ := by ring
      have hs : size_sub ((j + 1) * SZ) SZ = some (j * SZ) := by
        unfold size_sub
        rw [if_pos (by omega), hsplit, Nat.add_sub_cancel]
      obtain ⟨v, hv⟩ := window_value_some LB scalar (j * SZ) SZ hlen1 (by omega)
      obtain ⟨temp, htemp⟩ := gather_some SZ h1 tbl (booth_encode LB v SZ) hM
      obtain ⟨r, tr, hloop, hcalls, hcnt, hreads⟩ :=
        ih j (ptype_add (double_loop SZ acc) temp) (by omega) (by omega)
      refine ⟨r, Event.counter ((j + 1) * SZ) :: (List.replicate SZ Event.double ++
        (if j * SZ ≠ 0 then [(j * SZ + SZ - 1) / 8, (j * SZ - 1) / 8] else [0]).map
          (Event.read 0) ++
        [Event.gather 0 (booth_encode LB v SZ), Event.add (double_loop SZ acc) temp] ++ tr),
        ?_, ?_, ?_, ?_⟩
      · simp only [mult_w_loop_traced, gt_iff_lt, if_pos hbits, double_loop_traced_eq, hs,
          window_value_traced_eq, hv, htemp, hloop, Option.map_some', Option.bind_eq_bind,
          Option.some_bind]
      · simp only [List.filterMap_cons, List.filterMap_append, Event.call, calls_of_doubles,
          calls_of_reads, hcalls, window_calls, List.filterMap_nil, List.append_nil,
          List.append_assoc, List.cons_append, List.nil_append]
      · simp only [List.filterMap_cons, List.filterMap_append, Event.counter_value,
          counters_of_doubles, counters_of_reads, hcnt, counter_values, List.filterMap_nil,
          List.append_nil, List.nil_append]
      · intro t i h
        simp only [List.mem_cons, List.mem_append, List.mem_replicate, List.mem_map,
          List.mem_singleton, List.not_mem_nil, or_false, false_or, reduceCtorEq, and_false,
          Event.read.injEq] at h
        rcases h with ⟨i', hi', ht, rfl⟩ | h
        · refine ⟨ht.symm, ?_⟩
          by_cases hb0 : j * SZ ≠ 0
          · rw [if_pos hb0] at hi'
            simp only [List.mem_cons, List.mem_singleton, List.not_mem_nil, or_false] at hi'
            rcases hi' with rfl | rfl <;> omega
          · rw [if_neg hb0] at hi'
            simp only [List.mem_singleton] at hi'
            omega
        · obtain ⟨ht, hi⟩ := hreads t i h
          exact ⟨ht, by omega⟩

/-- The events of the instrumented single-scalar multiplier. -/
theorem mult_w_traced_shape {G : Type} [AddCommGroup G] (LB SZ : Nat) (h2 : 2 ≤ SZ) (P : G)
    (scalar : List byte) (bits : Nat) (hlen1 : 1 ≤ scalar.length)
    (hlen : bits ≤ 8 * scalar.length) :
    ∃ r tr, ptype_mult_w_traced LB SZ P scalar bits = some (r, tr) ∧
      tr.filterMap Event.call = mult_w_calls SZ bits ∧
      tr.filterMap Event.counter_value = counter_values SZ (bits / SZ) ∧
      ∀ t i, Event.read t i ∈ tr → t = 0 ∧ i < max 1 ((bits + 7) / 8) := by
  have hpre := precompute_spec SZ h2 (List.replicate (1 <<< (SZ - 1)) none) P
    (List.length_replicate _ _)
  have hq : bits - bits % SZ = bits / SZ * SZ := by
    have := Nat.div_add_mod bits SZ
    rw [Nat.mul_comm] at this
    omega
  have hb : bits / SZ * SZ + bits % SZ = bits := by
    rw [Nat.mul_comm]; exact Nat.div_add_mod bits SZ
  have hs : size_sub bits (bits % SZ) = some (bits / SZ * SZ) := by
    unfold size_sub
    rw [if_pos (Nat.mod_le _ _), hq]
  obtain ⟨v, hv⟩ := window_value_some LB scalar (bits / SZ * SZ) (bits % SZ) hlen1 (by omega)
  obtain ⟨temp, htemp⟩ := gather_some SZ (by omega) (multiples (1 <<< (SZ - 1)) P)
    (booth_encode LB v SZ) (by rw [multiples_length])
  have hj : bits / SZ ≤ bits / SZ * SZ := Nat.le_mul_of_pos_right _ (by omega)
  obtain ⟨r, tr, hloop, hcalls, hcnt, hreads⟩ :=
    mult_w_loop_traced_shape LB SZ (by omega) (multiples (1 <<< (SZ - 1)) P)
      (by rw [multiples_length]) scalar hlen1 (bits / SZ * SZ) (bits / SZ) temp hj (by omega)
  refine ⟨r, Event.precompute 0 ::
    ((if bits / SZ * SZ ≠ 0 then [(bits / SZ * SZ + bits % SZ - 1) / 8,
        (bits / SZ * SZ - 1) / 8] else [0]).map (Event.read 0) ++
      [Event.gather 0 (booth_encode LB v SZ)] ++ tr), ?_, ?_, ?_, ?_⟩
  · unfold ptype_mult_w_traced
    simp only [hpre, if_neg (show ¬ SZ = 0 by omega), hs, window_value_traced_eq, hv, htemp,
      hloop, Option.map_some', Option.bind_eq_bind, Option.some_bind]
  · simp only [List.filterMap_cons, List.filterMap_append, Event.call, calls_of_reads, hcalls,
      mult_w_calls, List.filterMap_nil, List.nil_append, List.cons_append]
  · simp only [List.filterMap_cons, List.filterMap_append, Event.counter_value,
      counters_of_reads, hcnt, List.filterMap_nil, List.nil_append]
  · intro t i h
    simp only [List.mem_cons, List.mem_append, List.mem_map, List.mem_singleton,
      List.not_mem_nil, or_false, false_or, reduceCtorEq, and_false, Event.read.injEq] at h
    rcases h with ⟨i', hi', ht, rfl⟩ | h
    · refine ⟨ht.symm, ?_⟩
      have hmax : 1 ≤ max 1 ((bits + 7) / 8) := le_max_left _ _
      have hmax2 : (bits + 7) / 8 ≤ max 1 ((bits + 7) / 8) := le_max_right _ _
      by_cases hb0 : bits / SZ * SZ ≠ 0
      · rw [if_pos hb0] at hi'
        simp only [List.mem_cons, List.mem_singleton, List.not_mem_nil, or_false] at hi'
        rcases hi' with rfl | rfl <;> omega
      · rw [if_neg hb0] at hi'
        simp only [List.mem_singleton] at hi'
        omega
    · obtain ⟨ht, hi⟩ := hreads t i h
      have hmax : 1 ≤ max 1 ((bits + 7) / 8) := le_max_left _ _
      have hmax2 : (bits + 7) / 8 ≤ max 1 ((bits + 7) / 8) := le_max_right _ _
      exact ⟨ht, by omega⟩

/-- The instrumented scan returns what the scan returns, and its conditional
copies read the cells `i - 1, i, …, M - 1` in order, whatever the table holds. -/
theorem gather_loop_traced_eq {G : Type} [AddCommGroup G] (table : List (Option G))
    (idx M : Nat) :
    ∀ (fuel i : Nat) (p : G), M + 1 ≤ fuel + i →
      gather_loop_traced table idx M fuel i p =
        (gather_loop table idx M fuel i p).map (fun r =>
          (r, (List.range' i (M + 1 - i)).map
            (fun t => GatherOp.ccopy (t - 1) (if t = idx then 1 else 0)))) := by
  intro fuel
  induction fuel with
  | zero =>
    intro i p hf
    have e : M + 1 - i = 0 := by omega
    simp only [gather_loop_traced, gather_loop, if_neg (show ¬ i ≤ M by omega), e,
      List.range'_zero, List.map_nil, Option.map_some']
  | succ fuel ih =>
    intro i p hf
    by_cases hi : i ≤ M
    · have e : M + 1 - i = (M + 1 - (i + 1)) + 1 := by omega
      simp only [gather_loop_traced, gather_loop, if_pos hi, Option.bind_eq_bind]
      cases load1 table i with
      | none => rfl
      | some src =>
        simp only [Option.some_bind]
        rw [ih (i + 1) _ (by omega), e, List.range'_succ, List.map_cons]
        cases gather_loop table idx M fuel (i + 1)
          (ptype_ccopy p src (if i = idx then 1 else 0)) with
        | none => rfl
        | some r => rfl
    · have e : M + 1 - i = 0 := by omega
      simp only [gather_loop_traced, gather_loop, if_neg hi, e, List.range'_zero, List.map_nil,
        Option.map_some']

/-- The instrumented gather returns what the gather returns, and issues a
`vec_zero`, the conditional copies of the cells `0, …, M - 1` in order and a
conditional negation. -/
theorem gather_traced_eq {G : Type} [AddCommGroup G] (SZ : Nat) (table : List (Option G))
    (idx : Nat) :
    ptype_gather_booth_traced SZ table idx =
      (ptype_gather_booth SZ table idx).map (fun r =>
        (r, GatherOp.vec_zero ::
          ((List.range' 1 (1 <<< (SZ - 1))).map
            (fun t => GatherOp.ccopy (t - 1)
              (if t = idx &&& ((1 <<< SZ) - 1) then 1 else 0)) ++
          [GatherOp.cneg ((idx >>> SZ) &&& 1)]))) := by
  unfold ptype_gather_booth_traced ptype_gather_booth
  by_cases hSZ : SZ = 0
  · simp only [if_pos hSZ, Option.map_none']
  · simp only [if_neg hSZ, Option.bind_eq_bind]
    rw [gather_loop_traced_eq table _ _ _ 1 _ (by omega), Nat.add_sub_cancel]
    cases gather_loop table (idx &&& ((1 <<< SZ) - 1)) (1 <<< (SZ - 1)) (1 <<< (SZ - 1)) 1
      vec_zero with
    | none => rfl
    | some r => rfl

theorem erase_flag_copies (M idx : Nat) :
    ((List.range' 1 M).map
      (fun t => GatherOp.ccopy (t - 1) (if t = idx then 1 else 0))).map GatherOp.erase_flag =
      (List.range M).map (fun i => GatherOp.ccopy i 0) := by
  rw [List.range'_eq_map_range, List.map_map, List.map_map]
  apply List.map_congr_left
  intro i _
  simp [GatherOp.erase_flag]

theorem count_window_calls (SZ : Nat) : ∀ j : Nat,
    (window_calls SZ j).count Call.gather = j ∧
      (window_calls SZ j).count Call.double = SZ * j ∧
      (window_calls SZ j).count Call.add = j ∧
      (window_calls SZ j).count Call.precompute = 0 := by
  intro j
  induction j with
  | zero => simp [window_calls]
  | succ j ih =>
    obtain ⟨h1, h2, h3, h4⟩ := ih
    simp only [window_calls, List.count_append, List.count_replicate, List.count_cons,
      List.count_nil, h1, h2, h3, h4]
    refine ⟨by simp; omega, by simp; ring, by simp; omega, by simp⟩

theorem counter_values_spec (SZ : Nat) : ∀ j : Nat,
    (∀ b, b ∈ counter_values SZ j → SZ ∣ b ∧ b ≤ j * SZ) ∧
      (counter_values SZ j).getLast? = some 0 ∧
      (counter_values SZ j).length = j + 1 := by
  intro j
  induction j with
  | zero => simp [counter_values]
  | succ j ih =>
    obtain ⟨h1, h2, h3⟩ := ih
    refine ⟨?_, ?_, ?_⟩
    · intro b hb
      simp only [counter_values, List.mem_cons] at hb
      rcases hb with rfl | hb
      · exact ⟨Nat.dvd_mul_left _ _, le_refl _⟩
      · obtain ⟨hd, hle⟩ := h1 b hb
        exact ⟨hd, le_trans hle (Nat.mul_le_mul_right _ (Nat.le_succ j))⟩
    · have hne : counter_values SZ j ≠ [] := by
        intro h; rw [h] at h3; simp at h3
      obtain ⟨x, xs, hx⟩ := List.exists_cons_of_ne_nil hne
      simp only [counter_values]
      rw [hx, List.getLast?_cons_cons, ← hx]
      exact h2
    · simp only [counter_values, List.length_cons, h3]

theorem calls_of_precomputes {G : Type} (m : Nat) : ∀ i : Nat,
    ((List.range' i m).map (Event.precompute : Nat → Event G)).filterMap Event.call =
      List.replicate m Call.precompute := by
  induction m with
  | zero => intro i; rfl
  | succ m ih =>
    intro i
    simp only [List.range'_succ, List.map_cons, List.filterMap_cons, Event.call, ih,
      List.replicate_succ]

theorem counters_of_precomputes {G : Type} (m : Nat) : ∀ i : Nat,
    ((List.range' i m).map (Event.precompute : Nat → Event G)).filterMap
      Event.counter_value = [] := by
  induction m with
  | zero => intro i; rfl
  | succ m ih =>
    intro i
    simp only [List.range'_succ, List.map_cons, List.filterMap_cons, Event.counter_value, ih]

/-- The instrumented table-building loop returns what the loop returns, and
records one table construction per input, in order. -/
theorem precompute_all_traced_eq {G : Type} [AddCommGroup G] (SZ : Nat) (points : List G)
    (n : Nat) :
    ∀ (fuel i : Nat) (table : List (List (Option G))), n ≤ fuel + i →
      precompute_all_traced SZ points n fuel i table =
        (precompute_all SZ points n fuel i table).map (fun t =>
          (t, (List.range' i (n - i)).map Event.precompute)) := by
  intro fuel
  induction fuel with
  | zero =>
    intro i table hf
    simp only [precompute_all_traced, precompute_all]
    rw [if_neg (by omega), if_neg (by omega), show n - i = 0 by omega]
    rfl
  | succ fuel ih =>
    intro i table hf
    simp only [precompute_all_traced, precompute_all, Option.bind_eq_bind]
    by_cases hi : i < n
    · simp only [if_pos hi]
      cases table[i]? with
      | none => rfl
      | some row =>
        simp only [Option.some_bind]
        cases points[i]? with
        | none => rfl
        | some point =>
          simp only [Option.some_bind]
          cases ptype_precompute SZ row point with
          | none => rfl
          | some row' =>
            simp only [Option.some_bind]
            rw [ih (i + 1) _ (by omega)]
            cases precompute_all SZ points n fuel (i + 1) (table.set i row') with
            | none => rfl
            | some t =>
              simp only [Option.map_some', Option.some_bind]
              rw [show n - i = (n - (i + 1)) + 1 by omega, List.range'_succ, List.map_cons]
    · simp only [if_neg hi, Option.map_some', show n - i = 0 by omega]
      rfl

/-- Erasing the events of the instrumented inner loop gives the inner loop. -/
theorem mults_inner_loop_traced_erase {G : Type} [AddCommGroup G] (LB SZ : Nat)
    (table : List (List (Option G))) (scalars : List (List byte))
    (n bits window wmask : Nat) :
    ∀ (fuel i : Nat) (ret : G),
      (mults_inner_loop_traced LB SZ table scalars n bits window wmask fuel i ret).map
        Prod.fst = mults_inner_loop LB SZ table scalars n bits window wmask fuel i ret := by
  intro fuel
  induction fuel with
  | zero =>
    intro i ret
    simp only [mults_inner_loop_traced, mults_inner_loop]
    split <;> rfl
  | succ fuel ih =>
    intro i ret
    simp only [mults_inner_loop_traced, mults_inner_loop, get_wval_traced_eq,
      Option.bind_eq_bind]
    by_cases hi : i < n
    · simp only [if_pos hi]
      cases scalars[i]? with
      | none => rfl
      | some scalar =>
        simp only [Option.some_bind]
        cases size_sub bits 1 with
        | none => rfl
        | some off =>
          simp only [Option.some_bind]
          cases get_wval LB scalar off (window + 1) with
          | none => rfl
          | some v =>
            simp only [Option.map_some', Option.some_bind]
            cases table[i]? with
            | none => rfl
            | some row =>
              simp only [Option.some_bind]
              cases ptype_gather_booth SZ row (booth_encode LB (v &&& wmask) SZ) with
              | none => rfl
              | some temp =>
                simp only [Option.some_bind]
                rw [← ih (i + 1) (ptype_dadd ret temp)]
                cases mults_inner_loop_traced LB SZ table scalars n bits window wmask fuel
                  (i + 1) (ptype_dadd ret temp) with
                | none => rfl
                | some x => rfl
    · simp only [if_neg hi, Option.map_some']

/-- Erasing the events of the instrumented closing loop gives the closing
loop. -/
theorem mults_last_loop_traced_erase {G : Type} [AddCommGroup G] (LB SZ : Nat)
    (table : List (List (Option G))) (scalars : List (List byte)) (n wmask : Nat) :
    ∀ (fuel i : Nat) (ret : G),
      (mults_last_loop_traced LB SZ table scalars n wmask fuel i ret).map Prod.fst =
        mults_last_loop LB SZ table scalars n wmask fuel i ret := by
  intro fuel
  induction fuel with
  | zero =>
    intro i ret
    simp only [mults_last_loop_traced, mults_last_loop]
    split <;> rfl
  | succ fuel ih =>
    intro i ret
    simp only [mults_last_loop_traced, mults_last_loop, Option.bind_eq_bind]
    by_cases hi : i < n
    · simp only [if_pos hi]
      cases scalars[i]? with
      | none => rfl
      | some scalar =>
        simp only [Option.some_bind]
        cases scalar[0]? with
        | none => rfl
        | some b =>
          simp only [Option.some_bind]
          cases table[i]? with
          | none => rfl
          | some row =>
            simp only [Option.some_bind]
            cases ptype_gather_booth SZ row
              (booth_encode LB ((b.val <<< 1) &&& wmask) SZ) with
            | none => rfl
            | some temp =>
              simp only [Option.some_bind]
              rw [← ih (i + 1) (ptype_dadd ret temp)]
              cases mults_last_loop_traced LB SZ table scalars n wmask fuel (i + 1)
                (ptype_dadd ret temp) with
              | none => rfl
              | some x => rfl
    · simp only [if_neg hi, Option.map_some']

/-- Erasing the events of the instrumented `while` loop gives the loop. -/
theorem mults_while_traced_erase {G : Type} [AddCommGroup G] (LB SZ : Nat)
    (table : List (List (Option G))) (scalars : List (List byte)) (n : Nat) :
    ∀ (fuel bits window wmask i : Nat) (ret : G),
      (mults_while_traced LB SZ table scalars n fuel bits window wmask i ret).map Prod.fst =
        mults_while LB SZ table scalars n fuel bits window wmask i ret := by
  intro fuel
  induction fuel with
  | zero =>
    intro bits window wmask i ret
    simp only [mults_while_traced, mults_while]
    split <;> rfl
  | succ fuel ih =>
    intro bits window wmask i ret
    simp only [mults_while_traced, mults_while, double_loop_traced_eq, Option.bind_eq_bind]
    rw [← mults_inner_loop_traced_erase LB SZ table scalars n bits window wmask n i ret]
    by_cases hb : bits > 0
    · simp only [if_pos hb]
      cases mults_inner_loop_traced LB SZ table scalars n bits window wmask n i ret with
      | none => rfl
      | some x =>
        simp only [Option.some_bind, Option.map_some']
        cases size_sub bits SZ with
        | none => rfl
        | some b =>
          simp only [Option.some_bind]
          rw [← ih b SZ _ 0 (double_loop SZ x.1)]
          cases mults_while_traced LB SZ table scalars n fuel b SZ
            (limb_sub LB (limb_shl LB 1 (SZ + 1)) 1) 0 (double_loop SZ x.1) with
          | none => rfl
          | some y => rfl
    · simp only [if_neg hb, Option.map_some']

/-- Erasing the events of the instrumented multi-scalar multiplier gives the
multiplier. -/
theorem mults_w_traced_erase {G : Type} [AddCommGroup G] (LB SZ : Nat) (points : List G)
    (n : Nat) (scalars : List (List byte)) (bits : Nat)
    (table : Option (List (List (Option G)))) :
    (ptypes_mult_w_traced LB SZ points n scalars bits table).map Prod.fst =
      ptypes_mult_w LB SZ points n scalars bits table := by
  unfold ptypes_mult_w_traced ptypes_mult_w
  cases table
  all_goals
    simp only [Option.bind_eq_bind, get_wval_traced_eq]
    rw [precompute_all_traced_eq SZ points n n 0 _ (by omega)]
    generalize precompute_all SZ points n n 0 _ = pa
    cases pa with
    | none => rfl
    | some tab =>
      simp only [Option.map_some', Option.some_bind]
      by_cases hSZ : SZ = 0
      · simp [hSZ]
      · simp only [if_neg hSZ]
        cases size_sub bits (bits % SZ) with
        | none => rfl
        | some b =>
          simp only [Option.some_bind]
          cases scalars[0]? with
          | none => rfl
          | some scalar0 =>
            simp only [Option.some_bind]
            by_cases hb : b > 0
            · simp only [if_pos hb]
              cases size_sub b 1 with
              | none => rfl
              | some off =>
                simp only [Option.some_bind]
                cases get_wval LB scalar0 off (bits % SZ + 1) with
                | none => rfl
                | some v =>
                  simp only [Option.map_some', Option.some_bind]
                  cases tab[0]? with
                  | none => rfl
                  | some row0 =>
                    simp only [Option.some_bind]
                    cases ptype_gather_booth SZ row0 (booth_encode LB
                      (v &&& limb_sub LB (limb_shl LB 1 (bits % SZ + 1)) 1) SZ) with
                    | none => rfl
                    | some ret =>
                      simp only [Option.some_bind]
                      rw [← mults_while_traced_erase LB SZ tab scalars n b b (bits % SZ) _ 1 ret]
                      cases mults_while_traced LB SZ tab scalars n b b (bits % SZ)
                        (limb_sub LB (limb_shl LB 1 (bits % SZ + 1)) 1) 1 ret with
                      | none => rfl
                      | some st =>
                        simp only [Option.map_some', Option.some_bind]
                        rw [← mults_last_loop_traced_erase LB SZ tab scalars n st.1.1 n st.1.2.1
                          st.1.2.2]
                        cases mults_last_loop_traced LB SZ tab scalars n st.1.1 n st.1.2.1
                          st.1.2.2 with
                        | none => rfl
                        | some x => rfl
            · simp only [if_neg hb]
              cases scalar0[0]? with
              | none => rfl
              | some b0 =>
                simp only [Option.map_some', Option.some_bind]
                cases tab[0]? with
                | none => rfl
                | some row0 =>
                  simp only [Option.some_bind]
                  cases ptype_gather_booth SZ row0 (booth_encode LB
                    ((b0.val <<< 1) &&& limb_sub LB (limb_shl LB 1 (bits % SZ + 1)) 1) SZ) with
                  | none => rfl
                  | some ret =>
                    simp only [Option.some_bind]
                    rw [← mults_while_traced_erase LB SZ tab scalars n b b (bits % SZ) _ 1 ret]
                    cases mults_while_traced LB SZ tab scalars n b b (bits % SZ)
                      (limb_sub LB (limb_shl LB 1 (bits % SZ + 1)) 1) 1 ret with
                    | none => rfl
                    | some st =>
                      simp only [Option.map_some', Option.some_bind]
                      rw [← mults_last_loop_traced_erase LB SZ tab scalars n st.1.1 n st.1.2.1
                        st.1.2.2]
                      cases mults_last_loop_traced LB SZ tab scalars n st.1.1 n st.1.2.1
                        st.1.2.2 with
                      | none => rfl
                      | some x => rfl

/-- The events of the instrumented inner loop, started at input `i`: one
gather and one defensive addition per remaining input, and two loads of each
remaining scalar, both below bit `bits + window`. -/
theorem mults_inner_loop_traced_shape {G : Type} [AddCommGroup G] (LB SZ : Nat) (h1 : 1 ≤ SZ)
    (scalars : List (List byte)) (n : Nat) (hn : scalars.length = n)
    (table : List (List (Option G)))
    (htab : ∀ t, t < n → ∃ tbl : List G,
      table[t]? = some (tbl.map some) ∧ 1 <<< (SZ - 1) ≤ tbl.length)
    (bits window wmask : Nat) (hbits : 1 ≤ bits)
    (hlen : ∀ t, t < n → bits + window ≤ 8 * (scalars.getD t []).length) :
    ∀ (fuel i : Nat) (acc : G), n ≤ fuel + i →
      ∃ r tr, mults_inner_loop_traced LB SZ table scalars n bits window wmask fuel i acc =
          some (r, tr) ∧
        tr.filterMap Event.call = pair_calls (n - i) ∧
        tr.filterMap Event.counter_value = [] ∧
        ∀ t j, Event.read t j ∈ tr → t < n ∧ j ≤ (bits + window - 1) / 8 := by
  intro fuel
  induction fuel with
  | zero =>
    intro i acc hf
    refine ⟨acc, [], ?_, ?_, rfl, ?_⟩
    · simp only [mults_inner_loop_traced]
      rw [if_neg (by omega)]
    · rw [show n - i = 0 by omega]; rfl
    · intro t j h
      simp at h
  | succ fuel ih =>
    intro i acc hf
    by_cases hi : i < n
    · have hsc := getElem?_of_lt_length scalars [] i (by omega)
      have hs : size_sub bits 1 = some (bits - 1) := by
        unfold size_sub; rw [if_pos hbits]
      have hv := get_wval_eq LB (scalars.getD i []) (bits - 1) (window + 1) (by omega)
        (by have := hlen i hi; omega)
      obtain ⟨tbl, htbl, hM⟩ := htab i hi
      generalize hvv : (limb_shl LB ((le_value (scalars.getD i []) /
        256 ^ ((bits - 1 + (window + 1) - 1) / 8)) % 256) 8 |||
        ((le_value (scalars.getD i []) / 256 ^ ((bits - 1) / 8)) % 256)) >>>
          ((bits - 1) % 8) = v at hv
      obtain ⟨temp, htemp⟩ := gather_some SZ h1 tbl (booth_encode LB (v &&& wmask) SZ) hM
      obtain ⟨r, tr, hloop, hcalls, hcnt, hreads⟩ := ih (i + 1) (ptype_dadd acc temp) (by omega)
      refine ⟨r, [(bits - 1 + (window + 1) - 1) / 8, (bits - 1) / 8].map (Event.read i) ++
        [Event.gather i (booth_encode LB (v &&& wmask) SZ), Event.dadd acc temp] ++ tr,
        ?_, ?_, ?_, ?_⟩
      · simp only [mults_inner_loop_traced, if_pos hi, hsc, hs, get_wval_traced_eq, hv, htbl,
          htemp, hloop, Option.map_some', Option.bind_eq_bind, Option.some_bind]
      · rw [show n - i = (n - (i + 1)) + 1 by omega]
        simp only [List.filterMap_cons, List.filterMap_append, Event.call, calls_of_reads,
          hcalls, pair_calls, List.filterMap_nil, List.nil_append, List.cons_append]
      · simp only [List.filterMap_cons, List.filterMap_append, Event.counter_value,
          counters_of_reads, hcnt, List.filterMap_nil, List.nil_append, List.append_nil]
      · intro t j h
        simp only [List.mem_cons, List.mem_append, List.mem_map, List.mem_singleton,
          List.not_mem_nil, or_false, false_or, reduceCtorEq, and_false,
          Event.read.injEq] at h
        rcases h with ⟨j', hj', ht, rfl⟩ | h
        · refine ⟨by omega, ?_⟩
          rcases hj' with rfl | rfl <;> omega
        · exact hreads t j h
    · refine ⟨acc, [], ?_, ?_, rfl, ?_⟩
      · simp only [mults_inner_loop_traced]
        rw [if_neg hi]
      · rw [show n - i = 0 by omega]; rfl
      · intro t j h
        simp at h

/-- The events of the instrumented closing loop, started at input `i`: one
gather and one defensive addition per remaining input, and one load of byte 0
of each remaining scalar. -/
theorem mults_last_loop_traced_shape {G : Type} [AddCommGroup G] (LB SZ : Nat) (h1 : 1 ≤ SZ)
    (scalars : List (List byte)) (n : Nat) (hn : scalars.length = n)
    (table : List (List (Option G)))
    (htab : ∀ t, t < n → ∃ tbl : List G,
      table[t]? = some (tbl.map some) ∧ 1 <<< (SZ - 1) ≤ tbl.length)
    (wmask : Nat) (hlen : ∀ t, t < n → 1 ≤ (scalars.getD t []).length) :
    ∀ (fuel i : Nat) (acc : G), n ≤ fuel + i →
      ∃ r tr, mults_last_loop_traced LB SZ table scalars n wmask fuel i acc = some (r, tr) ∧
        tr.filterMap Event.call = pair_calls (n - i) ∧
        tr.filterMap Event.counter_value = [] ∧
        ∀ t j, Event.read t j ∈ tr → t < n ∧ j = 0 := by
  intro fuel
  induction fuel with
  | zero =>
    intro i acc hf
    refine ⟨acc, [], ?_, ?_, rfl, ?_⟩
    · simp only [mults_last_loop_traced]
      rw [if_neg (by omega)]
    · rw [show n - i = 0 by omega]; rfl
    · intro t j h
      simp at h
  | succ fuel ih =>
    intro i acc hf
    by_cases hi : i < n
    · have hsc := getElem?_of_lt_length scalars [] i (by omega)
      have hb := getElem?_of_lt_length (scalars.getD i []) 0 0 (hlen i hi)
      obtain ⟨tbl, htbl, hM⟩ := htab i hi
      generalize (scalars.getD i []).getD 0 0 = b at hb
      obtain ⟨temp, htemp⟩ := gather_some SZ h1 tbl
        (booth_encode LB ((b.val <<< 1) &&& wmask) SZ) hM
      obtain ⟨r, tr, hloop, hcalls, hcnt, hreads⟩ := ih (i + 1) (ptype_dadd acc temp) (by omega)
      refine ⟨r, Event.read i 0 :: Event.gather i (booth_encode LB ((b.val <<< 1) &&& wmask) SZ)
        :: Event.dadd acc temp :: tr, ?_, ?_, ?_, ?_⟩
      · simp only [mults_last_loop_traced, if_pos hi, hsc, hb, htbl, htemp, hloop,
          Option.bind_eq_bind, Option.some_bind]
      · rw [show n - i = (n - (i + 1)) + 1 by omega]
        simp only [List.filterMap_cons, Event.call, hcalls, pair_calls]
      · simp only [List.filterMap_cons, Event.counter_value, hcnt]
      · intro t j h
        simp only [List.mem_cons, reduceCtorEq, false_or, Event.read.injEq] at h
        rcases h with ⟨rfl, rfl⟩ | h
        · exact ⟨hi, rfl⟩
        · exact hreads t j h
    · refine ⟨acc, [], ?_, ?_, rfl, ?_⟩
      · simp only [mults_last_loop_traced]
        rw [if_neg hi]
      · rw [show n - i = 0 by omega]; rfl
      · intro t j h
        simp at h

/-- The events of the instrumented `while` loop, started with `j` windows
left at input `i0` and top width `w0`. -/
theorem mults_while_traced_shape {G : Type} [AddCommGroup G] (LB SZ : Nat) (h1 : 1 ≤ SZ)
    (scalars : List (List byte)) (n : Nat) (hn : scalars.length = n)
    (table : List (List (Option G)))
    (htab : ∀ t, t < n → ∃ tbl : List G,
      table[t]? = some (tbl.map some) ∧ 1 <<< (SZ - 1) ≤ tbl.length) :
    ∀ (fuel j i0 w0 wm : Nat) (acc : G), j ≤ fuel →
      (∀ t, t < n → j * SZ + w0 ≤ 8 * (scalars.getD t []).length) →
      ∃ st tr, mults_while_traced LB SZ table scalars n fuel (j * SZ) w0 wm i0 acc =
          some (st, tr) ∧
        st.2.1 = (if j = 0 then i0 else 0) ∧
        tr.filterMap Event.call = (if j = 0 then [] else
          pair_calls (n - i0) ++ List.replicate SZ Call.double ++
            mults_window_calls SZ n (j - 1)) ∧
        tr.filterMap Event.counter_value = counter_values SZ j ∧
        ∀ t i, Event.read t i ∈ tr → t < n ∧ i ≤ (j * SZ + w0 - 1) / 8 := by
  intro fuel
  induction fuel with
  | zero =>
    intro j i0 w0 wm acc hj _
    have hj0 : j = 0 := by omega
    subst hj0
    refine ⟨(wm, i0, acc), [Event.counter 0], ?_, rfl, rfl, rfl, ?_⟩
    · simp only [mults_while_traced, Nat.zero_mul, gt_iff_lt, lt_self_iff_false, if_false]
    · intro t i h
      simp at h
  | succ fuel ih =>
    intro j i0 w0 wm acc hj hlen
    cases j with
    | zero =>
      refine ⟨(wm, i0, acc), [Event.counter 0], ?_, rfl, rfl, rfl, ?_⟩
      · simp only [mults_while_traced, Nat.zero_mul, gt_iff_lt, lt_self_iff_false, if_false]
      · intro t i h
        simp at h
    | succ j =>
      have hbits : 0 < (j + 1) * SZ := Nat.mul_pos (by omega) (by omega)
      have hsplit : (j + 1) * SZ = j * SZ + SZ := by ring
      have hs : size_sub ((j + 1) * SZ) SZ = some (j * SZ) := by
        unfold size_sub
        rw [if_pos (by omega), hsplit, Nat.add_sub_cancel]
      obtain ⟨r1, tr1, hin, hcalls1, hcnt1, hreads1⟩ :=
        mults_inner_loop_traced_shape LB SZ h1 scalars n hn table htab ((j + 1) * SZ) w0 wm
          hbits hlen n i0 acc (by omega)
      obtain ⟨st, tr2, hloop, hst, hcalls2, hcnt2, hreads2⟩ :=
        ih j 0 SZ (limb_sub LB (limb_shl LB 1 (SZ + 1)) 1) (double_loop SZ r1) (by omega)
          (fun t ht => by have := hlen t ht; omega)
      refine ⟨st, Event.counter ((j + 1) * SZ) ::
        (tr1 ++ List.replicate SZ Event.double ++ tr2), ?_, ?_, ?_, ?_, ?_⟩
      · simp only [mults_while_traced, gt_iff_lt, if_pos hbits, hin, double_loop_traced_eq, hs,
          hloop, Option.bind_eq_bind, Option.some_bind]
      · rw [hst, if_neg (Nat.succ_ne_zero j)]
        split <;> rfl
      · rw [if_neg (Nat.succ_ne_zero j)]
        simp only [List.filterMap_cons, List.filterMap_append, Event.call, calls_of_doubles,
          hcalls1, hcalls2, Nat.add_sub_cancel, Nat.sub_zero]
        cases j with
        | zero => simp only [if_true, mults_window_calls]
        | succ j =>
          simp only [if_neg (Nat.succ_ne_zero j), Nat.add_sub_cancel, mults_window_calls]
      · simp only [List.filterMap_cons, List.filterMap_append, Event.counter_value,
          counters_of_doubles, hcnt1, hcnt2, counter_values, List.nil_append]
      · intro t i h
        simp only [List.mem_cons, List.mem_append, List.mem_replicate, reduceCtorEq,
          and_false, or_false, false_or] at h
        rcases h with h | h
        · exact hreads1 t i h
        · obtain ⟨ht, hi⟩ := hreads2 t i h
          exact ⟨ht, by omega⟩

/-- The loads of the top window of the multi-scalar multiplier succeed and
stay below bit `b + window`. -/
theorem mults_top_traced (LB : Nat) (scalar0 : List byte) (b window wmask : Nat)
    (hlen1 : 1 ≤ scalar0.length) (hlen : b + window ≤ 8 * scalar0.length) :
    ∃ v reads,
      (if b > 0 then
        (size_sub b 1).bind fun off =>
          (get_wval_traced LB scalar0 off (window + 1)).bind fun x =>
            some (x.1 &&& wmask, x.2)
      else
        (scalar0[0]?).map (fun c => ((c.val <<< 1) &&& wmask, [0]))) = some (v, reads) ∧
      ∀ i, i ∈ reads → i ≤ (b + window - 1) / 8 := by
  by_cases hb : b > 0
  · have hs : size_sub b 1 = some (b - 1) := by
      unfold size_sub; rw [if_pos (show 1 ≤ b from hb)]
    obtain ⟨v0, hv⟩ : ∃ v0, get_wval LB scalar0 (b - 1) (window + 1) = some v0 :=
      ⟨_, get_wval_eq LB scalar0 (b - 1) (window + 1) (by omega) (by omega)⟩
    refine ⟨v0 &&& wmask, [(b - 1 + (window + 1) - 1) / 8, (b - 1) / 8], ?_, ?_⟩
    · simp only [if_pos hb, hs, get_wval_traced_eq, hv, Option.map_some', Option.some_bind]
    · intro i hi
      simp only [List.mem_cons, List.mem_singleton, List.not_mem_nil, or_false] at hi
      rcases hi with rfl | rfl <;> omega
  · have hc := getElem?_of_lt_length scalar0 0 0 hlen1
    refine ⟨((scalar0.getD 0 0).val <<< 1) &&& wmask, [0], ?_, ?_⟩
    · simp only [if_neg hb, hc, Option.map_some']
    · intro i hi
      simp only [List.mem_singleton] at hi
      omega

/-- The events of the instrumented multi-scalar multiplier on fresh storage:
the calls and the counter values are fixed by `SZ`, `bits` and the number of
inputs, and every load of scalar `t` is at a byte below
`max 1 ((bits + 7) / 8)`. -/
theorem mults_w_traced_shape {G : Type} [AddCommGroup G] (LB SZ : Nat) (h2 : 2 ≤ SZ)
    (points : List G) (n : Nat) (hp : points.length = n) (hn1 : 1 ≤ n)
    (scalars : List (List byte)) (hn : scalars.length = n) (bits : Nat)
    (hlen : ∀ t, t < n → 1 ≤ (scalars.getD t []).length ∧
      bits ≤ 8 * (scalars.getD t []).length) :
    ∃ r tr, ptypes_mult_w_traced LB SZ points n scalars bits none = some (r, tr) ∧
      tr.filterMap Event.call = mults_calls SZ bits n ∧
      tr.filterMap Event.counter_value = counter_values SZ (bits / SZ) ∧
      ∀ t i, Event.read t i ∈ tr → t < n ∧ i < max 1 ((bits + 7) / 8) := by
  obtain ⟨tab, htab0, htab1⟩ := precompute_all_spec SZ h2 points n hp n 0
    (List.replicate n (List.replicate (1 <<< (SZ - 1)) none)) (by omega)
    (by rw [List.length_replicate])
    (fun row hrow => by rw [List.eq_of_mem_replicate hrow, List.length_replicate])
    (fun t ht _ => absurd ht (Nat.not_lt_zero t))
  have htab : ∀ t, t < n → ∃ tbl : List G,
      tab[t]? = some (tbl.map some) ∧ 1 <<< (SZ - 1) ≤ tbl.length :=
    fun t ht => ⟨_, htab1 t ht, by rw [multiples_length]⟩
  have hq : bits - bits % SZ = bits / SZ * SZ := by
    have := Nat.div_add_mod bits SZ
    rw [Nat.mul_comm] at this
    omega
  have hb : bits / SZ * SZ + bits % SZ = bits := by
    rw [Nat.mul_comm]; exact Nat.div_add_mod bits SZ
  have hs : size_sub bits (bits % SZ) = some (bits / SZ * SZ) := by
    unfold size_sub
    rw [if_pos (Nat.mod_le _ _), hq]
  have hsc := getElem?_of_lt_length scalars [] 0 (by omega)
  obtain ⟨v, reads, htop, hreads0⟩ := mults_top_traced LB (scalars.getD 0 [])
    (bits / SZ * SZ) (bits % SZ) (limb_sub LB (limb_shl LB 1 (bits % SZ + 1)) 1)
    (hlen 0 (by omega)).1 (by have := (hlen 0 (by omega)).2; omega)
  obtain ⟨tbl0, htbl0, hM0⟩ := htab 0 (by omega)
  obtain ⟨ret, hret⟩ := gather_some SZ (by omega) tbl0 (booth_encode LB v SZ) hM0
  have hj : bits / SZ ≤ bits / SZ * SZ := Nat.le_mul_of_pos_right _ (by omega)
  obtain ⟨st, tr1, hwhile, hst, hcalls1, hcnt1, hreads1⟩ :=
    mults_while_traced_shape LB SZ (by omega) scalars n hn tab htab (bits / SZ * SZ)
      (bits / SZ) 1 (bits % SZ) (limb_sub LB (limb_shl LB 1 (bits % SZ + 1)) 1) ret hj
      (fun t ht => by have := (hlen t ht).2; omega)
  obtain ⟨r, tr2, hlast, hcalls2, hcnt2, hreads2⟩ :=
    mults_last_loop_traced_shape LB SZ (by omega) scalars n hn tab htab st.1
      (fun t ht => (hlen t ht).1) n st.2.1 st.2.2 (by omega)
  have hmax : 1 ≤ max 1 ((bits + 7) / 8) := le_max_left _ _
  have hmax2 : (bits + 7) / 8 ≤ max 1 ((bits + 7) / 8) := le_max_right _ _
  refine ⟨r, (List.range' 0 (n - 0)).map Event.precompute ++ reads.map (Event.read 0) ++
    [Event.gather 0 (booth_encode LB v SZ)] ++ tr1 ++ tr2, ?_, ?_, ?_, ?_⟩
  · unfold ptypes_mult_w_traced
    simp only [Option.bind_eq_bind]
    rw [precompute_all_traced_eq SZ points n n 0 _ (by omega), htab0]
    simp only [Option.map_some', Option.some_bind, if_neg (show ¬ SZ = 0 by omega), hs, hsc]
    by_cases hb0 : bits / SZ * SZ > 0
    · have hs1 : size_sub (bits / SZ * SZ) 1 = some (bits / SZ * SZ - 1) := by
        unfold size_sub; rw [if_pos (show 1 ≤ bits / SZ * SZ from hb0)]
      have hv := get_wval_eq LB (scalars.getD 0 []) (bits / SZ * SZ - 1) (bits % SZ + 1)
        (by omega) (by have := (hlen 0 (by omega)).2; omega)
      simp only [if_pos hb0, hs1, get_wval_traced_eq, hv, Option.map_some', Option.some_bind,
        Option.some.injEq, Prod.mk.injEq] at htop
      obtain ⟨rfl, rfl⟩ := htop
      simp only [if_pos hb0, hs1, get_wval_traced_eq, hv, Option.map_some', Option.some_bind,
        htbl0, hret, hwhile, hlast]
    · have hc := getElem?_of_lt_length (scalars.getD 0 []) 0 0 (hlen 0 (by omega)).1
      simp only [if_neg hb0, hc, Option.map_some', Option.some.injEq, Prod.mk.injEq] at htop
      obtain ⟨rfl, rfl⟩ := htop
      simp only [if_neg hb0, hc, Option.map_some', Option.some_bind, htbl0, hret, hwhile,
        hlast]
  · simp only [List.filterMap_cons, List.filterMap_append, Event.call, calls_of_reads,
      calls_of_precomputes, hcalls1, hcalls2, hst, mults_calls, List.filterMap_nil,
      List.nil_append, List.append_nil, Nat.sub_zero]
    by_cases hj0 : bits / SZ = 0
    · simp only [hj0, if_true, List.append_nil, List.append_assoc, List.singleton_append,
        List.nil_append]
    · simp only [hj0, if_false, List.append_assoc, List.singleton_append, Nat.sub_zero,
        List.cons_append, List.nil_append]
  · simp only [List.filterMap_cons, List.filterMap_append, Event.counter_value,
      counters_of_reads, counters_of_precomputes, hcnt1, hcnt2, List.filterMap_nil,
      List.nil_append, List.append_nil]
  · intro t i h
    simp only [List.mem_cons, List.mem_append, List.mem_map, List.mem_singleton,
      List.not_mem_nil, or_false, false_or, reduceCtorEq, and_false, Event.read.injEq] at h
    rcases h with ((⟨_, hf⟩ | ⟨i', hi', ht, rfl⟩) | h) | h
    · exact hf.elim
    · have := hreads0 i' hi'
      exact ⟨by omega, by omega⟩
    · obtain ⟨ht, hi⟩ := hreads1 t i h
      exact ⟨ht, by omega⟩
    · obtain ⟨ht, hi⟩ := hreads2 t i h
      exact ⟨ht, by omega⟩

/-- For a window width below 2 the table builder fails, whatever the row: the
size `1<<(SZ-1)` is undefined for `SZ = 0`, and for `SZ = 1` the second entry
is stored past the end of the one-cell row. -/
theorem precompute_narrow {G : Type} [AddCommGroup G] (SZ : Nat) (h : SZ < 2)
    (row : List (Option G)) (hrow : row.length = 1 <<< (SZ - 1)) (P : G) :
    ptype_precompute SZ row P = none := by
  have h01 : SZ = 0 ∨ SZ = 1 := by omega
  rcases h01 with rfl | rfl
  · rfl
  · match row, hrow with
    | [c], _ => rfl

theorem mult_w_traced_narrow {G : Type} [AddCommGroup G] (LB SZ : Nat) (h : SZ < 2) (P : G)
    (scalar : List byte) (bits : Nat) : ptype_mult_w_traced LB SZ P scalar bits = none := by
  unfold ptype_mult_w_traced
  rw [precompute_narrow SZ h _ (List.length_replicate _ _)]
  rfl

theorem mults_w_traced_narrow {G : Type} [AddCommGroup G] (LB SZ : Nat) (h : SZ < 2)
    (points : List G) (n : Nat) (hp : points.length = n) (hn1 : 1 ≤ n)
    (scalars : List (List byte)) (bits : Nat) :
    ptypes_mult_w_traced LB SZ points n scalars bits none = none := by
  have hpa : precompute_all_traced SZ points n n 0
      (List.replicate n (List.replicate (1 <<< (SZ - 1)) none)) = none := by
    obtain ⟨m, rfl⟩ : ∃ m, n = m + 1 := ⟨n - 1, by omega⟩
    have hrow := getElem?_of_lt_length
      (List.replicate (m + 1) (List.replicate (1 <<< (SZ - 1)) (none : Option G))) [] 0
      (by rw [List.length_replicate]; omega)
    have hpt := getElem?_of_lt_length points 0 0 (by omega)
    have hmem : (List.replicate (m + 1)
        (List.replicate (1 <<< (SZ - 1)) (none : Option G))).getD 0 [] =
        List.replicate (1 <<< (SZ - 1)) none := rfl
    simp only [precompute_all_traced, if_pos (Nat.succ_pos m), hrow, hpt, hmem,
      precompute_narrow SZ h _ (List.length_replicate _ _), Option.bind_eq_bind,
      Option.some_bind, Option.none_bind]
  unfold ptypes_mult_w_traced
  simp only [hpa, Option.bind_eq_bind, Option.none_bind]

/-- Erasing the events of the instrumented affine ladder gives the ladder. -/
theorem affine_ladder_loop_traced_erase {G : Type} [AddCommGroup G] (LB : Nat) (P : G)
    (scalar : List byte) :
    ∀ (bits : Nat) (ret : G),
      (affine_ladder_loop_traced LB P scalar bits ret).map Prod.fst =
        affine_ladder_loop LB P scalar bits ret := by
  intro bits
  induction bits with
  | zero => intro ret; rfl
  | succ bits ih =>
    intro ret
    simp only [affine_ladder_loop_traced, affine_ladder_loop, Option.bind_eq_bind]
    cases scalar[bits / LB]? with
    | none => rfl
    | some b =>
      simp only [Option.some_bind]
      rw [← ih]
      cases affine_ladder_loop_traced LB P scalar bits
        (ptype_ccopy (ptype_double ret) (ptype_add_affine (ptype_double ret) P)
          ((b.val >>> (bits % LB)) &&& 1)) with
      | none => rfl
      | some x => rfl

theorem affine_ladder_traced_erase {G : Type} [AddCommGroup G] (LB : Nat) (P : G)
    (scalar : List byte) (bits : Nat) :
    (ptype_affine_mult_ladder_traced LB P scalar bits).map Prod.fst =
      ptype_affine_mult_ladder LB P scalar bits :=
  affine_ladder_loop_traced_erase LB P scalar bits vec_zero

/-- The instrumented affine ladder with the byte string indexed by 8 in place
of `LIMB_T_BITS`: started on `m · P` with `bits` bits left it returns
`(m · 2 ^ bits + k mod 2 ^ bits) · P`, and every mixed addition receives an
even multiple `2 m' · P` of the point with `2 m'` at most that scalar. -/
theorem affine_ladder_bytes_shape {G : Type} [AddCommGroup G] (P : G) (scalar : List byte) :
    ∀ (bits m : Nat), bits ≤ 8 * scalar.length →
      ∃ r tr, affine_ladder_loop_traced 8 P scalar bits (m • P) = some (r, tr) ∧
        r = (m * 2 ^ bits + le_value scalar % 2 ^ bits) • P ∧
        ∀ a b, Event.add_affine a b ∈ tr → b = P ∧
          ∃ m', a = (2 * m') • P ∧ 2 * m' ≤ m * 2 ^ bits + le_value scalar % 2 ^ bits := by
  intro bits
  induction bits with
  | zero =>
    intro m _
    refine ⟨m • P, [], rfl, ?_, ?_⟩
    · rw [pow_zero, Nat.mod_one, Nat.mul_one, Nat.add_zero]
    · intro a b h
      simp at h
  | succ bits ih =>
    intro m hlen
    have hbit := is_bit_set_eq scalar bits (by omega)
    unfold is_bit_set at hbit
    have hidx : bits / 8 < scalar.length := by omega
    rw [List.getElem?_eq_getElem hidx, Option.map_some', Option.some.injEq] at hbit
    have hb2 : (le_value scalar / 2 ^ bits) % 2 < 2 := Nat.mod_lt _ (by norm_num)
    have hsplit : le_value scalar % 2 ^ (bits + 1) =
        (le_value scalar / 2 ^ bits) % 2 * 2 ^ bits + le_value scalar % 2 ^ bits := by
      rw [Nat.pow_succ, Nat.mod_mul, Nat.add_comm, Nat.mul_comm]
    have hacc : ptype_ccopy (ptype_double (m • P)) (ptype_add_affine (ptype_double (m • P)) P)
        ((le_value scalar / 2 ^ bits) % 2) = (2 * m + (le_value scalar / 2 ^ bits) % 2) • P := by
      unfold ptype_ccopy ptype_double ptype_add_affine
      have h01 : (le_value scalar / 2 ^ bits) % 2 = 0 ∨ (le_value scalar / 2 ^ bits) % 2 = 1 := by
        omega
      rcases h01 with h | h
      · rw [h, if_pos rfl, Nat.add_zero, two_mul, add_nsmul]
      · rw [h, if_neg (by norm_num), add_nsmul, one_nsmul, two_mul, add_nsmul]
    obtain ⟨r, tr, hloop, hr, hev⟩ := ih (2 * m + (le_value scalar / 2 ^ bits) % 2) (by omega)
    have hval : (2 * m + (le_value scalar / 2 ^ bits) % 2) * 2 ^ bits +
        le_value scalar % 2 ^ bits = m * 2 ^ (bits + 1) + le_value scalar % 2 ^ (bits + 1) := by
      rw [hsplit, Nat.pow_succ]
      ring
    refine ⟨r, Event.double :: Event.add_affine (ptype_double (m • P)) P :: tr, ?_, ?_, ?_⟩
    · simp only [affine_ladder_loop_traced, List.getElem?_eq_getElem hidx, hbit, hacc, hloop,
        Option.bind_eq_bind, Option.some_bind]
    · rw [hr, hval]
    · intro a b h
      simp only [List.mem_cons, reduceCtorEq, false_or, Event.add_affine.injEq] at h
      rcases h with ⟨rfl, rfl⟩ | h
      · refine ⟨rfl, m, ?_, ?_⟩
        · unfold ptype_double
          rw [two_mul, add_nsmul]
        · have hp : 1 ≤ 2 ^ bits := Nat.one_le_two_pow
          have : m * 1 ≤ m * 2 ^ bits := Nat.mul_le_mul_left m hp
          rw [Nat.pow_succ, ← Nat.mul_assoc]
          omega
      · obtain ⟨hb, m', ha, hle⟩ := hev a b h
        exact ⟨hb, m', ha, by rw [← hval]; exact hle⟩

/-- With the byte string indexed by 8 in place of `LIMB_T_BITS`, the affine
ladder on a point that is not the identity and a scalar below the order of the
point returns `(k mod 2 ^ L) · P` and never passes the point itself as the
doubled accumulator of a mixed addition. -/
theorem affine_ladder_bytes_never_degenerate {G : Type} [AddCommGroup G] (P : G) (hP : P ≠ 0)
    (scalar : List byte) (hk : le_value scalar < addOrderOf P) (L : Nat)
    (hlen : L ≤ 8 * scalar.length) :
    ∃ r tr, ptype_affine_mult_ladder_traced 8 P scalar L = some (r, tr) ∧
      r = (le_value scalar % 2 ^ L) • P ∧
      ∀ a b, Event.add_affine a b ∈ tr → a ≠ b := by
  obtain ⟨r, tr, hloop, hr, hev⟩ := affine_ladder_bytes_shape P scalar L 0 hlen
  rw [zero_nsmul] at hloop
  rw [Nat.zero_mul, Nat.zero_add] at hr hev
  refine ⟨r, tr, hloop, hr, ?_⟩
  intro a b h hab
  obtain ⟨hb, m', ha, hle⟩ := hev a b h
  have hmod : le_value scalar % 2 ^ L ≤ le_value scalar := Nat.mod_le _ _
  rw [ha, hb] at hab
  rcases Nat.eq_zero_or_pos m' with h0 | hpos
  · rw [h0, Nat.mul_zero, zero_nsmul] at hab
    exact hP hab.symm
  · have hsub : (2 * m' - 1) • P = 0 := by
      have h1 : (2 * m' - 1 + 1) • P = P := by
        rw [Nat.sub_add_cancel (by omega)]; exact hab
      rw [add_nsmul, one_nsmul] at h1
      exact add_left_eq_self.mp h1
    have hdvd := addOrderOf_dvd_of_nsmul_eq_zero hsub
    have := Nat.le_of_dvd (by omega) hdvd
    omega

/-! ## The general addition as a parameter -/

/-- With the group law for `add`, the table-building loop with the addition as
a parameter is the loop of the embedding. -/
theorem precompute_loop_with_add {G : Type} [AddCommGroup G] (M : Nat) :
    ∀ (fuel i j : Nat) (row : List (Option G)),
      precompute_loop_with ptype_add M fuel i j row = precompute_loop M fuel i j row := by
  intro fuel
  induction fuel with
  | zero => intro i j row; rfl
  | succ fuel ih =>
    intro i j row
    simp only [precompute_loop_with, precompute_loop, ih]

theorem ptype_precompute_with_add {G : Type} [AddCommGroup G] (SZ : Nat)
    (row : List (Option G)) (P : G) :
    ptype_precompute_with ptype_add SZ row P = ptype_precompute SZ row P := by
  simp only [ptype_precompute_with, ptype_precompute, precompute_loop_with_add]

theorem mult_w_loop_with_add {G : Type} [AddCommGroup G] (LB SZ : Nat)
    (table : List (Option G)) (scalar : List byte) :
    ∀ (fuel bits : Nat) (ret : G),
      mult_w_loop_with ptype_add LB SZ table scalar fuel bits ret =
        mult_w_loop LB SZ table scalar fuel bits ret := by
  intro fuel
  induction fuel with
  | zero => intro bits ret; rfl
  | succ fuel ih =>
    intro bits ret
    simp only [mult_w_loop_with, mult_w_loop, ih]

/-- With the group law for `add`, the single-scalar multiplier with the
addition as a parameter is the multiplier of the embedding. -/
theorem ptype_mult_w_with_add {G : Type} [AddCommGroup G] (LB SZ : Nat) (P : G)
    (scalar : List byte) (bits : Nat) :
    ptype_mult_w_with ptype_add LB SZ P scalar bits = ptype_mult_w LB SZ P scalar bits := by
  simp only [ptype_mult_w_with, ptype_mult_w, ptype_precompute_with_add, mult_w_loop_with_add]

theorem precompute_all_with_add {G : Type} [AddCommGroup G] (SZ : Nat) (points : List G)
    (n : Nat) :
    ∀ (fuel i : Nat) (table : List (List (Option G))),
      precompute_all_with ptype_add SZ points n fuel i table =
        precompute_all SZ points n fuel i table := by
  intro fuel
  induction fuel with
  | zero => intro i table; rfl
  | succ fuel ih =>
    intro i table
    simp only [precompute_all_with, precompute_all, ptype_precompute_with_add, ih]

/-- With the group law for `add`, the multi-scalar multiplier with the
addition as a parameter is the multiplier of the embedding. -/
theorem ptypes_mult_w_with_add {G : Type} [AddCommGroup G] (LB SZ : Nat) (points : List G)
    (n : Nat) (scalars : List (List byte)) (bits : Nat)
    (table : Option (List (List (Option G)))) :
    ptypes_mult_w_with ptype_add LB SZ points n scalars bits table =
      ptypes_mult_w LB SZ points n scalars bits table := by
  unfold ptypes_mult_w_with ptypes_mult_w
  cases table <;> simp only [precompute_all_with_add]

/-- The addition that does not handle doubling is the group law unless its
operands are equal and not the identity. -/
theorem ptype_add_no_doubling_eq {G : Type} [AddCommGroup G] [DecidableEq G] (a b : G)
    (h : a ≠ b ∨ a = 0) : ptype_add_no_doubling a b = ptype_add a b := by
  unfold ptype_add_no_doubling ptype_add
  rw [if_neg]
  rintro ⟨hab, ha⟩
  rcases h with h | h
  · exact h hab
  · exact ha h

/-- The XZ ladder on the instance `plainXZ` returns the scalar, reduced modulo
`2 ^ bits`, times the point. -/
theorem plainXZ_ladder_value {G : Type} [AddCommGroup G] (P : G) (scalar : List byte)
    (bits : Nat) (hlen : bits ≤ 8 * scalar.length) :
    ptype_mult_ladder (plainXZ G) P scalar bits = some ((le_value scalar % 2 ^ bits) • P) := by
  obtain ⟨ret, sum, pbit, hst, _, h1, _⟩ :=
    mult_ladder_after_inv (plainXZ G) (fun x A => x = A) P scalar bits hlen rfl rfl
      (fun r s A B hr hs _ => by subst hr; subst hs; exact ⟨rfl, rfl⟩) bits (le_refl _)
  rw [Nat.sub_self, pow_zero, Nat.div_one] at h1
  rw [← mult_ladder_loop_eq_after] at hst
  unfold ptype_mult_ladder
  simp only [hst, Option.bind_eq_bind, Option.some_bind]
  rw [← h1]
  rfl

/-! ## Properties of the specification -/

section Claims

/-- C1: for a limb of at least 16 bits, every window width `w` with
`2 ≤ w ≤ 8` (in particular every `w` in `{4, …, 8}`), every point `P`, every
public bit-length `L` and every little-endian byte scalar of at least
`max 1 ⌈L / 8⌉` bytes whose value `k` is below `2 ^ L`, `ptype_mult_w<w>`
returns `k · P`. -/
theorem C1_mult_w_returns_kP (LB : Nat) (hLB : 16 ≤ LB) (w : Nat) (hw2 : 2 ≤ w) (hw8 : w ≤ 8)
    {G : Type} [AddCommGroup G] (P : G) (L : Nat) (scalar : List byte)
    (hlen : max 1 ((L + 7) / 8) ≤ scalar.length) (hk : le_value scalar < 2 ^ L) :
    ptype_mult_w LB w P scalar L = some (le_value scalar • P) := by
  have h1 : 1 ≤ scalar.length := le_trans (le_max_left _ _) hlen
  have h2 : (L + 7) / 8 ≤ scalar.length := le_trans (le_max_right _ _) hlen
  rw [mult_w_value LB hLB w hw2 hw8 P scalar L h1 (by omega), Nat.mod_eq_of_lt hk]

/-- Witness of C1: the generator `1` of the integers, `k = 5`, `L = 4`, window
width 4, 64-bit limbs: the result is `1 + 1 + 1 + 1 + 1`. -/
theorem C1_witness :
    ptype_mult_w 64 4 (1 : Int) [(5 : byte)] 4 = some ((1 : Int) + 1 + 1 + 1 + 1) :=
  (C1_mult_w_returns_kP 64 (by decide) 4 (by decide) (by decide) (1 : Int) 4 [(5 : byte)]
    (by decide) (by decide)).trans (by decide)

/-- C2: for a limb of at least 16 bits, every `n ≥ 1`, every window width
`2 ≤ w ≤ 8` (in particular every `w` in `{4, …, 8}`), every public bit-length
`L`, all points `P_0 … P_{n-1}` and all little-endian byte scalars of at least
`max 1 ⌈L / 8⌉` bytes with values `k_i < 2 ^ L`, `ptypes_mult_w<w>` returns the
group sum `Σ k_i · P_i`, for a `NULL` table as well as for supplied storage of
at least `n` rows of `2 ^ (w - 1)` cells, whatever the storage held before. -/
theorem C2_mults_w_returns_sum (LB : Nat) (hLB : 16 ≤ LB) (w : Nat) (hw2 : 2 ≤ w)
    (hw8 : w ≤ 8) {G : Type} [AddCommGroup G] (points : List G)
    (scalars : List (List byte)) (n L : Nat) (hn1 : 1 ≤ n)
    (hp : points.length = n) (hs : scalars.length = n)
    (hlen : ∀ s, s ∈ scalars → max 1 ((L + 7) / 8) ≤ s.length)
    (hk : ∀ s, s ∈ scalars → le_value s < 2 ^ L)
    (table : Option (List (List (Option G))))
    (htable : ∀ tb, table = some tb →
      n ≤ tb.length ∧ ∀ row, row ∈ tb → row.length = 2 ^ (w - 1)) :
    ptypes_mult_w LB w points n scalars L table =
      some ((List.zipWith (fun P s => le_value s • P) points scalars).sum) := by
  rw [mults_value_list LB hLB w hw2 hw8 points scalars n hn1 hp hs L hlen table htable]
  congr 2
  apply zipWith_congr_scalars
  intro s hs P
  rw [Nat.mod_eq_of_lt (hk s hs)]

/-- Witness of C2: two points of the integers with two-byte scalars, public
bit-length 12 and window width 5, once with a `NULL` table. -/
theorem C2_witness :
    ptypes_mult_w 64 5 [(1 : Int), 1000] 2 [[(0x21 : byte), 0x03], [0xfe, 0x0f]] 12 none =
      some ((List.zipWith (fun P s => le_value s • P) [(1 : Int), 1000]
        [[(0x21 : byte), 0x03], [0xfe, 0x0f]]).sum) :=
  C2_mults_w_returns_sum 64 (by decide) 5 (by decide) (by decide) [(1 : Int), 1000]
    [[(0x21 : byte), 0x03], [0xfe, 0x0f]] 2 12 (by decide) (by decide) (by decide)
    (by decide) (by decide) none (fun tb h => by cases h)

set_option maxRecDepth 20000 in
/-- C3, the failing input: the scalar 256 as the two bytes `[0, 1]` with public
bit-length 9, on a point of order 257 (so the point is not the identity and
`256 < 257`, `256 < 2 ^ 9`).  The affine ladder reads bit 8 as
`(scalar[8 / LIMB_T_BITS] >> (8 % LIMB_T_BITS)) & 1`, i.e. from byte 0, and
returns the identity for 32-bit and for 64-bit limbs, where `256 · P ≠ 0`
is due and is what the fixed-window multiplier returns. -/
theorem C3_affine_ladder_failing_input :
    ((1 : ZMod 257) ≠ 0 ∧ addOrderOf (1 : ZMod 257) = 257 ∧
      le_value [(0 : byte), 1] = 256 ∧ max 1 ((9 + 7) / 8) ≤ [(0 : byte), 1].length) ∧
    ptype_affine_mult_ladder 64 (1 : ZMod 257) [(0 : byte), 1] 9 = some 0 ∧
    ptype_affine_mult_ladder 32 (1 : ZMod 257) [(0 : byte), 1] 9 = some 0 ∧
    le_value [(0 : byte), 1] • (1 : ZMod 257) ≠ 0 ∧
    ptype_mult_w 64 5 (1 : ZMod 257) [(0 : byte), 1] 9
      = some (le_value [(0 : byte), 1] • (1 : ZMod 257)) := by
  refine ⟨⟨by decide, ZMod.addOrderOf_one 257, by decide, by decide⟩, by decide, by decide,
    by decide, by decide⟩

/-- With `ptype_add` taken as the group law (the addition C1 stipulates, and
what the defensive `ptype_dadd` computes): for a limb of at least 16 bits,
every `n ≥ 1`, every window width `2 ≤ w ≤ 8`, every public bit-length `L` and
all pairs `(P_i, k_i)` (scalars of at least `max 1 ⌈L / 8⌉` bytes), the
single-scalar routine returns a point `r_i` on every pair, and
`ptypes_mult_w<w>` on the `n` pairs returns the group sum of the `r_i`; in
particular for `n = 1` the two routines return the same point. -/
theorem multi_equals_sum_of_singles_group_law (LB : Nat) (hLB : 16 ≤ LB) (w : Nat) (hw2 : 2 ≤ w)
    (hw8 : w ≤ 8) {G : Type} [AddCommGroup G] (points : List G)
    (scalars : List (List byte)) (n L : Nat) (hn1 : 1 ≤ n)
    (hp : points.length = n) (hs : scalars.length = n)
    (hlen : ∀ s, s ∈ scalars → max 1 ((L + 7) / 8) ≤ s.length)
    (table : Option (List (List (Option G))))
    (htable : ∀ tb, table = some tb →
      n ≤ tb.length ∧ ∀ row, row ∈ tb → row.length = 2 ^ (w - 1)) :
    (∃ rs : List G,
      List.zipWith (fun P s => ptype_mult_w LB w P s L) points scalars = rs.map some ∧
      ptypes_mult_w LB w points n scalars L table = some rs.sum) ∧
    (∀ P s, points = [P] → scalars = [s] →
      ptypes_mult_w LB w points n scalars L table = ptype_mult_w LB w P s L) := by
  have hm := mults_value_list LB hLB w hw2 hw8 points scalars n hn1 hp hs L hlen table htable
  have hz := zipWith_single_results (G := G) LB hLB w hw2 hw8 L points scalars hlen
  refine ⟨⟨_, hz, hm⟩, ?_⟩
  intro P s hP hS
  subst hP hS
  rw [hm]
  simp only [List.zipWith_cons_cons, List.zipWith_nil_right, List.map_cons, List.map_nil,
    List.cons.injEq, and_true] at hz
  rw [hz]
  simp

/-- An instance of `multi_equals_sum_of_singles_group_law`: two pairs on the
integers, public bit-length 12, window width 4, with caller-supplied storage
of three rows holding arbitrary data. -/
theorem multi_equals_sum_of_singles_group_law_example :
    (∃ rs : List Int,
      List.zipWith (fun P s => ptype_mult_w 64 4 P s 12) [(1 : Int), 1000]
        [[(0x21 : byte), 0x03], [0xfe, 0x0f]] = rs.map some ∧
      ptypes_mult_w 64 4 [(1 : Int), 1000] 2 [[(0x21 : byte), 0x03], [0xfe, 0x0f]] 12
        (some (List.replicate 3 (List.replicate 8 (some 7)))) = some rs.sum) ∧
    (∀ P s, [(1 : Int), 1000] = [P] → [[(0x21 : byte), 0x03], [0xfe, 0x0f]] = [s] →
      ptypes_mult_w 64 4 [(1 : Int), 1000] 2 [[(0x21 : byte), 0x03], [0xfe, 0x0f]] 12
        (some (List.replicate 3 (List.replicate 8 (some 7)))) = ptype_mult_w 64 4 P s 12) :=
  multi_equals_sum_of_singles_group_law 64 (by decide) 4 (by decide) (by decide) [(1 : Int), 1000]
    [[(0x21 : byte), 0x03], [0xfe, 0x0f]] 2 12 (by decide) (by decide) (by decide)
    (by decide) (some (List.replicate 3 (List.replicate 8 (some 7))))
    (fun tb h => by
      cases h
      exact ⟨by decide, by decide⟩)

set_option maxRecDepth 100000 in
/-- C4, the failing input: one pair (`n = 1`), a point of prime order 17, the
scalar 15 as the one byte `[15]`, public bit-length 5 and window width 4.  The
one call `ptype_add(ret, ret, temp)` of the main loop of `ptype_mult_w<4>`
receives `-P` twice, so with an addition that does not handle doubling the
single-scalar routine returns the identity, whereas `ptypes_mult_w<4>`, which
merges with `ptype_dadd`, returns `15 · P`, which is not the identity.  With
the second pair `(3 · P, 7)` the sum of the single-scalar results is `4 · P`
and the multi-scalar result is `2 · P`.  The same happens on a point of prime
order 257 with the scalar `255 = 257 - 2`, public bit-length 9 and width 5. -/
theorem C4_multi_single_failing_input :
    (Nat.Prime 17 ∧ addOrderOf (1 : ZMod 17) = 17 ∧ le_value [(15 : byte)] = 15 ∧
      15 < 2 ^ 5 ∧ max 1 ((5 + 7) / 8) ≤ [(15 : byte)].length) ∧
    ptype_mult_w_with ptype_add_no_doubling 64 4 (1 : ZMod 17) [(15 : byte)] 5 = some 0 ∧
    ptypes_mult_w_with ptype_add_no_doubling 64 4 [(1 : ZMod 17)] 1 [[(15 : byte)]] 5 none =
      some 15 ∧
    (15 : ZMod 17) ≠ 0 ∧
    List.zipWith (fun P s => ptype_mult_w_with ptype_add_no_doubling 64 4 P s 5)
      [(1 : ZMod 17), 3] [[(15 : byte)], [7]] = [some 0, some 4] ∧
    ptypes_mult_w_with ptype_add_no_doubling 64 4 [(1 : ZMod 17), 3] 2 [[(15 : byte)], [7]] 5
      none = some 2 ∧
    (0 : ZMod 17) + 4 ≠ 2 ∧
    (Nat.Prime 257 ∧ addOrderOf (1 : ZMod 257) = 257 ∧ le_value [(255 : byte), 0] = 255 ∧
      255 < 2 ^ 9 ∧ max 1 ((9 + 7) / 8) ≤ [(255 : byte), 0].length) ∧
    ptype_mult_w_with ptype_add_no_doubling 64 5 (1 : ZMod 257) [(255 : byte), 0] 9 = some 0 ∧
    ptypes_mult_w_with ptype_add_no_doubling 64 5 [(1 : ZMod 257)] 1 [[(255 : byte), 0]] 9
      none = some 255 ∧
    (255 : ZMod 257) ≠ 0 := by
  refine ⟨⟨by norm_num, ZMod.addOrderOf_one 17, by decide, by decide, by decide⟩,
    by decide, by decide, by decide, by decide, by decide, by decide,
    ⟨by norm_num, ZMod.addOrderOf_one 257, by decide, by decide, by decide⟩,
    by decide, by decide, by decide⟩

/-- C5: zero-padding invariance.  For a limb of at least 16 bits, every window
width `2 ≤ w ≤ 8`, every point and every scalar value `k`, given as byte
strings `s1` and `s2` long enough for the public bit-lengths `L1` and `L2`,
with `k < 2 ^ L1` and `k < 2 ^ L2`: both calls of `ptype_mult_w<w>` return the
same point. -/
theorem C5_zero_padding_invariance (LB : Nat) (hLB : 16 ≤ LB) (w : Nat) (hw2 : 2 ≤ w)
    (hw8 : w ≤ 8) {G : Type} [AddCommGroup G] (P : G) (L1 L2 : Nat) (s1 s2 : List byte)
    (hval : le_value s1 = le_value s2)
    (hlen1 : max 1 ((L1 + 7) / 8) ≤ s1.length) (hlen2 : max 1 ((L2 + 7) / 8) ≤ s2.length)
    (hk1 : le_value s1 < 2 ^ L1) (hk2 : le_value s2 < 2 ^ L2) :
    ∃ r, ptype_mult_w LB w P s1 L1 = some r ∧ ptype_mult_w LB w P s2 L2 = some r := by
  have a1 : 1 ≤ s1.length := le_trans (le_max_left _ _) hlen1
  have a2 : (L1 + 7) / 8 ≤ s1.length := le_trans (le_max_right _ _) hlen1
  have b1 : 1 ≤ s2.length := le_trans (le_max_left _ _) hlen2
  have b2 : (L2 + 7) / 8 ≤ s2.length := le_trans (le_max_right _ _) hlen2
  refine ⟨le_value s1 • P, ?_, ?_⟩
  · rw [mult_w_value LB hLB w hw2 hw8 P s1 L1 a1 (by omega), Nat.mod_eq_of_lt hk1]
  · rw [mult_w_value LB hLB w hw2 hw8 P s2 L2 b1 (by omega), Nat.mod_eq_of_lt hk2, hval]

/-- Witness of C5: the scalar 5 as one byte with `L = 4` and as three bytes
with `L = 20`, window width 5, on the integers. -/
theorem C5_witness :
    ∃ r, ptype_mult_w 64 5 (1 : Int) [(5 : byte)] 4 = some r ∧
      ptype_mult_w 64 5 (1 : Int) [(5 : byte), 0, 0] 20 = some r :=
  C5_zero_padding_invariance 64 (by decide) 5 (by decide) (by decide) (1 : Int) 4 20
    [(5 : byte)] [(5 : byte), 0, 0] (by decide) (by decide) (by decide) (by decide) (by decide)

/-- With `ptype_add` taken as the group law (the addition C1 stipulates, and
what the defensive `ptype_dadd` computes): for a limb of at least 16 bits,
every window width `2 ≤ w ≤ 8`, every point `P`, every public bit-length `L`
and every scalar of at least `max 1 ⌈L / 8⌉` bytes, the XZ ladder
`ptype_mult_ladder` returns the point that `ptype_mult_w<w>` returns, provided
the XZ primitives meet their contracts for a relation `Rep x A` ("`x` is an XZ
form of `A`") that does not record the sign: the all-zero XZ value is a form
of the identity, `ladder_pre` yields a form of `P`, `ladder_step` maps forms of
`(A, A + P)` to forms of `(2A, 2A + P)`, and `ladder_post` recovers `A` from
forms of `(A, A + P)`. -/
theorem xz_ladder_equals_window_group_law (LB : Nat) (hLB : 16 ≤ LB) (w : Nat) (hw2 : 2 ≤ w)
    (hw8 : w ≤ 8) {G XZ FY : Type} [AddCommGroup G] (ops : XZPrims G XZ FY)
    (Rep : XZ → G → Prop) (P : G) (scalar : List byte) (L : Nat)
    (hlen : max 1 ((L + 7) / 8) ≤ scalar.length)
    (hsym : ∀ x A, Rep x A → Rep x (-A))
    (hzero : Rep ops.xz_zero 0)
    (hpre : Rep (ops.ladder_pre P) P)
    (hstep : ∀ r s A, Rep r A → Rep s (A + P) →
      Rep (ops.ladder_step r s (ops.ladder_pre P)).1 (A + A) ∧
      Rep (ops.ladder_step r s (ops.ladder_pre P)).2 (A + A + P))
    (hpost : ∀ r s A, Rep r A → Rep s (A + P) →
      ops.ladder_post r s (ops.ladder_pre P) (ops.getY P) = A) :
    ∃ R, ptype_mult_ladder ops P scalar L = some R ∧ ptype_mult_w LB w P scalar L = some R := by
  have h1 : 1 ≤ scalar.length := le_trans (le_max_left _ _) hlen
  have h2 : (L + 7) / 8 ≤ scalar.length := le_trans (le_max_right _ _) hlen
  exact ⟨_, mult_ladder_value ops Rep P scalar L (by omega) hsym hzero hpre hstep hpost,
    mult_w_value LB hLB w hw2 hw8 P scalar L h1 (by omega)⟩

/-- An instance of `xz_ladder_equals_window_group_law`: the point `1` of the
integers with absolute values as XZ forms, the scalar `0x2b5` with public
bit-length 10, window width 5. -/
theorem xz_ladder_equals_window_group_law_example :
    ∃ R, ptype_mult_ladder absXZ (1 : Int) [(0xb5 : byte), 0x02] 10 = some R ∧
      ptype_mult_w 64 5 (1 : Int) [(0xb5 : byte), 0x02] 10 = some R :=
  xz_ladder_equals_window_group_law 64 (by decide) 5 (by decide) (by decide) absXZ
    (fun x A => x = A.natAbs) (1 : Int) [(0xb5 : byte), 0x02] 10 (by decide)
    (fun x A h => by
      show x = (-A).natAbs
      rw [Int.natAbs_neg]; exact h)
    rfl rfl
    (fun r s A hr hs => by
      constructor
      · show 2 * r = (A + A).natAbs
        omega
      · show (if s = r + 1 then 2 * r + 1 else 2 * r - 1) = (A + A + 1).natAbs
        split <;> omega)
    (fun r s A hr hs => by
      show (if s = r + 1 then (r : Int) else -(r : Int)) = A
      split <;> omega)

set_option maxRecDepth 100000 in
/-- C6, the failing input: a point of prime order 17, the scalar 15 as the one
byte `[15]` (`15 < 2 ^ 5`), public bit-length 5 and window width 4, with the XZ
primitives `plainXZ`, which meet the contracts the claim lists (`ladder_pre`
yields the form of `P`, `ladder_step` maps the forms of `(A, A + P)` to those
of `(2A, 2A + P)`, `ladder_post` recovers the point of its first argument).
The XZ ladder returns `15 · P`, which is not the identity; `ptype_mult_w<4>`
with an addition that does not handle doubling returns the identity, its one
call `ptype_add(ret, ret, temp)` receiving `-P` twice.  The same happens on a
point of prime order 257 with the scalar `255 = 257 - 2`, public bit-length 9
and width 5. -/
theorem C6_ladder_window_failing_input :
    (Nat.Prime 17 ∧ addOrderOf (1 : ZMod 17) = 17 ∧ le_value [(15 : byte)] = 15 ∧
      15 < 2 ^ 5 ∧ max 1 ((5 + 7) / 8) ≤ [(15 : byte)].length) ∧
    ((∀ P : ZMod 17, (plainXZ (ZMod 17)).ladder_pre P = P) ∧
      (∀ A P : ZMod 17,
        (plainXZ (ZMod 17)).ladder_step A (A + P) ((plainXZ (ZMod 17)).ladder_pre P) =
          (A + A, A + A + P)) ∧
      (∀ A P : ZMod 17,
        (plainXZ (ZMod 17)).ladder_post A (A + P) ((plainXZ (ZMod 17)).ladder_pre P)
          ((plainXZ (ZMod 17)).getY P) = A)) ∧
    ptype_mult_ladder (plainXZ (ZMod 17)) (1 : ZMod 17) [(15 : byte)] 5 = some 15 ∧
    ptype_mult_w_with ptype_add_no_doubling 64 4 (1 : ZMod 17) [(15 : byte)] 5 = some 0 ∧
    (15 : ZMod 17) ≠ 0 ∧
    (Nat.Prime 257 ∧ addOrderOf (1 : ZMod 257) = 257 ∧ le_value [(255 : byte), 0] = 255 ∧
      255 < 2 ^ 9 ∧ max 1 ((9 + 7) / 8) ≤ [(255 : byte), 0].length) ∧
    ptype_mult_ladder (plainXZ (ZMod 257)) (1 : ZMod 257) [(255 : byte), 0] 9 = some 255 ∧
    ptype_mult_w_with ptype_add_no_doubling 64 5 (1 : ZMod 257) [(255 : byte), 0] 9 = some 0 ∧
    (255 : ZMod 257) ≠ 0 := by
  refine ⟨⟨by norm_num, ZMod.addOrderOf_one 17, by decide, by decide, by decide⟩,
    ⟨fun _ => rfl, fun A P => ?_, fun _ _ => rfl⟩, by decide, by decide, by decide,
    ⟨by norm_num, ZMod.addOrderOf_one 257, by decide, by decide, by decide⟩,
    by decide, by decide, by decide⟩
  show (A + A, A + (A + P)) = (A + A, A + A + P)
  rw [add_assoc]

/-- C7: for every window width `w ≥ 2` and every point `P`, whatever the row of
`M = 2 ^ (w - 1)` cells held before, `ptype_precompute_w<w>` returns a row of
`M` cells all of which are written, entry `i - 1` holding `i · P` for every
`i` in `1 .. M`. -/
theorem C7_precompute_table (w : Nat) (hw : 2 ≤ w) {G : Type} [AddCommGroup G] (P : G)
    (row : List (Option G)) (hrow : row.length = 2 ^ (w - 1)) :
    ∃ row', ptype_precompute w row P = some row' ∧ row'.length = 2 ^ (w - 1) ∧
      ∀ i, 1 ≤ i → i ≤ 2 ^ (w - 1) → row'[i - 1]? = some (some (i • P)) := by
  have hM : 1 <<< (w - 1) = 2 ^ (w - 1) := Nat.one_shiftLeft _
  refine ⟨_, precompute_spec w hw row P (by rw [hM]; exact hrow), ?_, ?_⟩
  · rw [List.length_map, multiples_length, hM]
  · intro i h1 hi
    rw [List.getElem?_map, hM, multiples_getElem? _ P (i - 1) (by omega),
      Nat.sub_add_cancel h1]
    rfl

/-- Witness of C7: window width 4 on the integers, the row being
uninitialised: the eight multiples of the point. -/
theorem C7_witness :
    ∃ row', ptype_precompute 4 (List.replicate 8 none) (1 : Int) = some row' ∧
      row'.length = 2 ^ (4 - 1) ∧
      ∀ i, 1 ≤ i → i ≤ 2 ^ (4 - 1) → row'[i - 1]? = some (some (i • (1 : Int))) :=
  C7_precompute_table 4 (by decide) (1 : Int) (List.replicate 8 none) (by decide)

/-- C8: Booth recoding, value and range.  For every window width `w ≥ 1` that
leaves two spare bits in the limb (`w + 2 ≤ LB`, so every `w` in `1 .. 8` for
limbs of 16 bits or more) and every raw value `v < 2 ^ (w + 1)`, with
`e = booth_encode v w`, sign `(e >> w) & 1` and magnitude `e & ((1 << w) - 1)`
as `ptype_gather_booth` decodes them: the magnitude is at most `2 ^ (w - 1)`
and the signed digit equals `(v >> 1) + (v & 1) - 2 ^ w · (v >> w)`. -/
theorem C8_booth_value_range (LB w v : Nat) (hw : 1 ≤ w) (hLB : w + 2 ≤ LB)
    (hv : v < 2 ^ (w + 1)) :
    booth_encode LB v w &&& ((1 <<< w) - 1) ≤ 2 ^ (w - 1) ∧
      (if (booth_encode LB v w >>> w) &&& 1 = 1
        then -((booth_encode LB v w &&& ((1 <<< w) - 1) : Nat) : Int)
        else ((booth_encode LB v w &&& ((1 <<< w) - 1) : Nat) : Int)) =
      ((v >>> 1 : Nat) : Int) + ((v &&& 1 : Nat) : Int) - 2 ^ w * ((v >>> w : Nat) : Int) := by
  have hp1 : (2 : Nat) ^ (w + 1) = 2 * 2 ^ w := by ring
  have hp0 : (2 : Nat) ^ w = 2 * 2 ^ (w - 1) := by
    rw [← Nat.pow_succ', Nat.succ_eq_add_one, Nat.sub_add_cancel hw]
  have hpos : 0 < 2 ^ (w - 1) := Nat.two_pow_pos _
  have hhalf : ((v >>> 1 : Nat) : Int) + ((v &&& 1 : Nat) : Int) = (((v + 1) / 2 : Nat) : Int) := by
    rw [Nat.shiftRight_eq_div_pow, Nat.and_one_is_mod, pow_one]
    omega
  rw [hhalf, Nat.shiftRight_eq_div_pow v w, ← booth_digit_value v w hv]
  by_cases h : v < 2 ^ w
  · obtain ⟨hs, hm⟩ := booth_decode_low LB v w hLB h
    rw [hs, hm, if_pos h, if_neg (by norm_num)]
    exact ⟨by omega, rfl⟩
  · obtain ⟨hs, hm⟩ := booth_decode_high LB v w hLB (by omega) hv
    rw [hs, hm, if_neg h, if_pos rfl]
    exact ⟨by omega, rfl⟩

/-- Witness of C8: window width 5, raw value 63 (all six bits set), 64-bit
limbs. -/
theorem C8_witness :
    booth_encode 64 63 5 &&& ((1 <<< 5) - 1) ≤ 2 ^ (5 - 1) ∧
      (if (booth_encode 64 63 5 >>> 5) &&& 1 = 1
        then -((booth_encode 64 63 5 &&& ((1 <<< 5) - 1) : Nat) : Int)
        else ((booth_encode 64 63 5 &&& ((1 <<< 5) - 1) : Nat) : Int)) =
      ((63 >>> 1 : Nat) : Int) + ((63 &&& 1 : Nat) : Int) - 2 ^ 5 * ((63 >>> 5 : Nat) : Int) :=
  C8_booth_value_range 64 5 63 (by decide) (by decide) (by decide)

/-- Counterexample to C9 as stated: on the one-byte scalar `0xff`, offset 0 and
width 1 (so `1 ≤ bits ≤ 9` and `off + bits ≤ 8 · len d`), `get_wval` returns
`0xffff`, which is not the one-bit window `⌊value d / 2 ^ 0⌋ mod 2 ^ 1 = 1`. -/
theorem C9_counterexample :
    (1 ≤ 1 ∧ 1 ≤ 9 ∧ 0 + 1 ≤ 8 * [(255 : byte)].length) ∧
      get_wval 64 [(255 : byte)] 0 1 = some 65535 ∧
      get_wval 64 [(255 : byte)] 0 1 ≠ some ((le_value [(255 : byte)] / 2 ^ 0) % 2 ^ 1) := by
  decide

/-- C9, amended: for a limb of at least 16 bits, every little-endian byte
scalar `d`, every offset `off` and every width `1 ≤ bits ≤ 9` with
`off + bits ≤ 8 · len d`, `get_wval` returns a value whose low `bits` bits are
the bits `[off, off + bits)` of the scalar: the value modulo `2 ^ bits` is
`⌊value d / 2 ^ off⌋ mod 2 ^ bits`. -/
theorem C9_get_wval_low_bits (LB : Nat) (hLB : 16 ≤ LB) (d : List byte) (off bits : Nat)
    (hb1 : 1 ≤ bits) (hb9 : bits ≤ 9) (hlen : off + bits ≤ 8 * d.length) :
    ∃ v, get_wval LB d off bits = some v ∧
      v % 2 ^ bits = (le_value d / 2 ^ off) % 2 ^ bits :=
  get_wval_mod LB hLB d off bits hb1 hb9 hlen

/-- Witness of C9, amended: a nine-bit window straddling two bytes. -/
theorem C9_witness :
    ∃ v, get_wval 64 [(0xa5 : byte), 0x3c] 7 9 = some v ∧
      v % 2 ^ 9 = (le_value [(0xa5 : byte), 0x3c] / 2 ^ 7) % 2 ^ 9 :=
  C9_get_wval_low_bits 64 (by decide) [(0xa5 : byte), 0x3c] 7 9 (by decide) (by decide)
    (by decide)

/-- C10: for every window width `w ≥ 1`, every table of `M = 2 ^ (w - 1)`
points and every `booth_idx` whose magnitude `m = booth_idx & ((1 << w) - 1)`
is at most `M`, `ptype_gather_booth_w<w>` returns the identity when `m = 0`
(whatever the sign bit, bit `w` of `booth_idx`) and otherwise `table[m - 1]`,
negated iff the sign bit is set; hence, for `w ≥ 2`, on the table built by
`ptype_precompute_w<w>` for `P` it returns `(sign ? -m : m) · P`. -/
theorem C10_gather_selects (w : Nat) (hw : 1 ≤ w) {G : Type} [AddCommGroup G]
    (tbl : List G) (htbl : tbl.length = 2 ^ (w - 1)) (idx : Nat)
    (hm : idx &&& ((1 <<< w) - 1) ≤ 2 ^ (w - 1)) :
    ptype_gather_booth w (tbl.map some) idx =
        some (if idx &&& ((1 <<< w) - 1) = 0 then (0 : G)
          else if (idx >>> w) &&& 1 = 1 then -(tbl.getD ((idx &&& ((1 <<< w) - 1)) - 1) 0)
          else tbl.getD ((idx &&& ((1 <<< w) - 1)) - 1) 0) ∧
      (2 ≤ w → ∀ (P : G) (row : List (Option G)), row.length = 2 ^ (w - 1) →
        ∃ t, ptype_precompute w row P = some t ∧
          ptype_gather_booth w t idx =
            some ((if (idx >>> w) &&& 1 = 1 then -((idx &&& ((1 <<< w) - 1) : Nat) : Int)
              else ((idx &&& ((1 <<< w) - 1) : Nat) : Int)) • P)) := by
  have hM : 1 <<< (w - 1) = 2 ^ (w - 1) := Nat.one_shiftLeft _
  have hsign : (idx >>> w) &&& 1 = 0 ∨ (idx >>> w) &&& 1 = 1 := by
    rw [Nat.and_one_is_mod]; omega
  have key : ∀ t : List G, t.length = 2 ^ (w - 1) →
      ptype_gather_booth w (t.map some) idx =
        some (if idx &&& ((1 <<< w) - 1) = 0 then (0 : G)
          else if (idx >>> w) &&& 1 = 1 then -(t.getD ((idx &&& ((1 <<< w) - 1)) - 1) 0)
          else t.getD ((idx &&& ((1 <<< w) - 1)) - 1) 0) := by
    intro t ht
    rw [gather_spec w hw t idx (by rw [hM, ht]), hM]
    congr 1
    generalize idx &&& ((1 <<< w) - 1) = m at hm ⊢
    by_cases h0 : m = 0
    · subst h0
      rcases hsign with h | h <;> rw [h] <;> simp [ptype_cneg]
    · have h1 : 1 ≤ m := by omega
      rcases hsign with h | h <;> rw [h] <;> simp [ptype_cneg, h0, h1, hm]
  refine ⟨key tbl htbl, ?_⟩
  intro hw2 P row hrow
  refine ⟨_, precompute_spec w hw2 row P (by rw [hM]; exact hrow), ?_⟩
  rw [key _ (by rw [multiples_length, hM]), hM]
  congr 1
  generalize idx &&& ((1 <<< w) - 1) = m at hm ⊢
  by_cases h0 : m = 0
  · subst h0
    rw [if_pos rfl]
    rcases hsign with h | h <;> rw [h] <;> simp
  · rw [if_neg h0, multiples_getD _ P m (by omega) hm]
    rcases hsign with h | h <;> rw [h] <;> simp

/-- Witness of C10: window width 3, the table `[10, 20, 30, 40]` of integers
and the digit with magnitude 3 and the sign bit set. -/
theorem C10_witness :
    ptype_gather_booth 3 ([(10 : Int), 20, 30, 40].map some) 11 =
        some (if 11 &&& ((1 <<< 3) - 1) = 0 then (0 : Int)
          else if (11 >>> 3) &&& 1 = 1
            then -([(10 : Int), 20, 30, 40].getD ((11 &&& ((1 <<< 3) - 1)) - 1) 0)
          else [(10 : Int), 20, 30, 40].getD ((11 &&& ((1 <<< 3) - 1)) - 1) 0) ∧
      (2 ≤ 3 → ∀ (P : Int) (row : List (Option Int)), row.length = 2 ^ (3 - 1) →
        ∃ t, ptype_precompute 3 row P = some t ∧
          ptype_gather_booth 3 t 11 =
            some ((if (11 >>> 3) &&& 1 = 1 then -((11 &&& ((1 <<< 3) - 1) : Nat) : Int)
              else ((11 &&& ((1 <<< 3) - 1) : Nat) : Int)) • P)) :=
  C10_gather_selects 3 (by decide) [(10 : Int), 20, 30, 40] (by decide) 11 (by decide)

/-- C11: for every window width `w ≥ 1`, every table of at least `2 ^ (w - 1)`
entries and any two values of `booth_idx`, both runs of the instrumented
`ptype_gather_booth_w<w>` succeed and return what the routine returns, and
they issue the same operations up to the flag arguments: one `vec_zero`, then
the `2 ^ (w - 1)` conditional copies that read the cells `0, 1, …,
2 ^ (w - 1) - 1` in that order, then one conditional negation. -/
theorem C11_gather_oblivious (w : Nat) (hw : 1 ≤ w) {G : Type} [AddCommGroup G]
    (tbl : List G) (hM : 2 ^ (w - 1) ≤ tbl.length) (idx1 idx2 : Nat) :
    ∃ r1 ops1 r2 ops2,
      ptype_gather_booth_traced w (tbl.map some) idx1 = some (r1, ops1) ∧
      ptype_gather_booth_traced w (tbl.map some) idx2 = some (r2, ops2) ∧
      ptype_gather_booth w (tbl.map some) idx1 = some r1 ∧
      ptype_gather_booth w (tbl.map some) idx2 = some r2 ∧
      ops1.map GatherOp.erase_flag = ops2.map GatherOp.erase_flag ∧
      ops1.map GatherOp.erase_flag = GatherOp.vec_zero ::
        ((List.range (2 ^ (w - 1))).map (fun i => GatherOp.ccopy i 0) ++ [GatherOp.cneg 0]) ∧
      ops1.length = 2 ^ (w - 1) + 2 ∧ ops2.length = 2 ^ (w - 1) + 2 := by
  have hM1 : 1 <<< (w - 1) ≤ tbl.length := by rw [Nat.one_shiftLeft]; exact hM
  obtain ⟨r1, h1⟩ := gather_some w hw tbl idx1 hM1
  obtain ⟨r2, h2⟩ := gather_some w hw tbl idx2 hM1
  have key : ∀ idx : Nat, (GatherOp.vec_zero ::
      ((List.range' 1 (1 <<< (w - 1))).map (fun t => GatherOp.ccopy (t - 1)
        (if t = idx &&& ((1 <<< w) - 1) then 1 else 0)) ++
      [GatherOp.cneg ((idx >>> w) &&& 1)])).map GatherOp.erase_flag =
      GatherOp.vec_zero ::
        ((List.range (2 ^ (w - 1))).map (fun i => GatherOp.ccopy i 0) ++
          [GatherOp.cneg 0]) := by
    intro idx
    rw [List.map_cons, List.map_append, erase_flag_copies, Nat.one_shiftLeft]
    rfl
  refine ⟨r1, GatherOp.vec_zero ::
      ((List.range' 1 (1 <<< (w - 1))).map (fun t => GatherOp.ccopy (t - 1)
        (if t = idx1 &&& ((1 <<< w) - 1) then 1 else 0)) ++
      [GatherOp.cneg ((idx1 >>> w) &&& 1)]), r2, GatherOp.vec_zero ::
      ((List.range' 1 (1 <<< (w - 1))).map (fun t => GatherOp.ccopy (t - 1)
        (if t = idx2 &&& ((1 <<< w) - 1) then 1 else 0)) ++
      [GatherOp.cneg ((idx2 >>> w) &&& 1)]), ?_, ?_, h1, h2, ?_, key idx1, ?_, ?_⟩
  · rw [gather_traced_eq, h1, Option.map_some']
  · rw [gather_traced_eq, h2, Option.map_some']
  · rw [key idx1, key idx2]
  · simp only [List.length_cons, List.length_append, List.length_map, List.length_range',
      List.length_nil, Nat.one_shiftLeft]
  · simp only [List.length_cons, List.length_append, List.length_map, List.length_range',
      List.length_nil, Nat.one_shiftLeft]

/-- Witness of C11: width 4, a table of eight integers, the indices 3 (entry 3,
kept) and 24 (entry 8, negated). -/
theorem C11_witness :
    ∃ r1 ops1 r2 ops2,
      ptype_gather_booth_traced 4 ([(10 : Int), 20, 30, 40, 50, 60, 70, 80].map some) 3 =
        some (r1, ops1) ∧
      ptype_gather_booth_traced 4 ([(10 : Int), 20, 30, 40, 50, 60, 70, 80].map some) 24 =
        some (r2, ops2) ∧
      ptype_gather_booth 4 ([(10 : Int), 20, 30, 40, 50, 60, 70, 80].map some) 3 = some r1 ∧
      ptype_gather_booth 4 ([(10 : Int), 20, 30, 40, 50, 60, 70, 80].map some) 24 = some r2 ∧
      ops1.map GatherOp.erase_flag = ops2.map GatherOp.erase_flag ∧
      ops1.map GatherOp.erase_flag = GatherOp.vec_zero ::
        ((List.range (2 ^ (4 - 1))).map (fun i => GatherOp.ccopy i 0) ++ [GatherOp.cneg 0]) ∧
      ops1.length = 2 ^ (4 - 1) + 2 ∧ ops2.length = 2 ^ (4 - 1) + 2 :=
  C11_gather_oblivious 4 (by decide) [(10 : Int), 20, 30, 40, 50, 60, 70, 80] (by decide) 3 24

set_option maxRecDepth 100000 in
/-- C13, the failing input: a point of prime order 17, the scalar 15 as the one
byte `[15]` (so `15 < 17`), public bit-length 5 (`15 < 2 ^ 5`) and window width
4.  The top digit is 1; after the four doublings the accumulator is
`16 · P = -P`, and the low window recodes to the digit `-1`, so the one call
`ptype_add(ret, ret, temp)` of the main loop receives `-P` twice, a point that
is not the identity.  The same happens in the last pass on a point of prime
order 257 with the scalar `255 = 257 - 2` and public bit-length 9, for the
widths 4 and 5.  The routine of the model, whose addition is the group law,
still returns `k · P`. -/
theorem C13_add_failing_input :
    (Nat.Prime 17 ∧ addOrderOf (1 : ZMod 17) = 17 ∧ le_value [(15 : byte)] = 15 ∧
      15 < 17 ∧ 15 < 2 ^ 5 ∧ max 1 ((5 + 7) / 8) ≤ [(15 : byte)].length) ∧
    (ptype_mult_w_traced 64 4 (1 : ZMod 17) [(15 : byte)] 5).map
      (fun x => (x.1, x.2.filterMap Event.add_args)) = some (15, [(16, 16)]) ∧
    (ptype_mult_w_traced 32 4 (1 : ZMod 17) [(15 : byte)] 5).map
      (fun x => (x.1, x.2.filterMap Event.add_args)) = some (15, [(16, 16)]) ∧
    (16 : ZMod 17) ≠ 0 ∧ (16 : ZMod 17) = -1 ∧
    (Nat.Prime 257 ∧ addOrderOf (1 : ZMod 257) = 257 ∧ le_value [(255 : byte), 0] = 255 ∧
      255 < 257 ∧ 255 < 2 ^ 9 ∧ max 1 ((9 + 7) / 8) ≤ [(255 : byte), 0].length) ∧
    (ptype_mult_w_traced 64 4 (1 : ZMod 257) [(255 : byte), 0] 9).map
      (fun x => (x.1, x.2.filterMap Event.add_args)) = some (255, [(16, 0), (256, 256)]) ∧
    (ptype_mult_w_traced 64 5 (1 : ZMod 257) [(255 : byte), 0] 9).map
      (fun x => (x.1, x.2.filterMap Event.add_args)) = some (255, [(256, 256)]) ∧
    (256 : ZMod 257) ≠ 0 ∧ (256 : ZMod 257) = -1 := by
  refine ⟨⟨by norm_num, ZMod.addOrderOf_one 17, by decide, by decide, by decide, by decide⟩,
    by decide, by decide, by decide, by decide,
    ⟨by norm_num, ZMod.addOrderOf_one 257, by decide, by decide, by decide, by decide⟩,
    by decide, by decide, by decide, by decide⟩

set_option maxRecDepth 100000 in
/-- C14, the failing input: a point of order 257 (not the identity) and the
scalar 256, reduced modulo the order, as the bytes `[0, 1, 0, …]`.  The ladder
reads bit `i` as `(scalar[i / LIMB_T_BITS] >> (i % LIMB_T_BITS)) & 1`, so with
64-bit limbs and public bit-length 65 bit 64 is taken from byte 1 and the
ladder works on `2 ^ 64` instead of 256: the doubled accumulator passed to
`ptype_add_affine` equals the point itself in four iterations.  The same
happens twice with 32-bit limbs and public bit-length 33. -/
theorem C14_affine_add_failing_input :
    ((1 : ZMod 257) ≠ 0 ∧ addOrderOf (1 : ZMod 257) = 257 ∧
      le_value [(0 : byte), 1, 0, 0, 0, 0, 0, 0, 0] = 256 ∧
      le_value [(0 : byte), 1, 0, 0, 0] = 256 ∧ 256 < 257 ∧
      max 1 ((65 + 7) / 8) ≤ [(0 : byte), 1, 0, 0, 0, 0, 0, 0, 0].length ∧
      max 1 ((33 + 7) / 8) ≤ [(0 : byte), 1, 0, 0, 0].length) ∧
    (ptype_affine_mult_ladder_traced 64 (1 : ZMod 257) [(0 : byte), 1, 0, 0, 0, 0, 0, 0, 0]
      65).map (fun x => (x.2.filterMap Event.add_affine_args).count (1, 1)) = some 4 ∧
    (ptype_affine_mult_ladder_traced 32 (1 : ZMod 257) [(0 : byte), 1, 0, 0, 0] 33).map
      (fun x => (x.2.filterMap Event.add_affine_args).count (1, 1)) = some 2 := by
  refine ⟨⟨by decide, ZMod.addOrderOf_one 257, by decide, by decide, by decide, by decide,
    by decide⟩, by decide, by decide⟩

/-- Counterexample to C15 as stated: on the point 1 of the integers (not the
identity), window width 4, public bit-length 8 and the one-byte scalar 1, the
top window is zero, so the accumulator after the top-window gather is the
identity; the routine still returns `1 · P`. -/
theorem C15_counterexample :
    (1 : Int) ≠ 0 ∧
      (mult_w_top 64 4 (1 : Int) [(1 : byte)] 8).map (fun st => st.2.2) = some 0 ∧
      ptype_mult_w 64 4 (1 : Int) [(1 : byte)] 8 = some 1 := by
  decide

/-- C15, amended: for a limb of at least 16 bits, every window width
`2 ≤ w ≤ 8`, every point `P`, every public bit-length `L = q · w + r` with
`r < w` and every scalar of at least `max 1 ⌈L / 8⌉` bytes, the top window
value is `v = ⌊2 k / 2 ^ (q · w)⌋ mod 2 ^ (r + 1)`, its Booth digit is the
non-negative `⌈v / 2⌉`, and the accumulator after the top-window gather is
`⌈v / 2⌉ · P`; the digit has magnitude 0 exactly when `v = 0`, and the
accumulator is then the identity. -/
theorem C15_top_accumulator (LB : Nat) (hLB : 16 ≤ LB) (w : Nat) (hw2 : 2 ≤ w) (hw8 : w ≤ 8)
    {G : Type} [AddCommGroup G] (P : G) (q r : Nat) (hr : r < w) (scalar : List byte)
    (hlen : max 1 ((q * w + r + 7) / 8) ≤ scalar.length) :
    ∃ v table acc, window_value LB scalar (q * w) r = some v ∧
      v = (2 * le_value scalar / 2 ^ (q * w)) % 2 ^ (r + 1) ∧
      mult_w_top LB w P scalar (q * w + r) = some (table, q * w, acc) ∧
      booth_digit w (booth_encode LB v w) = (((v + 1) / 2 : Nat) : Int) ∧
      acc = ((v + 1) / 2) • P ∧
      ((v + 1) / 2 = 0 ↔ v = 0) ∧ (v = 0 → acc = 0) := by
  have h1 : 1 ≤ scalar.length := le_trans (le_max_left _ _) hlen
  have h2 : (q * w + r + 7) / 8 ≤ scalar.length := le_trans (le_max_right _ _) hlen
  obtain ⟨hwv, htop⟩ := mult_w_top_spec LB hLB w hw2 hw8 P scalar q r hr h1 (by omega)
  have hvlt : (2 * le_value scalar / 2 ^ (q * w)) % 2 ^ (r + 1) < 2 ^ w :=
    lt_of_lt_of_le (Nat.mod_lt _ (Nat.two_pow_pos _)) (Nat.pow_le_pow_right (by norm_num) hr)
  refine ⟨_, _, _, hwv, rfl, htop, ?_, rfl, by omega, ?_⟩
  · rw [booth_digit_encode LB w _ (by omega)
      (lt_trans hvlt (Nat.pow_lt_pow_right (by norm_num) (by omega))),
      Nat.div_eq_of_lt hvlt, Nat.cast_zero, mul_zero, sub_zero]
  · intro h0
    rw [h0]
    simp

/-- Witness of amended C15: width 5, public bit-length 12, the two-byte scalar
`0x0eb5` on the point 1 of the integers. -/
theorem C15_witness :
    ∃ v table acc, window_value 64 [(0xb5 : byte), 0x0e] (2 * 5) 2 = some v ∧
      v = (2 * le_value [(0xb5 : byte), 0x0e] / 2 ^ (2 * 5)) % 2 ^ (2 + 1) ∧
      mult_w_top 64 5 (1 : Int) [(0xb5 : byte), 0x0e] (2 * 5 + 2) = some (table, 2 * 5, acc) ∧
      booth_digit 5 (booth_encode 64 v 5) = (((v + 1) / 2 : Nat) : Int) ∧
      acc = ((v + 1) / 2) • (1 : Int) ∧
      ((v + 1) / 2 = 0 ↔ v = 0) ∧ (v = 0 → acc = 0) :=
  C15_top_accumulator 64 (by decide) 5 (by decide) (by decide) (1 : Int) 2 2 (by decide)
    [(0xb5 : byte), 0x0e] (by decide)

/-- Counterexample to C16 as stated: for width 4 and the raw value 15 the
recoded value is 8, whose low `w - 1 = 3` bits are 0, whereas the magnitude
is 8; the gather selects entry 8 of the table (0-based cell 7), not cell 0. -/
theorem C16_counterexample :
    booth_encode 64 15 4 &&& (2 ^ (4 - 1) - 1) = 0 ∧
      booth_encode 64 15 4 &&& ((1 <<< 4) - 1) = 8 ∧
      ptype_gather_booth 4 ([(10 : Int), 20, 30, 40, 50, 60, 70, 80].map some)
        (booth_encode 64 15 4) = some 80 ∧
      ptype_gather_booth 4 ([(10 : Int), 20, 30, 40, 50, 60, 70, 80].map some)
          (booth_encode 64 15 4) ≠
        some ([(10 : Int), 20, 30, 40, 50, 60, 70, 80].getD
          (booth_encode 64 15 4 &&& (2 ^ (4 - 1) - 1)) 0) := by
  decide

/-- C16, amended: for every window width `w ≥ 1` with `w + 2` at most the limb
width and every raw value `v < 2 ^ (w + 1)`, bit `w` of `booth_encode v w` is
the sign flag (bit `w` of `v`), and the low `w` bits are the magnitude of the
digit, at most `2 ^ (w - 1)`: the 1-based index of the table entry, 0 standing
for the identity.  The gather returns the identity for magnitude 0 and
otherwise cell `magnitude - 1` of the table, negated iff the flag is set. -/
theorem C16_booth_index_layout (LB w v : Nat) (hw : 1 ≤ w) (hLB : w + 2 ≤ LB)
    (hv : v < 2 ^ (w + 1)) {G : Type} [AddCommGroup G] (tbl : List G)
    (htbl : tbl.length = 2 ^ (w - 1)) :
    (booth_encode LB v w >>> w) &&& 1 = v >>> w ∧
    booth_encode LB v w &&& ((1 <<< w) - 1) ≤ 2 ^ (w - 1) ∧
    ((booth_encode LB v w &&& ((1 <<< w) - 1) : Nat) : Int) =
      |(((v + 1) / 2 : Nat) : Int) - 2 ^ w * ((v >>> w : Nat) : Int)| ∧
    (booth_encode LB v w &&& ((1 <<< w) - 1) = 0 →
      ptype_gather_booth w (tbl.map some) (booth_encode LB v w) = some 0) ∧
    (1 ≤ booth_encode LB v w &&& ((1 <<< w) - 1) →
      ∃ T, tbl[(booth_encode LB v w &&& ((1 <<< w) - 1)) - 1]? = some T ∧
        ptype_gather_booth w (tbl.map some) (booth_encode LB v w) =
          some (ptype_cneg T (v >>> w))) := by
  have hp1 : (2 : Nat) ^ (w + 1) = 2 * 2 ^ w := by ring
  have hp0 : (2 : Nat) ^ w = 2 * 2 ^ (w - 1) := by
    rw [← Nat.pow_succ', Nat.succ_eq_add_one, Nat.sub_add_cancel hw]
  have hpos : 0 < 2 ^ (w - 1) := Nat.two_pow_pos _
  have hM : 1 <<< (w - 1) = 2 ^ (w - 1) := Nat.one_shiftLeft _
  have hg := gather_spec w hw tbl (booth_encode LB v w) (by rw [hM, htbl])
  rw [hM] at hg
  rw [Nat.shiftRight_eq_div_pow v w]
  by_cases h : v < 2 ^ w
  · obtain ⟨hs, hm⟩ := booth_decode_low LB v w hLB h
    rw [hs, hm] at hg
    rw [hs, hm, Nat.div_eq_of_lt h]
    refine ⟨rfl, by omega, ?_, ?_, ?_⟩
    · rw [Nat.cast_zero, mul_zero, sub_zero, abs_of_nonneg (Int.ofNat_nonneg _)]
    · intro h0
      rw [hg, h0]
      simp [ptype_cneg]
    · intro h1
      refine ⟨tbl.getD ((v + 1) / 2 - 1) 0, getElem?_of_lt_length tbl 0 _ (by omega), ?_⟩
      rw [hg, if_pos ⟨h1, by omega⟩]
  · obtain ⟨hs, hm⟩ := booth_decode_high LB v w hLB (by omega) hv
    have hq : v / 2 ^ w = 1 := by
      apply Nat.div_eq_of_lt_le <;> omega
    rw [hs, hm] at hg
    rw [hs, hm, hq]
    refine ⟨rfl, by omega, ?_, ?_, ?_⟩
    · have hle : (v + 1) / 2 ≤ 2 ^ w := by omega
      have hle' : (((v + 1) / 2 : Nat) : Int) ≤ 2 ^ w := by exact_mod_cast hle
      rw [Nat.cast_sub hle, Nat.cast_one, mul_one, abs_sub_comm,
        abs_of_nonneg (by linarith)]
      push_cast
      ring
    · intro h0
      rw [hg, h0]
      simp [ptype_cneg]
    · intro h1
      refine ⟨tbl.getD (2 ^ w - (v + 1) / 2 - 1) 0, getElem?_of_lt_length tbl 0 _ (by omega), ?_⟩
      rw [hg, if_pos ⟨h1, by omega⟩]

/-- Witness of amended C16: width 4 and the raw value 15 on a table of eight
integers. -/
theorem C16_witness :
    (booth_encode 64 15 4 >>> 4) &&& 1 = 15 >>> 4 ∧
    booth_encode 64 15 4 &&& ((1 <<< 4) - 1) ≤ 2 ^ (4 - 1) ∧
    ((booth_encode 64 15 4 &&& ((1 <<< 4) - 1) : Nat) : Int) =
      |(((15 + 1) / 2 : Nat) : Int) - 2 ^ 4 * ((15 >>> 4 : Nat) : Int)| ∧
    (booth_encode 64 15 4 &&& ((1 <<< 4) - 1) = 0 →
      ptype_gather_booth 4 ([(10 : Int), 20, 30, 40, 50, 60, 70, 80].map some)
        (booth_encode 64 15 4) = some 0) ∧
    (1 ≤ booth_encode 64 15 4 &&& ((1 <<< 4) - 1) →
      ∃ T, [(10 : Int), 20, 30, 40, 50, 60, 70, 80][(booth_encode 64 15 4 &&&
          ((1 <<< 4) - 1)) - 1]? = some T ∧
        ptype_gather_booth 4 ([(10 : Int), 20, 30, 40, 50, 60, 70, 80].map some)
          (booth_encode 64 15 4) = some (ptype_cneg T (15 >>> 4))) :=
  C16_booth_index_layout 64 4 15 (by decide) (by decide) (by decide)
    [(10 : Int), 20, 30, 40, 50, 60, 70, 80] (by decide)

/-- C17: for a limb of at least 16 bits, every byte sequence `d`, every offset
`off` and every width `1 ≤ bits ≤ 9` with `off + bits ≤ 8 · len d`, the two
bytes `get_wval` loads are the same byte or neighbours, the call succeeds, and
its value masked to `bits` bits is `⌊value d / 2 ^ off⌋ mod 2 ^ bits`. -/
theorem C17_get_wval_masked (LB : Nat) (hLB : 16 ≤ LB) (d : List byte) (off bits : Nat)
    (hb1 : 1 ≤ bits) (hb9 : bits ≤ 9) (hlen : off + bits ≤ 8 * d.length) :
    ((off + bits - 1) / 8 = off / 8 ∨ (off + bits - 1) / 8 = off / 8 + 1) ∧
    ∃ v, get_wval LB d off bits = some v ∧
      v &&& (2 ^ bits - 1) = (le_value d / 2 ^ off) % 2 ^ bits := by
  obtain ⟨v, hv, hmod⟩ := get_wval_mod LB hLB d off bits hb1 hb9 hlen
  exact ⟨by omega, v, hv, by rw [Nat.and_pow_two_sub_one_eq_mod, hmod]⟩

/-- Witness of C17: a four-bit window at offset 3 of the two-byte scalar
`0x3ca5`. -/
theorem C17_witness :
    ((3 + 4 - 1) / 8 = 3 / 8 ∨ (3 + 4 - 1) / 8 = 3 / 8 + 1) ∧
    ∃ v, get_wval 64 [(0xa5 : byte), 0x3c] 3 4 = some v ∧
      v &&& (2 ^ 4 - 1) = (le_value [(0xa5 : byte), 0x3c] / 2 ^ 3) % 2 ^ 4 :=
  C17_get_wval_masked 64 (by decide) [(0xa5 : byte), 0x3c] 3 4 (by decide) (by decide)
    (by decide)

/-- C18: the XZ primitives are parameters; `Rep x A` reads "the XZ form `x`
represents the point `A`", with `xz_zero` representing the identity,
`ladder_pre P` representing `P`, and `ladder_step` mapping forms that
represent `(A, B)` with `B - A = ±P` to forms representing `(2A, A + B)`.
Then for every scalar of at least `⌈L / 8⌉` bytes, after `j ≤ L` passes of
the loop of `ptype_mult_ladder` the state exists, `pbit` is the last bit
processed (0 when `j = 0`), and `(ret, sum)` exchanged iff `pbit = 1`
represents `(m · P, m · P + P)` for `m = ⌊(k mod 2 ^ L) / 2 ^ (L - j)⌋`; after
the whole loop the final exchange leaves `ret` representing `(k mod 2 ^ L) · P`
and `sum` representing `(k mod 2 ^ L) · P + P`. -/
theorem C18_xz_ladder_invariant {G XZ FY : Type} [AddCommGroup G] (ops : XZPrims G XZ FY)
    (Rep : XZ → G → Prop) (P : G) (scalar : List byte) (L : Nat)
    (hlen : L ≤ 8 * scalar.length)
    (hzero : Rep ops.xz_zero 0)
    (hpre : Rep (ops.ladder_pre P) P)
    (hstep : ∀ r s A B, Rep r A → Rep s B → (B - A = P ∨ B - A = -P) →
      Rep (ops.ladder_step r s (ops.ladder_pre P)).1 (A + A) ∧
      Rep (ops.ladder_step r s (ops.ladder_pre P)).2 (A + B)) :
    (∀ j, j ≤ L → ∃ ret sum pbit,
      mult_ladder_after ops (ops.ladder_pre P) scalar L (ops.xz_zero, ops.ladder_pre P, 0) j =
        some (ret, sum, pbit) ∧
      pbit = (if j = 0 then 0 else (le_value scalar / 2 ^ (L - j)) % 2) ∧
      Rep (xz_cswap ret sum pbit).1 (((le_value scalar % 2 ^ L) / 2 ^ (L - j)) • P) ∧
      Rep (xz_cswap ret sum pbit).2 (((le_value scalar % 2 ^ L) / 2 ^ (L - j)) • P + P)) ∧
    (∃ ret sum pbit,
      mult_ladder_loop ops (ops.ladder_pre P) scalar L (ops.xz_zero, ops.ladder_pre P, 0) =
        some (ret, sum, pbit) ∧
      Rep (xz_cswap ret sum pbit).1 ((le_value scalar % 2 ^ L) • P) ∧
      Rep (xz_cswap ret sum pbit).2 ((le_value scalar % 2 ^ L) • P + P)) := by
  have hinv := mult_ladder_after_inv ops Rep P scalar L hlen hzero hpre hstep
  refine ⟨hinv, ?_⟩
  obtain ⟨ret, sum, pbit, hst, _, h1, h2⟩ := hinv L (le_refl _)
  rw [Nat.sub_self, pow_zero, Nat.div_one] at h1 h2
  exact ⟨ret, sum, pbit, by rw [mult_ladder_loop_eq_after, hst], h1, h2⟩

/-- Witness of C18: the primitives on the integers with absolute values as XZ
forms, the scalar `0x02b5` and public bit-length 10. -/
theorem C18_witness :
    (∀ j, j ≤ 10 → ∃ ret sum pbit,
      mult_ladder_after absXZ (absXZ.ladder_pre 1) [(0xb5 : byte), 0x02] 10
        (absXZ.xz_zero, absXZ.ladder_pre 1, 0) j = some (ret, sum, pbit) ∧
      pbit = (if j = 0 then 0 else (le_value [(0xb5 : byte), 0x02] / 2 ^ (10 - j)) % 2) ∧
      (fun (x : Nat) (A : Int) => x = A.natAbs) (xz_cswap ret sum pbit).1
        (((le_value [(0xb5 : byte), 0x02] % 2 ^ 10) / 2 ^ (10 - j)) • (1 : Int)) ∧
      (fun (x : Nat) (A : Int) => x = A.natAbs) (xz_cswap ret sum pbit).2
        (((le_value [(0xb5 : byte), 0x02] % 2 ^ 10) / 2 ^ (10 - j)) • (1 : Int) + 1)) ∧
    (∃ ret sum pbit,
      mult_ladder_loop absXZ (absXZ.ladder_pre 1) [(0xb5 : byte), 0x02] 10
        (absXZ.xz_zero, absXZ.ladder_pre 1, 0) = some (ret, sum, pbit) ∧
      (fun (x : Nat) (A : Int) => x = A.natAbs) (xz_cswap ret sum pbit).1
        ((le_value [(0xb5 : byte), 0x02] % 2 ^ 10) • (1 : Int)) ∧
      (fun (x : Nat) (A : Int) => x = A.natAbs) (xz_cswap ret sum pbit).2
        ((le_value [(0xb5 : byte), 0x02] % 2 ^ 10) • (1 : Int) + 1)) :=
  C18_xz_ladder_invariant absXZ (fun x A => x = A.natAbs) (1 : Int) [(0xb5 : byte), 0x02] 10
    (by decide) rfl rfl
    (fun r s A B hr hs hd => by
      constructor
      · show 2 * r = (A + A).natAbs
        omega
      · show (if s = r + 1 then 2 * r + 1 else 2 * r - 1) = (A + B).natAbs
        split <;> omega)

/-- C19: for every window width `w`, public bit-length `L`, number of inputs
`n` and any two choices of scalar bytes (each scalar of at least
`max 1 ⌈L / 8⌉` bytes), the instrumented `ptype_mult_w<w>` and
`ptypes_mult_w<w>` issue the same sequence of primitive calls on both choices.
For `w ≥ 2` the runs succeed, the sequences are the ones fixed by `w`, `L` and
`n` alone, and `ptype_mult_w<w>` performs one table construction,
`⌊L / w⌋ + 1` gathers, `w · ⌊L / w⌋` doublings and `⌊L / w⌋` additions; the
values the loop counter takes at the loop tests are `⌊L / w⌋ · w, …, w, 0`:
multiples of `w`, at most `L`, ending in 0, and no subtraction wraps.  (For
`w < 2` the table builder fails in both runs before any other call.) -/
theorem C19_public_control_flow (LB w L : Nat) {G : Type} [AddCommGroup G] (P : G)
    (s1 s2 : List byte) (hs1 : max 1 ((L + 7) / 8) ≤ s1.length)
    (hs2 : max 1 ((L + 7) / 8) ≤ s2.length)
    (points : List G) (n : Nat) (hp : points.length = n)
    (ss1 ss2 : List (List byte)) (hn1 : ss1.length = n) (hn2 : ss2.length = n)
    (hss1 : ∀ s, s ∈ ss1 → max 1 ((L + 7) / 8) ≤ s.length)
    (hss2 : ∀ s, s ∈ ss2 → max 1 ((L + 7) / 8) ≤ s.length) :
    (ptype_mult_w_traced LB w P s1 L).map (fun x => x.2.filterMap Event.call) =
      (ptype_mult_w_traced LB w P s2 L).map (fun x => x.2.filterMap Event.call) ∧
    (ptypes_mult_w_traced LB w points n ss1 L none).map (fun x => x.2.filterMap Event.call) =
      (ptypes_mult_w_traced LB w points n ss2 L none).map
        (fun x => x.2.filterMap Event.call) ∧
    (2 ≤ w → ∃ r tr, ptype_mult_w_traced LB w P s1 L = some (r, tr) ∧
      ptype_mult_w LB w P s1 L = some r ∧
      tr.filterMap Event.call = mult_w_calls w L ∧
      (tr.filterMap Event.call).count Call.precompute = 1 ∧
      (tr.filterMap Event.call).count Call.gather = L / w + 1 ∧
      (tr.filterMap Event.call).count Call.double = w * (L / w) ∧
      (tr.filterMap Event.call).count Call.add = L / w ∧
      tr.filterMap Event.counter_value = counter_values w (L / w) ∧
      (∀ b, b ∈ tr.filterMap Event.counter_value → w ∣ b ∧ b ≤ L) ∧
      (tr.filterMap Event.counter_value).getLast? = some 0) ∧
    (2 ≤ w → 1 ≤ n → ∃ r tr, ptypes_mult_w_traced LB w points n ss1 L none = some (r, tr) ∧
      ptypes_mult_w LB w points n ss1 L none = some r ∧
      tr.filterMap Event.call = mults_calls w L n ∧
      tr.filterMap Event.counter_value = counter_values w (L / w) ∧
      (∀ b, b ∈ tr.filterMap Event.counter_value → w ∣ b ∧ b ≤ L) ∧
      (tr.filterMap Event.counter_value).getLast? = some 0) := by
  have hlen : ∀ (ss : List (List byte)), ss.length = n →
      (∀ s, s ∈ ss → max 1 ((L + 7) / 8) ≤ s.length) →
      ∀ t, t < n → 1 ≤ (ss.getD t []).length ∧ L ≤ 8 * (ss.getD t []).length := by
    intro ss hn hss t ht
    have hmem : ss.getD t [] ∈ ss :=
      List.getElem?_mem (getElem?_of_lt_length ss [] t (by omega))
    have h := hss _ hmem
    have hmax1 : 1 ≤ max 1 ((L + 7) / 8) := le_max_left _ _
    have hmax2 : (L + 7) / 8 ≤ max 1 ((L + 7) / 8) := le_max_right _ _
    exact ⟨by omega, by omega⟩
  have hmax1 : 1 ≤ max 1 ((L + 7) / 8) := le_max_left _ _
  have hmax2 : (L + 7) / 8 ≤ max 1 ((L + 7) / 8) := le_max_right _ _
  have hcnt : ∀ b, b ∈ counter_values w (L / w) → w ∣ b ∧ b ≤ L := by
    intro b hb
    obtain ⟨hd, hle⟩ := (counter_values_spec w (L / w)).1 b hb
    exact ⟨hd, le_trans hle (Nat.div_mul_le_self L w)⟩
  refine ⟨?_, ?_, ?_, ?_⟩
  · by_cases hw : 2 ≤ w
    · obtain ⟨r1, tr1, h1, hc1, _⟩ := mult_w_traced_shape LB w hw P s1 L (by omega) (by omega)
      obtain ⟨r2, tr2, h2, hc2, _⟩ := mult_w_traced_shape LB w hw P s2 L (by omega) (by omega)
      rw [h1, h2, Option.map_some', Option.map_some', hc1, hc2]
    · rw [mult_w_traced_narrow LB w (by omega), mult_w_traced_narrow LB w (by omega)]
  · by_cases hn0 : n = 0
    · have e1 : ss1 = [] := List.length_eq_zero.mp (by omega)
      have e2 : ss2 = [] := List.length_eq_zero.mp (by omega)
      rw [e1, e2]
    · by_cases hw : 2 ≤ w
      · obtain ⟨r1, tr1, h1, hc1, _⟩ := mults_w_traced_shape LB w hw points n hp (by omega)
          ss1 hn1 L (hlen ss1 hn1 hss1)
        obtain ⟨r2, tr2, h2, hc2, _⟩ := mults_w_traced_shape LB w hw points n hp (by omega)
          ss2 hn2 L (hlen ss2 hn2 hss2)
        rw [h1, h2, Option.map_some', Option.map_some', hc1, hc2]
      · rw [mults_w_traced_narrow LB w (by omega) points n hp (by omega),
          mults_w_traced_narrow LB w (by omega) points n hp (by omega)]
  · intro hw
    obtain ⟨r, tr, h, hc, hcv, _⟩ := mult_w_traced_shape LB w hw P s1 L (by omega) (by omega)
    obtain ⟨c1, c2, c3, c4⟩ := count_window_calls w (L / w)
    refine ⟨r, tr, h, ?_, hc, ?_, ?_, ?_, ?_, hcv, ?_, ?_⟩
    · rw [← mult_w_traced_erase, h, Option.map_some']
    · rw [hc, mult_w_calls, List.count_cons_self, List.count_cons_of_ne (by decide), c4]
    · rw [hc, mult_w_calls, List.count_cons_of_ne (by decide), List.count_cons_self, c1]
    · rw [hc, mult_w_calls, List.count_cons_of_ne (by decide),
        List.count_cons_of_ne (by decide), c2]
    · rw [hc, mult_w_calls, List.count_cons_of_ne (by decide),
        List.count_cons_of_ne (by decide), c3]
    · rw [hcv]; exact hcnt
    · rw [hcv]; exact (counter_values_spec w (L / w)).2.1
  · intro hw hn
    obtain ⟨r, tr, h, hc, hcv, _⟩ := mults_w_traced_shape LB w hw points n hp hn ss1 hn1 L
      (hlen ss1 hn1 hss1)
    refine ⟨r, tr, h, ?_, hc, hcv, ?_, ?_⟩
    · rw [← mults_w_traced_erase, h, Option.map_some']
    · rw [hcv]; exact hcnt
    · rw [hcv]; exact (counter_values_spec w (L / w)).2.1

/-- Witness of C19: width 4, public bit-length 12, two different two-byte
scalars for one point, and two different pairs of two-byte scalars for two
points of the integers. -/
theorem C19_witness :
    (ptype_mult_w_traced 64 4 (1 : Int) [(0x21 : byte), 0x03] 12).map
        (fun x => x.2.filterMap Event.call) =
      (ptype_mult_w_traced 64 4 (1 : Int) [(0xfe : byte), 0x0f] 12).map
        (fun x => x.2.filterMap Event.call) ∧
    (ptypes_mult_w_traced 64 4 [(1 : Int), 1000] 2 [[(0x21 : byte), 0x03], [0xfe, 0x0f]] 12
        none).map (fun x => x.2.filterMap Event.call) =
      (ptypes_mult_w_traced 64 4 [(1 : Int), 1000] 2 [[(0 : byte), 0], [0xff, 0xff]] 12
        none).map (fun x => x.2.filterMap Event.call) ∧
    (2 ≤ 4 → ∃ r tr, ptype_mult_w_traced 64 4 (1 : Int) [(0x21 : byte), 0x03] 12 =
        some (r, tr) ∧
      ptype_mult_w 64 4 (1 : Int) [(0x21 : byte), 0x03] 12 = some r ∧
      tr.filterMap Event.call = mult_w_calls 4 12 ∧
      (tr.filterMap Event.call).count Call.precompute = 1 ∧
      (tr.filterMap Event.call).count Call.gather = 12 / 4 + 1 ∧
      (tr.filterMap Event.call).count Call.double = 4 * (12 / 4) ∧
      (tr.filterMap Event.call).count Call.add = 12 / 4 ∧
      tr.filterMap Event.counter_value = counter_values 4 (12 / 4) ∧
      (∀ b, b ∈ tr.filterMap Event.counter_value → 4 ∣ b ∧ b ≤ 12) ∧
      (tr.filterMap Event.counter_value).getLast? = some 0) ∧
    (2 ≤ 4 → 1 ≤ 2 → ∃ r tr,
      ptypes_mult_w_traced 64 4 [(1 : Int), 1000] 2 [[(0x21 : byte), 0x03], [0xfe, 0x0f]] 12
        none = some (r, tr) ∧
      ptypes_mult_w 64 4 [(1 : Int), 1000] 2 [[(0x21 : byte), 0x03], [0xfe, 0x0f]] 12 none =
        some r ∧
      tr.filterMap Event.call = mults_calls 4 12 2 ∧
      tr.filterMap Event.counter_value = counter_values 4 (12 / 4) ∧
      (∀ b, b ∈ tr.filterMap Event.counter_value → 4 ∣ b ∧ b ≤ 12) ∧
      (tr.filterMap Event.counter_value).getLast? = some 0) :=
  C19_public_control_flow 64 4 12 (1 : Int) [(0x21 : byte), 0x03] [(0xfe : byte), 0x0f]
    (by decide) (by decide) [(1 : Int), 1000] 2 (by decide)
    [[(0x21 : byte), 0x03], [0xfe, 0x0f]] [[(0 : byte), 0], [0xff, 0xff]] (by decide)
    (by decide) (by decide) (by decide)

/-- C20: for every window width `w ≥ 1`, every public bit-length `L` and every
scalar of at least `max 1 ⌈L / 8⌉` bytes: each window the routines take below
bit `L` loads `d[(off + bits - 1) / 8]` and `d[off / 8]` inside `get_wval`, or
`scalar[0]`, at indices below `max 1 ⌈L / 8⌉`, and no load fails; so does the
whole main loop of `ptype_mult_w<w>` on any table of `2 ^ (w - 1)` entries;
and for `w ≥ 2` the runs of `ptype_mult_w<w>` and, per input, of
`ptypes_mult_w<w>` (`n ≥ 1`) succeed with every load of scalar `t` below that
bound.  (For `w = 1` the table builder stores past its one-cell table before
any scalar byte is loaded.) -/
theorem C20_scalar_reads_in_bounds (LB w L : Nat) (hw1 : 1 ≤ w) {G : Type} [AddCommGroup G]
    (P : G) (s : List byte) (hs : max 1 ((L + 7) / 8) ≤ s.length)
    (points : List G) (n : Nat) (hp : points.length = n) (hn : 1 ≤ n)
    (ss : List (List byte)) (hlen : ss.length = n)
    (hss : ∀ s, s ∈ ss → max 1 ((L + 7) / 8) ≤ s.length) :
    (∀ b window, b + window ≤ L → ∃ v reads,
      window_value_traced LB s b window = some (v, reads) ∧
      reads = (if b ≠ 0 then [(b + window - 1) / 8, (b - 1) / 8] else [0]) ∧
      ∀ i, i ∈ reads → i < max 1 ((L + 7) / 8) ∧ i < s.length) ∧
    (∀ (tbl : List G) (acc : G), 2 ^ (w - 1) ≤ tbl.length → ∃ r tr,
      mult_w_loop_traced LB w (tbl.map some) s (L / w * w) (L / w * w) acc = some (r, tr) ∧
      ∀ t i, Event.read t i ∈ tr → t = 0 ∧ i < max 1 ((L + 7) / 8)) ∧
    (2 ≤ w → ∃ r tr, ptype_mult_w_traced LB w P s L = some (r, tr) ∧
      ptype_mult_w LB w P s L = some r ∧
      ∀ t i, Event.read t i ∈ tr → t = 0 ∧ i < max 1 ((L + 7) / 8)) ∧
    (2 ≤ w → ∃ r tr, ptypes_mult_w_traced LB w points n ss L none = some (r, tr) ∧
      ptypes_mult_w LB w points n ss L none = some r ∧
      ∀ t i, Event.read t i ∈ tr → t < n ∧ i < max 1 ((L + 7) / 8)) := by
  have hmax1 : 1 ≤ max 1 ((L + 7) / 8) := le_max_left _ _
  have hmax2 : (L + 7) / 8 ≤ max 1 ((L + 7) / 8) := le_max_right _ _
  refine ⟨?_, ?_, ?_, ?_⟩
  · intro b window hbw
    obtain ⟨v, hv⟩ := window_value_some LB s b window (by omega) (by omega)
    refine ⟨v, if b ≠ 0 then [(b + window - 1) / 8, (b - 1) / 8] else [0], ?_, rfl, ?_⟩
    · rw [window_value_traced_eq, hv, Option.map_some']
    · intro i hi
      by_cases hb0 : b ≠ 0
      · rw [if_pos hb0] at hi
        simp only [List.mem_cons, List.mem_singleton, List.not_mem_nil, or_false] at hi
        rcases hi with rfl | rfl <;> constructor <;> omega
      · rw [if_neg hb0] at hi
        simp only [List.mem_singleton] at hi
        constructor <;> omega
  · intro tbl acc hM
    have hj : L / w ≤ L / w * w := Nat.le_mul_of_pos_right _ (by omega)
    have hL : L / w * w ≤ L := Nat.div_mul_le_self L w
    obtain ⟨r, tr, h, _, _, hreads⟩ := mult_w_loop_traced_shape LB w hw1 tbl
      (by rw [Nat.one_shiftLeft]; exact hM) s (by omega) (L / w * w) (L / w) acc hj (by omega)
    refine ⟨r, tr, h, ?_⟩
    intro t i hti
    obtain ⟨ht, hi⟩ := hreads t i hti
    exact ⟨ht, by omega⟩
  · intro hw
    obtain ⟨r, tr, h, _, _, hreads⟩ := mult_w_traced_shape LB w hw P s L (by omega) (by omega)
    refine ⟨r, tr, h, ?_, hreads⟩
    rw [← mult_w_traced_erase, h, Option.map_some']
  · intro hw
    obtain ⟨r, tr, h, _, _, hreads⟩ := mults_w_traced_shape LB w hw points n hp hn ss hlen L
      (by
        intro t ht
        have hmem : ss.getD t [] ∈ ss :=
          List.getElem?_mem (getElem?_of_lt_length ss [] t (by omega))
        have h := hss _ hmem
        exact ⟨by omega, by omega⟩)
    refine ⟨r, tr, h, ?_, hreads⟩
    rw [← mults_w_traced_erase, h, Option.map_some']

/-- Witness of C20: width 5, public bit-length 12, two-byte scalars, one and
two points of the integers. -/
theorem C20_witness :
    (∀ b window, b + window ≤ 12 → ∃ v reads,
      window_value_traced 64 [(0xb5 : byte), 0x0e] b window = some (v, reads) ∧
      reads = (if b ≠ 0 then [(b + window - 1) / 8, (b - 1) / 8] else [0]) ∧
      ∀ i, i ∈ reads → i < max 1 ((12 + 7) / 8) ∧ i < [(0xb5 : byte), 0x0e].length) ∧
    (∀ (tbl : List Int) (acc : Int), 2 ^ (5 - 1) ≤ tbl.length → ∃ r tr,
      mult_w_loop_traced 64 5 (tbl.map some) [(0xb5 : byte), 0x0e] (12 / 5 * 5) (12 / 5 * 5)
        acc = some (r, tr) ∧
      ∀ t i, Event.read t i ∈ tr → t = 0 ∧ i < max 1 ((12 + 7) / 8)) ∧
    (2 ≤ 5 → ∃ r tr, ptype_mult_w_traced 64 5 (1 : Int) [(0xb5 : byte), 0x0e] 12 =
        some (r, tr) ∧
      ptype_mult_w 64 5 (1 : Int) [(0xb5 : byte), 0x0e] 12 = some r ∧
      ∀ t i, Event.read t i ∈ tr → t = 0 ∧ i < max 1 ((12 + 7) / 8)) ∧
    (2 ≤ 5 → ∃ r tr,
      ptypes_mult_w_traced 64 5 [(1 : Int), 1000] 2 [[(0x21 : byte), 0x03], [0xfe, 0x0f]] 12
        none = some (r, tr) ∧
      ptypes_mult_w 64 5 [(1 : Int), 1000] 2 [[(0x21 : byte), 0x03], [0xfe, 0x0f]] 12 none =
        some r ∧
      ∀ t i, Event.read t i ∈ tr → t < 2 ∧ i < max 1 ((12 + 7) / 8)) :=
  C20_scalar_reads_in_bounds 64 5 12 (by decide) (1 : Int) [(0xb5 : byte), 0x0e] (by decide)
    [(1 : Int), 1000] 2 (by decide) (by decide) [[(0x21 : byte), 0x03], [0xfe, 0x0f]]
    (by decide) (by decide)

end Claims

end EcMult
